import Mathlib

/-!
HNSW graph index (`internal/graph/hnsw.go`)

A shallow embedding of the Go package `graph`.

* A `*Node` is modelled by the position of the node in allocation order.  The
  only allocation site is `Insert`, and after every completed `Insert` the
  slice `h.Nodes` lists the allocated nodes in allocation order, so `h.Nodes`
  doubles as the node store; while an `Insert` runs, the store is `h.Nodes`
  followed by the node being inserted.
* `float64` is idealised by exact rationals.  `EuclideanDistance` returns the
  sum of squares *before* `math.Sqrt`; every use of a distance in the package
  is a strict comparison with another distance or with `0.0`, and the square
  root is strictly monotone on non-negative numbers.  Where `float64` rounds
  or overflows, distances that differ as rationals can compare equal in the
  Go code; such inputs are outside the model.
* The level drawn from `rand.Float64()` is an explicit argument of `Insert`;
  `levelDrawable` tells which levels `Insert` can draw for a given `MaxEdges`.
* `make([]*Node, 0, ef)` stops with `makeslice: cap out of range` for a
  negative `ef` and for an `ef` above `maxSliceCap`.
* `sort.Slice` is modelled by insertion sort, the algorithm it runs on slices
  of at most 12 entries.  On longer slices Go switches to pattern-defeating
  quicksort, which also returns a permutation ordered by `less` but may place
  entries of equal distance differently.
* Run-time errors of Go are results of type `Except Fault`.  The loops of
  `searchLayer` run on a budget of `len(store) + 1` iterations, which is never
  used up (`Insert_ne_outOfFuel`, `Search_ne_outOfFuel`).
-/

namespace Graph

/-- Ways in which an operation stops without a result. -/
inductive Fault where
  /-- Go: `index out of range`. -/
  | indexOutOfRange
  /-- Go: `makeslice: cap out of range`. -/
  | makesliceCap
  /-- A position outside the node store (no Go pointer denotes it). -/
  | danglingPointer
  /-- The loop budget of the model was used up. -/
  | outOfFuel
  deriving DecidableEq

deriving instance DecidableEq for Except

/-- Go `type Node struct`; `Friends[l]` lists store positions. -/
structure Node where
  ID : Nat
  Vector : List ℚ
  Friends : List (List Nat)
  deriving DecidableEq

/-- Go `type HNSW struct`, without the mutex and without `LevelMult`
(a `float64` that only feeds the random level draw). -/
structure HNSW where
  Nodes : List Node
  MaxEdges : Int
  Ef : Int
  deriving DecidableEq

/-- Go `NewHNSW`.  The field `LevelMult = 1 / math.Log(float64(maxEdges))` is
not stored; what it makes of the random draw is described by `levelDrawable`.
The division does not panic: `LevelMult` is `+Inf` for `maxEdges = 1`, `-0`
for `maxEdges = 0` and `NaN` for a negative `maxEdges`. -/
def NewHNSW (maxEdges ef : Int) : HNSW :=
  { Nodes := [], MaxEdges := maxEdges, Ef := ef }

/-- Go runtime, 64-bit platforms: `make([]*Node, 0, n)` panics with
`makeslice: cap out of range` when `n` pointers of 8 bytes exceed `maxAlloc`,
which is `2^48` bytes, that is for `n > 2^45`.  A request below that bound
that the machine cannot serve is outside the model. -/
def maxSliceCap : Int := 35184372088832

/-- Go on amd64: the result of `int(x)` for a `float64` `x` that is `+Inf` or
`NaN`, the minimum `int64`.  The language leaves this conversion
implementation-dependent. -/
def intOfNonFinite : Int := -9223372036854775808

/-- The levels that line 57 of `Insert`,
`int(math.Floor(-math.Log(rand.Float64()) * h.LevelMult))`, can yield for an
index made by `NewHNSW(maxEdges, _)`.  `rand.Float64()` is in `[0, 1)`.
* `maxEdges ≥ 2`: `LevelMult` is positive and finite; a draw other than 0
  gives a level `≥ 0` (small levels are frequent, levels above about
  `53 / log₂ maxEdges` do not occur; that upper bound is not modelled), and
  the draw 0 gives `int(+Inf)`.
* `maxEdges = 0`: `LevelMult` is `-0`; a draw other than 0 gives level 0, the
  draw 0 gives `int(NaN)`.
* `maxEdges = 1` and `maxEdges < 0`: `LevelMult` is `+Inf` or `NaN`; every
  draw gives `int(+Inf)` or `int(NaN)`. -/
def levelDrawable (maxEdges level : Int) : Prop :=
  (2 ≤ maxEdges ∧ 0 ≤ level) ∨ (maxEdges = 0 ∧ level = 0) ∨ level = intOfNonFinite

instance (maxEdges level : Int) : Decidable (levelDrawable maxEdges level) := by
  unfold levelDrawable
  infer_instance

/-- The loop of `EuclideanDistance`: `vectorB[i]` is read for every index of
`vectorA`. -/
def sumSquares : List ℚ → List ℚ → ℚ → Except Fault ℚ
  | [], _, sum => .ok sum
  | _ :: _, [], _ => .error .indexOutOfRange
  | a :: as, b :: bs, sum => sumSquares as bs (sum + (a - b) * (a - b))

/-- Go `EuclideanDistance`, squared. -/
def EuclideanDistance (vectorA vectorB : List ℚ) : Except Fault ℚ :=
  sumSquares vectorA vectorB 0

/-- Reading through a node pointer. -/
def deref (store : List Node) (p : Nat) : Except Fault Node :=
  match store[p]? with
  | some n => .ok n
  | none => .error .danglingPointer

/-- Go `n.Friends[layer]`. -/
def friendsAt (n : Node) (layer : Int) : Except Fault (List Nat) :=
  if layer < 0 then .error .indexOutOfRange
  else
    match n.Friends[layer.toNat]? with
    | some fs => .ok fs
    | none => .error .indexOutOfRange

/-- Go `EuclideanDistance(query, p.Vector)` for a node pointer `p`. -/
def distanceTo (store : List Node) (query : List ℚ) (p : Nat) : Except Fault ℚ :=
  match deref store p with
  | .ok n => EuclideanDistance query n.Vector
  | .error e => .error e

/-- One pass of the inner loop of insertion sort: the element sinks towards
the front while it is strictly less than its predecessor.  The sorted prefix
is kept in reverse order. -/
def sink (x : ℚ × Nat) : List (ℚ × Nat) → List (ℚ × Nat)
  | [] => [x]
  | y :: ys => if x.1 < y.1 then y :: sink x ys else x :: y :: ys

/-- Insertion sort on keyed entries: Go `insertionSortLessFunc`, which
`sort.Slice` runs on slices of at most 12 entries. -/
def insertionSort (xs : List (ℚ × Nat)) : List (ℚ × Nat) :=
  (xs.foldl (fun acc x => sink x acc) []).reverse

/-- The distance key of every entry of a result list. -/
def keyed (store : List Node) (query : List ℚ) : List Nat → Except Fault (List (ℚ × Nat))
  | [] => .ok []
  | p :: ps =>
    match distanceTo store query p with
    | .error e => .error e
    | .ok d =>
      match keyed store query ps with
      | .error e => .error e
      | .ok rest => .ok ((d, p) :: rest)

/-- Go `sort.Slice(results, less)` with `less` comparing distances to the
query.  On a slice of fewer than two entries no comparison is made; otherwise
every entry is compared at least once, so its distance is computed. -/
def sortByDistance (store : List Node) (query : List ℚ) (results : List Nat) :
    Except Fault (List Nat) :=
  if results.length ≤ 1 then .ok results
  else
    match keyed store query results with
    | .error e => .error e
    | .ok ks => .ok ((insertionSort ks).map Prod.snd)

/-- Local variables of `searchLayer`. -/
structure SearchState where
  candidates : List Nat
  visited : List Nat
  results : List Nat
  deriving DecidableEq

/-- Body of `for _, friend := range candidate.Friends[layer]`. -/
def visitFriend (store : List Node) (query : List ℚ) (ef : Int) (st : SearchState)
    (friend : Nat) : Except Fault SearchState :=
  match deref store friend with
  | .error e => .error e
  | .ok fn =>
    if fn.ID ∈ st.visited then .ok st
    else if (st.results.length : Int) < ef then
      .ok { candidates := st.candidates ++ [friend], visited := fn.ID :: st.visited,
            results := st.results ++ [friend] }
    else
      match st.results.getLast? with
      | none => .error .indexOutOfRange
      | some last =>
        match EuclideanDistance query fn.Vector with
        | .error e => .error e
        | .ok df =>
          match distanceTo store query last with
          | .error e => .error e
          | .ok dl =>
            if df < dl then
              match sortByDistance store query (st.results.set (st.results.length - 1) friend) with
              | .error e => .error e
              | .ok sorted =>
                .ok { candidates := st.candidates ++ [friend], visited := fn.ID :: st.visited,
                      results := sorted }
            else .ok { st with visited := fn.ID :: st.visited }

/-- The loop `for _, friend := range candidate.Friends[layer]`. -/
def visitFriends (store : List Node) (query : List ℚ) (ef : Int) :
    List Nat → SearchState → Except Fault SearchState
  | [], st => .ok st
  | f :: fs, st =>
    match visitFriend store query ef st f with
    | .error e => .error e
    | .ok st' => visitFriends store query ef fs st'

/-- The loop `for len(candidates) > 0`, with a budget of iterations. -/
def searchLoop (store : List Node) (query : List ℚ) (ef layer : Int) :
    Nat → SearchState → Except Fault (List Nat)
  | 0, _ => .error .outOfFuel
  | fuel + 1, st =>
    match st.candidates with
    | [] => .ok st.results
    | candidate :: rest =>
      match deref store candidate with
      | .error e => .error e
      | .ok cn =>
        match friendsAt cn layer with
        | .error e => .error e
        | .ok fs =>
          match visitFriends store query ef fs { st with candidates := rest } with
          | .error e => .error e
          | .ok st' => searchLoop store query ef layer fuel st'

/-- Go `(*HNSW).searchLayer`. -/
def searchLayer (store : List Node) (entryPoint : Nat) (query : List ℚ) (ef layer : Int) :
    Except Fault (List Nat) :=
  match deref store entryPoint with
  | .error e => .error e
  | .ok en =>
    if ef < 0 ∨ maxSliceCap < ef then .error .makesliceCap
    else
      match sortByDistance store query [entryPoint] with
      | .error e => .error e
      | .ok results =>
        match searchLoop store query ef layer (store.length + 1)
            { candidates := [entryPoint], visited := [en.ID], results := results } with
        | .error e => .error e
        | .ok results =>
          if (results.length : Int) > ef then .ok (results.take ef.toNat) else .ok results

/-- The loop of `connectNewNode` that finds the friend farthest from the
neighbour: arguments are the remaining friends, the running index,
`maxDistance` and `maxIndex`. -/
def farthestFriend (store : List Node) (origin : List ℚ) :
    List Nat → Nat → ℚ → Nat → Except Fault (ℚ × Nat)
  | [], _, maxDistance, maxIndex => .ok (maxDistance, maxIndex)
  | f :: fs, i, maxDistance, maxIndex =>
    match deref store f with
    | .error e => .error e
    | .ok fn =>
      match EuclideanDistance origin fn.Vector with
      | .error e => .error e
      | .ok distance =>
        if distance > maxDistance then farthestFriend store origin fs (i + 1) distance i
        else farthestFriend store origin fs (i + 1) maxDistance maxIndex

/-- Go `p.Friends[level] = fs`. -/
def setFriends (store : List Node) (p level : Nat) (fs : List Nat) : List Node :=
  match store[p]? with
  | some n => store.set p { n with Friends := n.Friends.set level fs }
  | none => store

/-- Body of `for _, neighbor := range neighbors` in `connectNewNode`. -/
def connectOne (maxEdges : Int) (newNode : Nat) (level : Int) (store : List Node)
    (neighbor : Nat) : Except Fault (List Node) :=
  match deref store neighbor with
  | .error e => .error e
  | .ok nb =>
    match friendsAt nb level with
    | .error e => .error e
    | .ok fs =>
      let linked : Except Fault (List Node) :=
        if (fs.length : Int) < maxEdges then
          .ok (setFriends store neighbor level.toNat (fs ++ [newNode]))
        else
          match farthestFriend store nb.Vector fs 0 0 0 with
          | .error e => .error e
          | .ok (maxDistance, maxIndex) =>
            match deref store newNode with
            | .error e => .error e
            | .ok nn =>
              match EuclideanDistance nb.Vector nn.Vector with
              | .error e => .error e
              | .ok d =>
                if d < maxDistance then
                  if maxIndex < fs.length then
                    .ok (setFriends store neighbor level.toNat (fs.set maxIndex newNode))
                  else .error .indexOutOfRange
                else .ok store
      match linked with
      | .error e => .error e
      | .ok store1 =>
        match deref store1 newNode with
        | .error e => .error e
        | .ok nn =>
          match friendsAt nn level with
          | .error e => .error e
          | .ok nfs => .ok (setFriends store1 newNode level.toNat (nfs ++ [neighbor]))

/-- Go `(*HNSW).connectNewNode`. -/
def connectNewNode (maxEdges : Int) (newNode : Nat) (level : Int) :
    List Node → List Nat → Except Fault (List Node)
  | store, [] => .ok store
  | store, neighbor :: rest =>
    match connectOne maxEdges newNode level store neighbor with
    | .error e => .error e
    | .ok store1 => connectNewNode maxEdges newNode level store1 rest

/-- The descent loops of `Insert` and `Search`:
`entryPoint = h.searchLayer(entryPoint, query, 1, currentLevel)[0]`, run for
the given number of iterations from `currentLevel` downwards. -/
def descend (store : List Node) (query : List ℚ) : Nat → Int → Nat → Except Fault Nat
  | 0, _, entryPoint => .ok entryPoint
  | n + 1, currentLevel, entryPoint =>
    match searchLayer store entryPoint query 1 currentLevel with
    | .error e => .error e
    | .ok [] => .error .indexOutOfRange
    | .ok (first :: _) => descend store query n (currentLevel - 1) first

/-- The second loop of `Insert`: search and connect on `currentLevel`, for the
given number of iterations downwards. -/
def connectLayers (maxEdges ef : Int) (query : List ℚ) (newNode entryPoint : Nat) :
    Nat → Int → List Node → Except Fault (List Node)
  | 0, _, store => .ok store
  | n + 1, currentLevel, store =>
    match searchLayer store entryPoint query ef currentLevel with
    | .error e => .error e
    | .ok neighbors =>
      match connectNewNode maxEdges newNode currentLevel store neighbors with
      | .error e => .error e
      | .ok store1 => connectLayers maxEdges ef query newNode entryPoint n (currentLevel - 1) store1

/-- The node built at the start of `Insert`: `level + 1` empty layers. -/
def freshNode (id : Nat) (vector : List ℚ) (level : Int) : Node :=
  { ID := id, Vector := vector, Friends := List.replicate (level + 1).toNat [] }

/-- Go `(*HNSW).Insert`, with the drawn level as an argument. -/
def Insert (h : HNSW) (vector : List ℚ) (level : Int) : Except Fault HNSW :=
  let newNode := freshNode h.Nodes.length vector level
  if h.Nodes.length = 0 then .ok { h with Nodes := h.Nodes ++ [newNode] }
  else
    let store := h.Nodes ++ [newNode]
    match deref store 0 with
    | .error e => .error e
    | .ok entry =>
      let top : Int := (entry.Friends.length : Int) - 1
      match descend store vector (top - level).toNat top 0 with
      | .error e => .error e
      | .ok entryPoint =>
        match connectLayers h.MaxEdges h.Ef vector h.Nodes.length entryPoint
            (level + 1).toNat level store with
        | .error e => .error e
        | .ok store1 => .ok { h with Nodes := store1 }

/-- Go `(*HNSW).Search`; the result lists positions in `h.Nodes`. -/
def Search (h : HNSW) (query : List ℚ) (k : Int) : Except Fault (List Nat) :=
  match h.Nodes[0]? with
  | none => .error .indexOutOfRange
  | some entry =>
    let top : Int := (entry.Friends.length : Int) - 1
    match descend h.Nodes query top.toNat top 0 with
    | .error e => .error e
    | .ok entryPoint => searchLayer h.Nodes entryPoint query k 0

/-- Go `(*HNSW).Search` as a step on the index: the result together with the
index after the call.  `Search` and `searchLayer` assign to their local
slices and map only, never to a field of the index or of a node, so the index
is handed back as it was received. -/
def SearchStep (h : HNSW) (query : List ℚ) (k : Int) : Except Fault (List Nat × HNSW) :=
  match Search h query k with
  | .error e => .error e
  | .ok results => .ok (results, h)

/-- A sequence of `Insert` calls, each with its vector and drawn level;
the result is `.ok` exactly when every call completes. -/
def insertAll : HNSW → List (List ℚ × Int) → Except Fault HNSW
  | h, [] => .ok h
  | h, (vector, level) :: rest =>
    match Insert h vector level with
    | .error e => .error e
    | .ok h1 => insertAll h1 rest

/-- The vectors of the nodes at the given positions. -/
def vectorsOf (store : List Node) (ps : List Nat) : List (List ℚ) :=
  ps.filterMap (fun p => (store[p]?).map Node.Vector)

/-! ## Predicates and measures used in the proofs, and test data -/

/-- Number of node IDs of the store that are not marked visited. -/
def unvisited (store : List Node) (visited : List Nat) : Nat :=
  ((store.map Node.ID).toFinset \ visited.toFinset).card

/-- A set of positions on which a layer search never faults: each has the
layer, its friends on the layer stay in the set, and its vector is long enough
for the query. -/
def Explorable (store : List Node) (query : List ℚ) (layer : Int) (P : Nat → Prop) : Prop :=
  ∀ p, P p → ∃ n fs d, store[p]? = some n ∧ friendsAt n layer = .ok fs ∧
    (∀ f ∈ fs, P f) ∧ EuclideanDistance query n.Vector = .ok d

/-- What the totality proof carries through the loops. -/
def SearchInv (P : Nat → Prop) (st : SearchState) : Prop :=
  (∀ p ∈ st.candidates, P p) ∧ (∀ p ∈ st.results, P p) ∧ st.results ≠ []

/-- The adjacency list of the node at position `p` on layer `l`, if both
exist. -/
def friendList (store : List Node) (p l : Nat) : Option (List Nat) :=
  match store[p]? with
  | some n => n.Friends[l]?
  | none => none

/-- What `Insert` never changes of a node once it is allocated. -/
def shape (n : Node) : Nat × List ℚ × Nat :=
  (n.ID, n.Vector, n.Friends.length)

/-- Every adjacency reference leads to another node, and that node has the
layer of the reference. -/
def WellFormed (store : List Node) : Prop :=
  ∀ p l fs f, friendList store p l = some fs → f ∈ fs →
    f ≠ p ∧ (friendList store f l).isSome

/-- While `Insert` works downwards, the new node is referenced only on layers
above `cur`. -/
def Stage (np : Nat) (cur : Int) (store : List Node) : Prop :=
  ∀ q l fs, friendList store q l = some fs → np ∈ fs → cur < (l : Int)

/-- Adjacency is mutual: a friend on a layer lists the node back on that
layer. -/
def Mutual (store : List Node) : Prop :=
  ∀ p l fs f, friendList store p l = some fs → f ∈ fs →
    ∃ gs, friendList store f l = some gs ∧ p ∈ gs

/-- No adjacency list names a node twice. -/
def NoRepeat (store : List Node) : Prop :=
  ∀ p l fs, friendList store p l = some fs → fs.Nodup

/-- The data set of `TestSearchNearestNeighbor` and
`TestSearchMultipleNearestNeighbors`, every level drawn as 0. -/
def testVectors : List (List ℚ × Int) :=
  [([1, 2], 0), ([2, 3], 0), ([3, 4], 0)]

/-- The index built from `testVectors` by `NewHNSW(5, 200)`. -/
def testIndex : HNSW :=
  { Nodes := [{ ID := 0, Vector := [1, 2], Friends := [[1, 2]] },
              { ID := 1, Vector := [2, 3], Friends := [[0, 2]] },
              { ID := 2, Vector := [3, 4], Friends := [[0, 1]] }],
    MaxEdges := 5, Ef := 200 }

/-- The index `testIndex` after one more insert, of `[4, 5]` at level 0. -/
def testIndexGrown : HNSW :=
  { Nodes := [{ ID := 0, Vector := [1, 2], Friends := [[1, 2, 3]] },
              { ID := 1, Vector := [2, 3], Friends := [[0, 2, 3]] },
              { ID := 2, Vector := [3, 4], Friends := [[0, 1, 3]] },
              { ID := 3, Vector := [4, 5], Friends := [[0, 1, 2]] }],
    MaxEdges := 5, Ef := 200 }

/-- Seven points on a line, every level drawn as 0. -/
def sevenOnALine : List (List ℚ × Int) :=
  [([1, 2], 0), ([2, 3], 0), ([3, 4], 0), ([4, 5], 0), ([5, 6], 0), ([6, 7], 0), ([7, 8], 0)]

/-- The five points of `TestGraphConnections`, with levels 1, 0, 1, 0, 1. -/
def lineVectors : List (List ℚ × Int) :=
  [([1, 2], 1), ([2, 3], 0), ([3, 4], 1), ([4, 5], 0), ([5, 6], 1)]

/-- The index built from `lineVectors` by `NewHNSW(5, 200)`. -/
def lineIndex : HNSW :=
  { Nodes := [{ ID := 0, Vector := [1, 2], Friends := [[1, 2, 3, 4], [2, 4]] },
              { ID := 1, Vector := [2, 3], Friends := [[0, 2, 3, 4]] },
              { ID := 2, Vector := [3, 4], Friends := [[0, 1, 3, 4], [0, 4]] },
              { ID := 3, Vector := [4, 5], Friends := [[2, 0, 1, 4]] },
              { ID := 4, Vector := [5, 6], Friends := [[0, 1, 2, 3], [0, 2]] }],
    MaxEdges := 5, Ef := 200 }

/-- Six points close together and a seventh far away, every level drawn as 0. -/
def clusterAndOutlier : List (List ℚ × Int) :=
  [([0, 0], 0), ([1, 0], 0), ([0, 1], 0), ([1, 1], 0), ([2, 0], 0), ([0, 2], 0),
   ([100, 100], 0)]

/-- The loop `for len(candidates) > 0` of `searchLayer`, instrumented with the
list of the candidates popped so far.  The result is the final state of the
local variables and the list of all pops, in order. -/
def searchLoopTrace (store : List Node) (query : List ℚ) (ef layer : Int) :
    Nat → SearchState → List Nat → Except Fault (SearchState × List Nat)
  | 0, _, _ => .error .outOfFuel
  | fuel + 1, st, popped =>
    match st.candidates with
    | [] => .ok (st, popped)
    | candidate :: rest =>
      match deref store candidate with
      | .error e => .error e
      | .ok cn =>
        match friendsAt cn layer with
        | .error e => .error e
        | .ok fs =>
          match visitFriends store query ef fs { st with candidates := rest } with
          | .error e => .error e
          | .ok st' => searchLoopTrace store query ef layer fuel st' (popped ++ [candidate])

/-- The run of `searchLayer` up to the end of its loop, instrumented: the
final local variables and the list of pops. -/
def searchLayerTrace (store : List Node) (entryPoint : Nat) (query : List ℚ) (ef layer : Int) :
    Except Fault (SearchState × List Nat) :=
  match deref store entryPoint with
  | .error e => .error e
  | .ok en =>
    if ef < 0 ∨ maxSliceCap < ef then .error .makesliceCap
    else
      match sortByDistance store query [entryPoint] with
      | .error e => .error e
      | .ok results =>
        searchLoopTrace store query ef layer (store.length + 1)
          { candidates := [entryPoint], visited := [en.ID], results := results } []

/-- The last lines of `searchLayer`: `results[:ef]` when longer than `ef`. -/
def truncate (ef : Int) (results : List Nat) : List Nat :=
  if (results.length : Int) > ef then results.take ef.toNat else results

/-- Node IDs identify the nodes of the store. -/
def UniqueIDs (store : List Node) : Prop :=
  ∀ (p q : Nat) (n m : Node), store[p]? = some n → store[q]? = some m → n.ID = m.ID → p = q

/-- All friends of the node at `p` on the layer carry a visited ID. -/
def Expanded (store : List Node) (layer : Int) (visited : List Nat) (p : Nat) : Prop :=
  ∀ n fs, store[p]? = some n → friendsAt n layer = .ok fs →
    ∀ f ∈ fs, ∃ fn, store[f]? = some fn ∧ fn.ID ∈ visited

/-- Reachability from the entry point along the edges of one layer. -/
inductive Reach (store : List Node) (layer : Int) (e : Nat) : Nat → Prop
  | entry : Reach store layer e e
  | edge {p f : Nat} {n : Node} {fs : List Nat} :
      Reach store layer e p → store[p]? = some n → friendsAt n layer = .ok fs → f ∈ fs →
      Reach store layer e f

/-- What the instrumented loop keeps true of the pops and the frontier. -/
def TraceInv (store : List Node) (layer : Int) (e : Nat) (pending : List Nat)
    (st : SearchState) (popped : List Nat) : Prop :=
  (popped ++ pending).Nodup ∧
  (∀ p ∈ popped ++ pending, ∃ n, store[p]? = some n ∧ n.ID ∈ st.visited) ∧
  (∀ p ∈ st.results, p ∈ popped ++ pending) ∧
  (∀ p ∈ popped, Expanded store layer st.visited p) ∧
  e ∈ popped ++ pending

/-- With a beam of one the result set is a single node, no farther from the
query than any node whose ID is marked visited. -/
def GreedyInv (store : List Node) (query : List ℚ) (st : SearchState) : Prop :=
  ∃ r, st.results = [r] ∧ ∀ p n dp dr, store[p]? = some n → n.ID ∈ st.visited →
    distanceTo store query p = .ok dp → distanceTo store query r = .ok dr → dr ≤ dp

/-- Go `EuclideanDistance(a.Vector, b.Vector)` for two node pointers. -/
def distanceBetween (store : List Node) (a b : Nat) : Except Fault ℚ :=
  match store[a]?, store[b]? with
  | some an, some bn => EuclideanDistance an.Vector bn.Vector
  | _, _ => .error .danglingPointer

/-- The rule of `connectNewNode` for one candidate `v` with adjacency list
`fs` on the layer, `result` being the list of `v` afterwards: a list of fewer
than `maxEdges` entries gets the new node appended; otherwise the new node
takes the place of an entry `w` at maximum distance from `v` when it is
strictly closer to `v` than `w`, and the list stays as it is when the new node
is closer than no entry. -/
def PruneRule (store : List Node) (maxEdges : Int) (np v : Nat) (fs result : List Nat) : Prop :=
  ((fs.length : Int) < maxEdges ∧ result = fs ++ [np]) ∨
  (¬ (fs.length : Int) < maxEdges ∧ ∃ dn, distanceBetween store v np = .ok dn ∧
    ((∃ i w dw, fs[i]? = some w ∧ distanceBetween store v w = .ok dw ∧
        (∀ x ∈ fs, ∃ dx, distanceBetween store v x = .ok dx ∧ dx ≤ dw) ∧
        dn < dw ∧ result = fs.set i np) ∨
     ((∀ x ∈ fs, ∃ dx, distanceBetween store v x = .ok dx ∧ dx ≤ dn) ∧ result = fs)))

/-- How the length of an adjacency list may change: it never shrinks, and it
grows only while below `maxEdges`. -/
def LenStep (maxEdges : Int) (a b : Nat) : Prop :=
  a ≤ b ∧ (b : Int) ≤ max (a : Int) maxEdges

/-- Every list of a node other than `np` in `store'` comes from a list of
`store` by a `LenStep`. -/
def OldLists (maxEdges : Int) (np : Nat) (store store' : List Node) : Prop :=
  ∀ q k fs', q ≠ np → friendList store' q k = some fs' →
    ∃ fs, friendList store q k = some fs ∧ LenStep maxEdges fs.length fs'.length

/-- While `Insert` works downwards from layer `cur`, the lists of the new
node are empty up to layer `cur` and hold at most `ef` entries above. -/
def NewBound (ef : Int) (np : Nat) (cur : Int) (store : List Node) : Prop :=
  ∀ l fs, friendList store np l = some fs →
    ((l : Int) ≤ cur → fs = []) ∧ (cur < (l : Int) → (fs.length : Int) ≤ ef)

/-- The store in which `Insert` of `[4, 5]` at level 0 into `testIndex` runs
`connectNewNode`: the three nodes and the node being inserted. -/
def testStore : List Node :=
  testIndex.Nodes ++ [freshNode 3 [4, 5] 0]

/-- The index built from the first six points of `sevenOnALine` by
`NewHNSW(5, 200)`: every list holds `MaxEdges` entries. -/
def sixOnALineIndex : HNSW :=
  { Nodes := [{ ID := 0, Vector := [1, 2], Friends := [[1, 2, 3, 4, 5]] },
              { ID := 1, Vector := [2, 3], Friends := [[0, 2, 3, 4, 5]] },
              { ID := 2, Vector := [3, 4], Friends := [[0, 1, 3, 4, 5]] },
              { ID := 3, Vector := [4, 5], Friends := [[0, 1, 2, 4, 5]] },
              { ID := 4, Vector := [5, 6], Friends := [[0, 1, 2, 3, 5]] },
              { ID := 5, Vector := [6, 7], Friends := [[0, 1, 2, 3, 4]] }],
    MaxEdges := 5, Ef := 200 }

/-- The index `sixOnALineIndex` after the insert of `[7, 8]` at level 0: the
new node has taken the place of node 0 in the lists of nodes 4 and 5, and the
lists of nodes 0 to 3 are as they were. -/
def sevenOnALineIndex : HNSW :=
  { Nodes := [{ ID := 0, Vector := [1, 2], Friends := [[1, 2, 3, 4, 5]] },
              { ID := 1, Vector := [2, 3], Friends := [[0, 2, 3, 4, 5]] },
              { ID := 2, Vector := [3, 4], Friends := [[0, 1, 3, 4, 5]] },
              { ID := 3, Vector := [4, 5], Friends := [[0, 1, 2, 4, 5]] },
              { ID := 4, Vector := [5, 6], Friends := [[6, 1, 2, 3, 5]] },
              { ID := 5, Vector := [6, 7], Friends := [[6, 1, 2, 3, 4]] },
              { ID := 6, Vector := [7, 8], Friends := [[0, 1, 2, 3, 4, 5]] }],
    MaxEdges := 5, Ef := 200 }

/-- The store in which `Insert` of `[7, 8]` at level 0 into `sixOnALineIndex`
runs `connectNewNode`. -/
def sixOnALineStore : List Node :=
  sixOnALineIndex.Nodes ++ [freshNode 6 [7, 8] 0]

/-- Node IDs are the positions in the store. -/
def IdPos (store : List Node) : Prop :=
  ∀ (p : Nat) (n : Node), store[p]? = some n → n.ID = p

/-- On layer 0 every node below position `bound` lists every other node below
`bound`. -/
def CompleteBelow (bound : Nat) (store : List Node) : Prop :=
  ∀ p q, p < bound → q < bound → p ≠ q → ∃ fs, friendList store p 0 = some fs ∧ q ∈ fs

/-- Every adjacency list of `store` is contained in that of `store'`. -/
def Grows (store store' : List Node) : Prop :=
  ∀ q k gs, friendList store q k = some gs →
    ∃ gs', friendList store' q k = some gs' ∧ ∀ x ∈ gs, x ∈ gs'

/-! ## Specification side: LayerSearch (4.3) and Inserter (4.4) of the design

The definitions below follow the words of the design document, not the Go
source.  Nodes are positions in the node store, as on the code side, and
`distance` is `EuclideanDistance`, computed when a comparison needs it. -/

/-- Design 4.3, "R is maintained in ascending distance order throughout": the
entry `x` is put behind every entry that is not farther than it (ties are
broken by first-seen order). -/
def insertAscending (x : ℚ × Nat) : List (ℚ × Nat) → List (ℚ × Nat)
  | [] => [x]
  | y :: ys => if x.1 < y.1 then x :: y :: ys else y :: insertAscending x ys

/-- Design 4.3, the treatment of one neighbour `f` of the popped node: "if
f ∉ V: mark visited; if |R| < ef, add f to R and push f into F; else if
distance(query, f) is strictly less than the current maximum distance in R,
replace the farthest member of R with f and push f into F".  `R` is ascending,
so its farthest member is its last. -/
def specVisit (store : List Node) (query : List ℚ) (ef : Int) (st : SearchState)
    (f : Nat) : Except Fault SearchState :=
  match deref store f with
  | .error e => .error e
  | .ok fn =>
    if fn.ID ∈ st.visited then .ok st
    else if (st.results.length : Int) < ef then
      match EuclideanDistance query fn.Vector with
      | .error e => .error e
      | .ok df =>
        match keyed store query st.results with
        | .error e => .error e
        | .ok ks =>
          .ok { candidates := st.candidates ++ [f], visited := fn.ID :: st.visited,
                results := (insertAscending (df, f) ks).map Prod.snd }
    else
      match st.results.getLast? with
      | none => .ok { st with visited := fn.ID :: st.visited }
      | some farthest =>
        match EuclideanDistance query fn.Vector with
        | .error e => .error e
        | .ok df =>
          match distanceTo store query farthest with
          | .error e => .error e
          | .ok dmax =>
            if df < dmax then
              match keyed store query st.results.dropLast with
              | .error e => .error e
              | .ok ks =>
                .ok { candidates := st.candidates ++ [f], visited := fn.ID :: st.visited,
                      results := (insertAscending (df, f) ks).map Prod.snd }
            else .ok { st with visited := fn.ID :: st.visited }

/-- Design 4.3: "for each neighbor f of c at the given layer". -/
def specVisitAll (store : List Node) (query : List ℚ) (ef : Int) :
    List Nat → SearchState → Except Fault SearchState
  | [], st => .ok st
  | f :: fs, st =>
    match specVisit store query ef st f with
    | .error e => .error e
    | .ok st' => specVisitAll store query ef fs st'

/-- Design 4.3: "While F is non-empty, pop one node c from F ... Terminate
when F is empty", on a budget of iterations; the frontier is served in
first-in, first-out order. -/
def specSearchLoop (store : List Node) (query : List ℚ) (ef layer : Int) :
    Nat → SearchState → Except Fault (List Nat)
  | 0, _ => .error .outOfFuel
  | fuel + 1, st =>
    match st.candidates with
    | [] => .ok st.results
    | c :: rest =>
      match deref store c with
      | .error e => .error e
      | .ok cn =>
        match friendsAt cn layer with
        | .error e => .error e
        | .ok fs =>
          match specVisitAll store query ef fs { st with candidates := rest } with
          | .error e => .error e
          | .ok st' => specSearchLoop store query ef layer fuel st'

/-- Design 4.3, `searchLayer(entry, query, ef, layer)`: "Start with the result
set R = {entry} and a visited set V = {entry.id} and a frontier F seeded with
entry ... Return R truncated to ef". -/
def specSearchLayer (store : List Node) (entry : Nat) (query : List ℚ) (ef layer : Int) :
    Except Fault (List Nat) :=
  match deref store entry with
  | .error e => .error e
  | .ok en =>
    match specSearchLoop store query ef layer (store.length + 1)
        { candidates := [entry], visited := [en.ID], results := [entry] } with
    | .error e => .error e
    | .ok results =>
      if (results.length : Int) > ef then .ok (results.take ef.toNat) else .ok results

/-- Design 4.4, connect: "find w ∈ v.friends[layer] with maximum distance to
v".  The scan keeps the index and the distance of the first entry at maximum
distance; `none` for an empty list. -/
def specFarthest (store : List Node) (origin : List ℚ) :
    List Nat → Nat → Option (Nat × ℚ) → Except Fault (Option (Nat × ℚ))
  | [], _, best => .ok best
  | w :: ws, i, best =>
    match distanceTo store origin w with
    | .error e => .error e
    | .ok d =>
      match best with
      | none => specFarthest store origin ws (i + 1) (some (i, d))
      | some (j, dj) =>
        if d > dj then specFarthest store origin ws (i + 1) (some (i, d))
        else specFarthest store origin ws (i + 1) (some (j, dj))

/-- Design 4.4, connect, for one candidate `v`: "If |v.friends[layer]| < M:
append n to v.friends[layer].  Else: find w ... If distance(v, n) <
distance(v, w), replace w with n in v.friends[layer]; otherwise leave v's
adjacency unchanged.  Unconditionally append v to n.friends[layer]." -/
def specConnectOne (maxEdges : Int) (n : Nat) (layer : Int) (store : List Node) (v : Nat) :
    Except Fault (List Node) :=
  match deref store v with
  | .error e => .error e
  | .ok vn =>
    match friendsAt vn layer with
    | .error e => .error e
    | .ok fs =>
      let linked : Except Fault (List Node) :=
        if (fs.length : Int) < maxEdges then
          .ok (setFriends store v layer.toNat (fs ++ [n]))
        else
          match specFarthest store vn.Vector fs 0 none with
          | .error e => .error e
          | .ok best =>
            match distanceTo store vn.Vector n with
            | .error e => .error e
            | .ok dn =>
              match best with
              | none => .ok store
              | some (i, dw) =>
                if dn < dw then .ok (setFriends store v layer.toNat (fs.set i n))
                else .ok store
      match linked with
      | .error e => .error e
      | .ok store1 =>
        match deref store1 n with
        | .error e => .error e
        | .ok nn =>
          match friendsAt nn layer with
          | .error e => .error e
          | .ok nfs => .ok (setFriends store1 n layer.toNat (nfs ++ [v]))

/-- Design 4.4, `connect(n, neighbors, layer)`: "for each candidate v in
neighbors". -/
def specConnect (maxEdges : Int) (n : Nat) (layer : Int) :
    List Node → List Nat → Except Fault (List Node)
  | store, [] => .ok store
  | store, v :: rest =>
    match specConnectOne maxEdges n layer store v with
    | .error e => .error e
    | .ok store1 => specConnect maxEdges n layer store1 rest

/-- Design 4.4, step 4: "For each layer ℓ from topLayer(ep) down to L+1:
ep = searchLayer(ep, n.vector, 1, ℓ)[0]", for the given number of layers. -/
def specDescend (store : List Node) (query : List ℚ) : Nat → Int → Nat → Except Fault Nat
  | 0, _, ep => .ok ep
  | k + 1, layer, ep =>
    match specSearchLayer store ep query 1 layer with
    | .error e => .error e
    | .ok [] => .error .indexOutOfRange
    | .ok (first :: _) => specDescend store query k (layer - 1) first

/-- Scan for the closest member: `best` is the closest position seen so far,
with its distance; a later member replaces it only when strictly closer. -/
def closerOf (store : List Node) (query : List ℚ) (best : Nat × ℚ) :
    List Nat → Except Fault Nat
  | [] => .ok best.1
  | c :: rest =>
    match distanceTo store query c with
    | .error e => .error e
    | .ok d => closerOf store query (if d < best.2 then (c, d) else best) rest

/-- Design 4.4, step 5c: "the closest member of C" (the first one among
equals), `none` for an empty `C`. -/
def closestMember (store : List Node) (query : List ℚ) : List Nat → Except Fault (Option Nat)
  | [] => .ok none
  | c :: rest =>
    match distanceTo store query c with
    | .error e => .error e
    | .ok d =>
      match closerOf store query (c, d) rest with
      | .error e => .error e
      | .ok best => .ok (some best)

/-- Design 4.4, step 5, for the given number of layers downwards from `layer`:
"a. C = searchLayer(ep, n.vector, ef, ℓ).  b. connect(n, C, ℓ).  c. The
returned candidates become the entry seed for the next lower layer by letting
ep be the closest member of C."  With `reseed` unset, step c is left out and
`ep` is the same on every layer. -/
def specConnectLayers (reseed : Bool) (maxEdges ef : Int) (query : List ℚ) (n : Nat) :
    Nat → Int → Nat → List Node → Except Fault (List Node)
  | 0, _, _, store => .ok store
  | k + 1, layer, ep, store =>
    match specSearchLayer store ep query ef layer with
    | .error e => .error e
    | .ok C =>
      match specConnect maxEdges n layer store C with
      | .error e => .error e
      | .ok store1 =>
        if reseed ∧ k ≠ 0 then
          match closestMember store1 query C with
          | .error e => .error e
          | .ok next =>
            specConnectLayers reseed maxEdges ef query n k (layer - 1) (next.getD ep) store1
        else specConnectLayers reseed maxEdges ef query n k (layer - 1) ep store1

/-- Design 4.4, `insert(vector)`, steps 2 to 6, with the level `L` of step 1
as an argument: "2. Construct the new Node n with adjacency layers for 0..=L.
3. If the Index is empty, install n ... and return.  4. Let ep = current entry
point ... 5. For each layer ℓ from min(L, topLayer(ep)) down to 0 ...
6. Append n to the Index's node set."  The node under construction is the
last position of the store from step 2 on. -/
def specInsert (reseed : Bool) (h : HNSW) (vector : List ℚ) (level : Int) :
    Except Fault HNSW :=
  let n := freshNode h.Nodes.length vector level
  if h.Nodes.length = 0 then .ok { h with Nodes := h.Nodes ++ [n] }
  else
    let store := h.Nodes ++ [n]
    match deref store 0 with
    | .error e => .error e
    | .ok entry =>
      let top : Int := (entry.Friends.length : Int) - 1
      match specDescend store vector (top - level).toNat top 0 with
      | .error e => .error e
      | .ok ep =>
        match deref store ep with
        | .error e => .error e
        | .ok epNode =>
          let start : Int := min level ((epNode.Friends.length : Int) - 1)
          match specConnectLayers reseed h.MaxEdges h.Ef vector h.Nodes.length
              (start + 1).toNat start ep store with
          | .error e => .error e
          | .ok store1 => .ok { h with Nodes := store1 }

/-! ## Code side: the second loop of `Insert`, instrumented -/

/-- The second loop of `Insert` with a record of every iteration: the layer,
the store in which `searchLayer` ran, and the neighbours it returned. -/
def connectLayersTrace (maxEdges ef : Int) (query : List ℚ) (newNode entryPoint : Nat) :
    Nat → Int → List Node → Except Fault (List Node × List (Int × List Node × List Nat))
  | 0, _, store => .ok (store, [])
  | n + 1, currentLevel, store =>
    match searchLayer store entryPoint query ef currentLevel with
    | .error e => .error e
    | .ok neighbors =>
      match connectNewNode maxEdges newNode currentLevel store neighbors with
      | .error e => .error e
      | .ok store1 =>
        match connectLayersTrace maxEdges ef query newNode entryPoint n (currentLevel - 1)
            store1 with
        | .error e => .error e
        | .ok (store2, records) => .ok (store2, (currentLevel, store, neighbors) :: records)

/-- The layers `cur, cur - 1, ...`, `n` of them. -/
def layersFrom : Nat → Int → List Int
  | 0, _ => []
  | n + 1, cur => cur :: layersFrom n (cur - 1)

/-- Three points on a line; the first and the third are drawn on two layers. -/
def seedVectors : List (List ℚ × Int) :=
  [([4], 1), ([0], 0), ([1], 1)]

/-- The index built from `seedVectors` by `NewHNSW(3, 1)`. -/
def seedIndex : HNSW :=
  { Nodes := [{ ID := 0, Vector := [4], Friends := [[1], [2]] },
              { ID := 1, Vector := [0], Friends := [[0, 2]] },
              { ID := 2, Vector := [1], Friends := [[1], [0]] }],
    MaxEdges := 3, Ef := 1 }

/-- What `Insert` makes of `seedIndex` for the vector `[2]` drawn on level 1:
on layer 0 the new node is linked with node 0. -/
def seedGrown : HNSW :=
  { Nodes := [{ ID := 0, Vector := [4], Friends := [[1, 3], [2]] },
              { ID := 1, Vector := [0], Friends := [[0, 2]] },
              { ID := 2, Vector := [1], Friends := [[1], [0, 3]] },
              { ID := 3, Vector := [2], Friends := [[0], [2]] }],
    MaxEdges := 3, Ef := 1 }

/-- What the insertion procedure of the design, step 5c included, makes of the
same input: on layer 0 the new node is linked with node 2. -/
def seedGrownReseeded : HNSW :=
  { Nodes := [{ ID := 0, Vector := [4], Friends := [[1], [2]] },
              { ID := 1, Vector := [0], Friends := [[0, 2]] },
              { ID := 2, Vector := [1], Friends := [[1, 3], [0, 3]] },
              { ID := 3, Vector := [2], Friends := [[2], [2]] }],
    MaxEdges := 3, Ef := 1 }

/-! ## Reading the store -/

theorem deref_eq_ok {store : List Node} {p : Nat} {n : Node} :
    deref store p = .ok n ↔ store[p]? = some n := by
  unfold deref
  cases h : store[p]? <;> simp

theorem friendsAt_eq_ok {n : Node} {layer : Int} {fs : List Nat} :
    friendsAt n layer = .ok fs ↔ 0 ≤ layer ∧ n.Friends[layer.toNat]? = some fs := by
  unfold friendsAt
  split
  · simp; omega
  · next hl =>
    have h0 : 0 ≤ layer := by omega
    cases h : n.Friends[layer.toNat]? <;> simp [h0]

/-! ## The sort is a permutation -/

theorem sink_perm (x : ℚ × Nat) (ys : List (ℚ × Nat)) : List.Perm (sink x ys) (x :: ys) := by
  induction ys with
  | nil => simp [sink]
  | cons y ys ih =>
    unfold sink
    split
    · exact (List.Perm.cons y ih).trans (List.Perm.swap x y ys)
    · exact List.Perm.refl _

theorem foldl_sink_perm (xs acc : List (ℚ × Nat)) :
    List.Perm (xs.foldl (fun acc x => sink x acc) acc) (xs.reverse ++ acc) := by
  induction xs generalizing acc with
  | nil => simp
  | cons x xs ih =>
    simp only [List.foldl_cons, List.reverse_cons, List.append_assoc, List.singleton_append]
    exact (ih (sink x acc)).trans (List.Perm.append_left _ (sink_perm x acc))

theorem insertionSort_perm (xs : List (ℚ × Nat)) : List.Perm (insertionSort xs) xs := by
  unfold insertionSort
  refine (List.reverse_perm _).trans ((foldl_sink_perm xs []).trans ?_)
  simp

theorem keyed_map_snd {store : List Node} {query : List ℚ} {ps : List Nat}
    {ks : List (ℚ × Nat)} (h : keyed store query ps = .ok ks) : ks.map Prod.snd = ps := by
  induction ps generalizing ks with
  | nil => simp [keyed] at h; simp [← h]
  | cons p ps ih =>
    unfold keyed at h
    split at h
    · simp at h
    · split at h
      · simp at h
      · next rest hrest =>
        simp at h
        subst h
        simp [ih hrest]

theorem sortByDistance_perm {store : List Node} {query : List ℚ} {rs out : List Nat}
    (h : sortByDistance store query rs = .ok out) : List.Perm out rs := by
  unfold sortByDistance at h
  split at h
  · simp at h; subst h; exact List.Perm.refl _
  · split at h
    · simp at h
    · next ks hks =>
      simp at h
      subst h
      have := (insertionSort_perm ks).map Prod.snd
      rwa [keyed_map_snd hks] at this

theorem set_last_eq_dropLast_append (l : List Nat) (f : Nat) (hne : l ≠ []) :
    l.set (l.length - 1) f = l.dropLast ++ [f] := by
  induction l with
  | nil => exact absurd rfl hne
  | cons a t ih =>
    cases t with
    | nil => simp
    | cons b t =>
      have := ih (by simp)
      simp only [List.length_cons, Nat.add_sub_cancel] at this ⊢
      simp [List.set, this]

/-! ## One step of the search -/

/-- What one visit of a friend does to the search state. -/
theorem visitFriend_cases {store : List Node} {query : List ℚ} {ef : Int}
    {st st' : SearchState} {f : Nat} (h : visitFriend store query ef st f = .ok st') :
    st' = st ∨ ∃ fn, store[f]? = some fn ∧ fn.ID ∉ st.visited ∧
      st'.visited = fn.ID :: st.visited ∧
      ((st'.candidates = st.candidates ++ [f] ∧ st'.results = st.results ++ [f] ∧
          (st.results.length : Int) < ef) ∨
       (st'.candidates = st.candidates ++ [f] ∧
          List.Perm st'.results (st.results.dropLast ++ [f]) ∧ st.results ≠ [] ∧
          ¬ (st.results.length : Int) < ef) ∨
       (st'.candidates = st.candidates ∧ st'.results = st.results)) := by
  unfold visitFriend at h
  split at h
  · simp at h
  · next fn hfn =>
    rw [deref_eq_ok] at hfn
    split at h
    · left; simp at h; exact h.symm
    · next hnv =>
      right
      refine ⟨fn, hfn, hnv, ?_⟩
      split at h
      · next hlt =>
        simp at h; subst h
        exact ⟨rfl, Or.inl ⟨rfl, rfl, hlt⟩⟩
      · next hge =>
        split at h
        · simp at h
        · next last hlast =>
          have hne : st.results ≠ [] := by
            intro h0; simp [h0] at hlast
          split at h
          · simp at h
          · split at h
            · simp at h
            · split at h
              · split at h
                · simp at h
                · next sorted hs =>
                  simp at h; subst h
                  refine ⟨rfl, Or.inr (Or.inl ⟨rfl, ?_, hne, hge⟩)⟩
                  have := sortByDistance_perm hs
                  rwa [set_last_eq_dropLast_append _ _ hne] at this
              · simp at h; subst h
                exact ⟨rfl, Or.inr (Or.inr ⟨rfl, rfl⟩)⟩

/-- Invariant rule for the loop over the friends of one candidate. -/
theorem visitFriends_rule {store : List Node} {query : List ℚ} {ef : Int}
    (I : SearchState → Prop) (fs : List Nat)
    (hstep : ∀ st f st', f ∈ fs → I st → visitFriend store query ef st f = .ok st' → I st')
    {st st' : SearchState} (hI : I st) (h : visitFriends store query ef fs st = .ok st') :
    I st' := by
  induction fs generalizing st with
  | nil => simp [visitFriends] at h; subst h; exact hI
  | cons f fs ih =>
    unfold visitFriends at h
    split at h
    · simp at h
    · next st1 h1 =>
      exact ih (fun st f st' hf => hstep st f st' (List.mem_cons_of_mem _ hf))
        (hstep _ _ _ (List.mem_cons_self _ _) hI h1) h

/-- Invariant rule for the main loop of `searchLayer`: `Q` is what the
invariant knows of a popped candidate. -/
theorem searchLoop_rule {store : List Node} {query : List ℚ} {ef layer : Int}
    (I : SearchState → Prop) (Q : Nat → Prop)
    (hpop : ∀ c cs v r, I ⟨c :: cs, v, r⟩ → Q c ∧ I ⟨cs, v, r⟩)
    (hstep : ∀ st c cn fs f st', Q c → store[c]? = some cn → friendsAt cn layer = .ok fs →
      f ∈ fs → I st → visitFriend store query ef st f = .ok st' → I st')
    (fuel : Nat) (st : SearchState) {out : List Nat} (hI : I st)
    (h : searchLoop store query ef layer fuel st = .ok out) :
    ∃ v, I ⟨[], v, out⟩ := by
  induction fuel generalizing st with
  | zero => simp [searchLoop] at h
  | succ fuel ih =>
    obtain ⟨cands, v, r⟩ := st
    unfold searchLoop at h
    split at h
    · next hc =>
      simp at h hc
      subst h; subst hc
      exact ⟨v, hI⟩
    · next c rest hc =>
      simp at hc; subst hc
      obtain ⟨hQ, hI1⟩ := hpop _ _ _ _ hI
      split at h
      · simp at h
      · next cn hcn =>
        rw [deref_eq_ok] at hcn
        split at h
        · simp at h
        · next fs hfs =>
          split at h
          · simp at h
          · next st1 h1 =>
            exact ih _ (visitFriends_rule I fs
              (fun st f st' hf => hstep st c cn fs f st' hQ hcn hfs hf) hI1 h1) h

/-! ## Results of a layer search -/

theorem sortByDistance_singleton (store : List Node) (query : List ℚ) (p : Nat) :
    sortByDistance store query [p] = .ok [p] := by
  simp [sortByDistance]

/-- Unfolding of a completed `searchLayer`. -/
theorem searchLayer_eq_ok {store : List Node} {e : Nat} {query : List ℚ} {ef layer : Int}
    {out : List Nat} (h : searchLayer store e query ef layer = .ok out) :
    ∃ en r, store[e]? = some en ∧ (0 ≤ ef ∧ ef ≤ maxSliceCap) ∧
      searchLoop store query ef layer (store.length + 1) ⟨[e], [en.ID], [e]⟩ = .ok r ∧
      out = if (r.length : Int) > ef then r.take ef.toNat else r := by
  unfold searchLayer at h
  split at h
  · simp at h
  · next en hen =>
    rw [deref_eq_ok] at hen
    split at h
    · simp at h
    · next hef =>
      rw [sortByDistance_singleton] at h
      simp only at h
      split at h
      · simp at h
      · next r hr =>
        refine ⟨en, r, hen, by omega, hr, ?_⟩
        split at h
        · next hgt => simp at h; subst h; rw [if_pos hgt]
        · next hle => simp at h; subst h; rw [if_neg hle]

theorem mem_of_mem_truncate {r : List Nat} {ef : Int} {p : Nat}
    (h : p ∈ (if (r.length : Int) > ef then r.take ef.toNat else r)) : p ∈ r := by
  split at h
  · exact List.mem_of_mem_take h
  · exact h

/-- Every node returned by `searchLayer` satisfies any property that holds of
the entry point and is passed on along the edges of the layer. -/
theorem searchLayer_mem {store : List Node} {e : Nat} {query : List ℚ} {ef layer : Int}
    {out : List Nat} (P : Nat → Prop) (he : P e)
    (hclosed : ∀ c cn fs f, P c → store[c]? = some cn → friendsAt cn layer = .ok fs →
      f ∈ fs → P f)
    (h : searchLayer store e query ef layer = .ok out) : ∀ p ∈ out, P p := by
  obtain ⟨en, r, -, -, hr, rfl⟩ := searchLayer_eq_ok h
  have key := searchLoop_rule
    (fun st => (∀ p ∈ st.candidates, P p) ∧ ∀ p ∈ st.results, P p) P
    (fun c cs v r hI => ⟨hI.1 c (List.mem_cons_self _ _),
      fun p hp => hI.1 p (List.mem_cons_of_mem _ hp), hI.2⟩)
    (fun st c cn fs f st' hQ hcn hfs hf hI hv => by
      have hPf : P f := hclosed c cn fs f hQ hcn hfs hf
      beta_reduce at hI ⊢
      rcases visitFriend_cases hv with rfl | ⟨fn, -, -, -, hcase⟩
      · exact hI
      · rcases hcase with ⟨hc, hr, -⟩ | ⟨hc, hr, -, -⟩ | ⟨hc, hr⟩
        · rw [hc, hr]
          constructor <;> intro p hp <;> rcases List.mem_append.1 hp with hp | hp
          · exact hI.1 p hp
          · simp at hp; exact hp ▸ hPf
          · exact hI.2 p hp
          · simp at hp; exact hp ▸ hPf
        · rw [hc]
          constructor
          · intro p hp
            rcases List.mem_append.1 hp with hp | hp
            · exact hI.1 p hp
            · simp at hp; exact hp ▸ hPf
          · intro p hp
            rcases List.mem_append.1 (hr.mem_iff.1 hp) with hp | hp
            · exact hI.2 p (List.mem_of_mem_dropLast hp)
            · simp at hp; exact hp ▸ hPf
        · rw [hc, hr]; exact hI)
    (store.length + 1) ⟨[e], [en.ID], [e]⟩
    ⟨by simpa using he, by simpa using he⟩ hr
  obtain ⟨v, -, hres⟩ := key
  intro p hp
  exact hres p (mem_of_mem_truncate hp)

/-- The result of `searchLayer` has at most `ef` entries. -/
theorem searchLayer_length_le {store : List Node} {e : Nat} {query : List ℚ} {ef layer : Int}
    {out : List Nat} (h : searchLayer store e query ef layer = .ok out) :
    (out.length : Int) ≤ ef := by
  obtain ⟨en, r, -, ⟨hef, -⟩, -, rfl⟩ := searchLayer_eq_ok h
  split
  · rw [List.length_take]
    have h1 : min ef.toNat r.length ≤ ef.toNat := Nat.min_le_left _ _
    have h2 : (ef.toNat : Int) = ef := Int.toNat_of_nonneg hef
    omega
  · omega

/-- With a beam of at least one, `searchLayer` returns at least one node. -/
theorem searchLayer_ne_nil {store : List Node} {e : Nat} {query : List ℚ} {ef layer : Int}
    {out : List Nat} (hef : 1 ≤ ef) (h : searchLayer store e query ef layer = .ok out) :
    out ≠ [] := by
  obtain ⟨en, r, -, -, hr, rfl⟩ := searchLayer_eq_ok h
  have key := searchLoop_rule (fun st => st.results ≠ []) (fun _ => True)
    (fun c cs v r hI => ⟨trivial, hI⟩)
    (fun st c cn fs f st' _ _ _ _ hI hv => by
      beta_reduce at hI ⊢
      rcases visitFriend_cases hv with rfl | ⟨fn, -, -, -, hcase⟩
      · exact hI
      · rcases hcase with ⟨-, hr, -⟩ | ⟨-, hr, -, -⟩ | ⟨-, hr⟩
        · rw [hr]; simp
        · intro h0
          have := hr.length_eq
          simp [h0] at this
        · rw [hr]; exact hI)
    (store.length + 1) ⟨[e], [en.ID], [e]⟩ (by simp) hr
  obtain ⟨v, hne⟩ := key
  simp only at hne
  split
  · intro h0
    have hlen := congrArg List.length h0
    rw [List.length_take] at hlen
    have hpos : 0 < r.length := List.length_pos.2 hne
    have hmin : 0 < min ef.toNat r.length := lt_min (by omega) hpos
    simp only [List.length_nil] at hlen
    omega
  · exact hne

/-- The result of `searchLayer` has no repetition, and every entry is a
position of the store. -/
theorem searchLayer_nodup {store : List Node} {e : Nat} {query : List ℚ} {ef layer : Int}
    {out : List Nat}
    (h : searchLayer store e query ef layer = .ok out) :
    out.Nodup ∧ ∀ p ∈ out, p < store.length := by
  obtain ⟨en, r, hen, -, hr, rfl⟩ := searchLayer_eq_ok h
  have key := searchLoop_rule
    (fun st => st.results.Nodup ∧ ∀ p ∈ st.results, ∃ n, store[p]? = some n ∧ n.ID ∈ st.visited)
    (fun _ => True)
    (fun c cs v r hI => ⟨trivial, hI⟩)
    (fun st c cn fs f st' _ _ _ _ hI hv => by
      beta_reduce at hI ⊢
      rcases visitFriend_cases hv with rfl | ⟨fn, hfn, hnv, hvis, hcase⟩
      · exact hI
      · have hfresh : f ∉ st.results := by
          intro hf
          obtain ⟨n, hn, hnvis⟩ := hI.2 f hf
          rw [hfn] at hn
          cases hn
          exact hnv hnvis
        have hold : ∀ p ∈ st.results, ∃ n, store[p]? = some n ∧ n.ID ∈ st'.visited := by
          intro p hp
          obtain ⟨n, hn, hnvis⟩ := hI.2 p hp
          exact ⟨n, hn, by rw [hvis]; exact List.mem_cons_of_mem _ hnvis⟩
        have hnew : ∃ n, store[f]? = some n ∧ n.ID ∈ st'.visited :=
          ⟨fn, hfn, by rw [hvis]; exact List.mem_cons_self _ _⟩
        rcases hcase with ⟨-, hr, -⟩ | ⟨-, hr, -, -⟩ | ⟨-, hr⟩
        · rw [hr]
          refine ⟨List.Nodup.append hI.1 (List.nodup_singleton f) ?_, ?_⟩
          · simp only [List.Disjoint, List.mem_singleton]
            intro a ha hfa
            exact hfresh (hfa ▸ ha)
          · intro p hp
            rcases List.mem_append.1 hp with hp | hp
            · exact hold p hp
            · simp at hp; subst hp; exact hnew
        · refine ⟨hr.nodup_iff.2 (List.Nodup.append
            (hI.1.sublist (List.dropLast_sublist _)) (List.nodup_singleton f) ?_), ?_⟩
          · simp only [List.Disjoint, List.mem_singleton]
            intro a ha hfa
            subst hfa
            exact hfresh (List.mem_of_mem_dropLast ha)
          · intro p hp
            rcases List.mem_append.1 (hr.mem_iff.1 hp) with hp | hp
            · exact hold p (List.mem_of_mem_dropLast hp)
            · simp at hp; subst hp; exact hnew
        · rw [hr]
          exact ⟨hI.1, hold⟩)
    (store.length + 1) ⟨[e], [en.ID], [e]⟩
    ⟨by simp, fun p hp => by simp at hp; subst hp; exact ⟨en, hen, by simp⟩⟩ hr
  obtain ⟨v, hnd, hmem⟩ := key
  simp only at hnd hmem
  constructor
  · split
    · exact hnd.sublist (List.take_sublist _ _)
    · exact hnd
  · intro p hp
    obtain ⟨n, hn, -⟩ := hmem p (mem_of_mem_truncate hp)
    exact (List.getElem?_eq_some_iff.1 hn).1

theorem length_le_of_nodup_of_lt {l : List Nat} {n : Nat} (hnd : l.Nodup)
    (hlt : ∀ x ∈ l, x < n) : l.length ≤ n := by
  have hsub : l.toFinset ⊆ Finset.range n := by
    intro x hx
    simp at hx
    simpa using hlt x hx
  have := Finset.card_le_card hsub
  rwa [List.toFinset_card_of_nodup hnd, Finset.card_range] at this

/-! ## Termination and absence of faults of a layer search -/

theorem unvisited_cons {store : List Node} {f : Nat} {fn : Node} {visited : List Nat}
    (hfn : store[f]? = some fn) (hnv : fn.ID ∉ visited) :
    unvisited store (fn.ID :: visited) + 1 = unvisited store visited := by
  unfold unvisited
  have hmem : fn.ID ∈ (store.map Node.ID).toFinset \ visited.toFinset := by
    simp only [Finset.mem_sdiff, List.mem_toFinset, List.mem_map]
    exact ⟨⟨fn, List.getElem?_mem hfn, rfl⟩, hnv⟩
  rw [List.toFinset_cons, Finset.sdiff_insert, Finset.card_erase_of_mem hmem]
  have := Finset.card_pos.2 ⟨_, hmem⟩
  omega

theorem unvisited_nil_le (store : List Node) : unvisited store [] ≤ store.length := by
  unfold unvisited
  simp only [List.toFinset_nil, Finset.sdiff_empty]
  exact (List.toFinset_card_le _).trans (by simp)

theorem distanceTo_of_explorable {store : List Node} {query : List ℚ} {layer : Int}
    {P : Nat → Prop} (hex : Explorable store query layer P) {p : Nat} (hp : P p) :
    ∃ d, distanceTo store query p = .ok d := by
  obtain ⟨n, fs, d, hn, -, -, hd⟩ := hex p hp
  exact ⟨d, by simp [distanceTo, deref, hn, hd]⟩

theorem keyed_total {store : List Node} {query : List ℚ} {ps : List Nat}
    (h : ∀ p ∈ ps, ∃ d, distanceTo store query p = .ok d) :
    ∃ ks, keyed store query ps = .ok ks := by
  induction ps with
  | nil => exact ⟨[], rfl⟩
  | cons p ps ih =>
    obtain ⟨d, hd⟩ := h p (List.mem_cons_self _ _)
    obtain ⟨ks, hks⟩ := ih (fun q hq => h q (List.mem_cons_of_mem _ hq))
    exact ⟨(d, p) :: ks, by simp [keyed, hd, hks]⟩

theorem sortByDistance_total (store : List Node) (query : List ℚ) (ps : List Nat)
    (h : ∀ p ∈ ps, ∃ d, distanceTo store query p = .ok d) :
    ∃ out, sortByDistance store query ps = .ok out := by
  unfold sortByDistance
  split
  · exact ⟨_, rfl⟩
  · obtain ⟨ks, hks⟩ := keyed_total h
    exact ⟨(insertionSort ks).map Prod.snd, by simp [hks]⟩

theorem visitFriend_total {store : List Node} {query : List ℚ} (ef : Int) {layer : Int}
    {P : Nat → Prop} (hex : Explorable store query layer P) {st : SearchState} {f : Nat}
    (hf : P f) (hres : ∀ p ∈ st.results, P p) (hne : st.results ≠ []) :
    ∃ st', visitFriend store query ef st f = .ok st' := by
  obtain ⟨fn, fs, df, hfn, -, -, hdf⟩ := hex f hf
  unfold visitFriend
  simp only [deref, hfn]
  split
  · exact ⟨_, rfl⟩
  · split
    · exact ⟨_, rfl⟩
    · obtain ⟨last, hlast⟩ : ∃ last, st.results.getLast? = some last := by
        cases hr : st.results.getLast? with
        | none => exact absurd (List.getLast?_eq_none_iff.1 hr) hne
        | some last => exact ⟨last, rfl⟩
      have hPlast : P last := hres last (List.mem_of_getLast?_eq_some hlast)
      obtain ⟨dl, hdl⟩ := distanceTo_of_explorable hex hPlast
      simp only [hlast, hdf, hdl]
      split
      · obtain ⟨out, hout⟩ := sortByDistance_total store query
          (st.results.set (st.results.length - 1) f) (by
            intro p hp
            rcases List.mem_or_eq_of_mem_set hp with hp | hp
            · exact distanceTo_of_explorable hex (hres p hp)
            · exact hp ▸ distanceTo_of_explorable hex hf)
        simp only [hout]
        exact ⟨_, rfl⟩
      · exact ⟨_, rfl⟩

theorem visitFriend_inv {store : List Node} {query : List ℚ} {ef : Int}
    {P : Nat → Prop} {st st' : SearchState} {f : Nat} (hf : P f) (hI : SearchInv P st)
    (h : visitFriend store query ef st f = .ok st') :
    SearchInv P st' ∧
      st'.candidates.length + unvisited store st'.visited
        ≤ st.candidates.length + unvisited store st.visited := by
  rcases visitFriend_cases h with rfl | ⟨fn, hfn, hnv, hvis, hcase⟩
  · exact ⟨hI, le_refl _⟩
  · have hu := unvisited_cons hfn hnv
    rw [← hvis] at hu
    obtain ⟨hc, hr, hne⟩ := hI
    rcases hcase with ⟨hc', hr', -⟩ | ⟨hc', hr', -, -⟩ | ⟨hc', hr'⟩
    · refine ⟨⟨?_, ?_, ?_⟩, ?_⟩
      · rw [hc']; intro p hp
        rcases List.mem_append.1 hp with hp | hp
        · exact hc p hp
        · simp at hp; exact hp ▸ hf
      · rw [hr']; intro p hp
        rcases List.mem_append.1 hp with hp | hp
        · exact hr p hp
        · simp at hp; exact hp ▸ hf
      · rw [hr']; simp
      · rw [hc', List.length_append, List.length_singleton]; omega
    · refine ⟨⟨?_, ?_, ?_⟩, ?_⟩
      · rw [hc']; intro p hp
        rcases List.mem_append.1 hp with hp | hp
        · exact hc p hp
        · simp at hp; exact hp ▸ hf
      · intro p hp
        rcases List.mem_append.1 (hr'.mem_iff.1 hp) with hp | hp
        · exact hr p (List.mem_of_mem_dropLast hp)
        · simp at hp; exact hp ▸ hf
      · intro h0
        have := hr'.length_eq
        simp [h0] at this
      · rw [hc', List.length_append, List.length_singleton]; omega
    · refine ⟨⟨by rw [hc']; exact hc, by rw [hr']; exact hr, by rw [hr']; exact hne⟩, ?_⟩
      rw [hc']; omega

theorem visitFriends_total {store : List Node} {query : List ℚ} (ef : Int) {layer : Int}
    {P : Nat → Prop} (hex : Explorable store query layer P) (fs : List Nat)
    (hfs : ∀ f ∈ fs, P f) (st : SearchState) (hI : SearchInv P st) :
    ∃ st', visitFriends store query ef fs st = .ok st' ∧ SearchInv P st' ∧
      st'.candidates.length + unvisited store st'.visited
        ≤ st.candidates.length + unvisited store st.visited := by
  induction fs generalizing st with
  | nil => exact ⟨st, rfl, hI, le_refl _⟩
  | cons f fs ih =>
    have hf : P f := hfs f (List.mem_cons_self _ _)
    obtain ⟨st1, h1⟩ := visitFriend_total ef hex hf hI.2.1 hI.2.2
    obtain ⟨hI1, hm1⟩ := visitFriend_inv hf hI h1
    obtain ⟨st2, h2, hI2, hm2⟩ := ih (fun g hg => hfs g (List.mem_cons_of_mem _ hg)) st1 hI1
    exact ⟨st2, by simp [visitFriends, h1, h2], hI2, hm2.trans hm1⟩

theorem searchLoop_total {store : List Node} {query : List ℚ} (ef : Int) {layer : Int}
    {P : Nat → Prop} (hex : Explorable store query layer P) (fuel : Nat) (st : SearchState)
    (hI : SearchInv P st)
    (hfuel : st.candidates.length + unvisited store st.visited < fuel) :
    ∃ out, searchLoop store query ef layer fuel st = .ok out := by
  induction fuel generalizing st with
  | zero => omega
  | succ fuel ih =>
    obtain ⟨cands, v, r⟩ := st
    cases cands with
    | nil => exact ⟨r, by simp [searchLoop]⟩
    | cons c rest =>
      obtain ⟨hc, hr, hne⟩ := hI
      obtain ⟨cn, fs, d, hcn, hfs, hclosed, -⟩ := hex c (hc c (List.mem_cons_self _ _))
      have hI1 : SearchInv P ⟨rest, v, r⟩ :=
        ⟨fun p hp => hc p (List.mem_cons_of_mem _ hp), hr, hne⟩
      obtain ⟨st1, h1, hI2, hm⟩ := visitFriends_total ef hex fs hclosed _ hI1
      simp only [List.length_cons] at hfuel hm
      obtain ⟨out, hout⟩ := ih st1 hI2 (by omega)
      exact ⟨out, by simp [searchLoop, deref, hcn, hfs, h1, hout]⟩

theorem one_le_maxSliceCap : (1 : Int) ≤ maxSliceCap := by
  decide

/-- On an explorable set containing the entry point, and with a beam width
that `make` accepts, `searchLayer` returns a result. -/
theorem searchLayer_total {store : List Node} {e : Nat} {query : List ℚ} (ef : Int)
    {layer : Int} {P : Nat → Prop} (hex : Explorable store query layer P) (he : P e)
    (hef : 0 ≤ ef) (hcap : ef ≤ maxSliceCap) :
    ∃ out, searchLayer store e query ef layer = .ok out := by
  obtain ⟨en, fs, d, hen, -, -, -⟩ := hex e he
  have hI : SearchInv P ⟨[e], [en.ID], [e]⟩ :=
    ⟨by simpa using he, by simpa using he, by simp⟩
  have hfuel : (⟨[e], [en.ID], [e]⟩ : SearchState).candidates.length
      + unvisited store (⟨[e], [en.ID], [e]⟩ : SearchState).visited < store.length + 1 := by
    have h1 : unvisited store [en.ID] + 1 = unvisited store [] :=
      unvisited_cons hen (by simp)
    have h2 := unvisited_nil_le store
    simp only [List.length_singleton]
    omega
  obtain ⟨r, hr⟩ := searchLoop_total ef hex (store.length + 1) _ hI hfuel
  unfold searchLayer
  simp only [deref, hen, sortByDistance_singleton, hr]
  rw [if_neg (by omega)]
  split <;> exact ⟨_, rfl⟩

/-! ## Writing one adjacency list -/

theorem setFriends_getElem? (store : List Node) (p l : Nat) (fs : List Nat) (q : Nat) :
    (setFriends store p l fs)[q]? =
      if q = p then (store[p]?).map (fun n => { n with Friends := n.Friends.set l fs })
      else store[q]? := by
  unfold setFriends
  cases hp : store[p]? with
  | none =>
    by_cases hq : q = p
    · subst hq; simp [hp]
    · simp [hq]
  | some n =>
    have hlt : p < store.length := (List.getElem?_eq_some_iff.1 hp).1
    by_cases hq : q = p
    · subst hq; simp [hlt]
    · simp [hq, List.getElem?_set_ne (Ne.symm hq)]

theorem setFriends_length (store : List Node) (p l : Nat) (fs : List Nat) :
    (setFriends store p l fs).length = store.length := by
  unfold setFriends
  split <;> simp

theorem setFriends_shape (store : List Node) (p l : Nat) (fs : List Nat) :
    (setFriends store p l fs).map shape = store.map shape := by
  apply List.ext_getElem?
  intro q
  rw [List.getElem?_map, List.getElem?_map, setFriends_getElem?]
  by_cases hq : q = p
  · subst hq
    cases store[q]? <;> simp [shape]
  · simp [hq]

theorem friendList_setFriends (store : List Node) (p l : Nat) (fs : List Nat) (q k : Nat) :
    friendList (setFriends store p l fs) q k =
      if q = p ∧ k = l ∧ (friendList store p l).isSome then some fs
      else friendList store q k := by
  unfold friendList
  rw [setFriends_getElem?]
  by_cases hq : q = p
  · subst hq
    cases hn : store[q]? with
    | none => simp
    | some n =>
      simp only [if_true, Option.map_some', true_and]
      by_cases hk : k = l
      · subst hk
        by_cases hlt : k < n.Friends.length
        · simp [hlt, List.getElem?_set_self hlt]
        · have h1 : n.Friends[k]? = none := List.getElem?_eq_none (by omega)
          simp [h1, List.getElem?_set, hlt]
      · simp [hk, List.getElem?_set_ne (Ne.symm hk)]
  · simp [hq]

theorem friendList_isSome_setFriends (store : List Node) (p l : Nat) (fs : List Nat)
    (q k : Nat) :
    (friendList (setFriends store p l fs) q k).isSome = (friendList store q k).isSome := by
  rw [friendList_setFriends]
  split
  · next h => obtain ⟨rfl, rfl, h⟩ := h; simp [h]
  · rfl

theorem friendList_eq_some {store : List Node} {p l : Nat} {fs : List Nat} :
    friendList store p l = some fs ↔ ∃ n, store[p]? = some n ∧ n.Friends[l]? = some fs := by
  unfold friendList
  cases store[p]? <;> simp

theorem lt_length_of_friendList {store : List Node} {p l : Nat} {fs : List Nat}
    (h : friendList store p l = some fs) : p < store.length := by
  obtain ⟨n, hn, -⟩ := friendList_eq_some.1 h
  exact (List.getElem?_eq_some_iff.1 hn).1

/-- Writing back the list that is already there changes nothing. -/
theorem setFriends_self {store : List Node} {p l : Nat} {fs : List Nat}
    (h : friendList store p l = some fs) : setFriends store p l fs = store := by
  obtain ⟨n, hn, hfs⟩ := friendList_eq_some.1 h
  apply List.ext_getElem?
  intro q
  rw [setFriends_getElem?]
  by_cases hq : q = p
  · subst hq
    simp only [if_true, hn, Option.map_some', Option.some.injEq]
    obtain ⟨id, v, fr⟩ := n
    simp only [Node.mk.injEq, true_and]
    apply List.ext_getElem?
    intro k
    rw [List.getElem?_set]
    split
    · next hk =>
      subst hk
      simp only at hfs
      have hlt : l < fr.length := (List.getElem?_eq_some_iff.1 hfs).1
      simp [hlt, hfs]
    · rfl
  · simp [hq]

/-! ## Connecting one neighbour -/

theorem farthestFriend_index {store : List Node} {origin : List ℚ} (fs : List Nat)
    (i : Nat) (maxDistance : ℚ) (maxIndex : Nat) {d : ℚ} {j : Nat}
    (h : farthestFriend store origin fs i maxDistance maxIndex = .ok (d, j)) :
    j = maxIndex ∨ (i ≤ j ∧ j < i + fs.length) := by
  induction fs generalizing i maxDistance maxIndex with
  | nil => simp [farthestFriend] at h; exact Or.inl h.2.symm
  | cons f fs ih =>
    unfold farthestFriend at h
    split at h
    · simp at h
    · split at h
      · simp at h
      · split at h
        · rcases ih _ _ _ h with h1 | h1
          · right; simp; omega
          · right; simp; omega
        · rcases ih _ _ _ h with h1 | h1
          · exact Or.inl h1
          · right; simp; omega

/-- What a completed `connectOne` does to the store. -/
theorem connectOne_spec {maxEdges : Int} {newNode : Nat} {level : Int}
    {store store' : List Node} {neighbor : Nat}
    (h : connectOne maxEdges newNode level store neighbor = .ok store') :
    0 ≤ level ∧ ∃ fs fs' nfs, friendList store neighbor level.toNat = some fs ∧
      (((fs.length : Int) < maxEdges ∧ fs' = fs ++ [newNode]) ∨
        (¬ (fs.length : Int) < maxEdges ∧
          ((∃ i, i < fs.length ∧ fs' = fs.set i newNode) ∨ fs' = fs))) ∧
      friendList (setFriends store neighbor level.toNat fs') newNode level.toNat = some nfs ∧
      store' = setFriends (setFriends store neighbor level.toNat fs') newNode level.toNat
        (nfs ++ [neighbor]) := by
  unfold connectOne at h
  split at h
  · simp at h
  · next nb hnb =>
    rw [deref_eq_ok] at hnb
    split at h
    · simp at h
    · next fs hfs =>
      rw [friendsAt_eq_ok] at hfs
      obtain ⟨hlevel, hfs⟩ := hfs
      have hfl : friendList store neighbor level.toNat = some fs :=
        friendList_eq_some.2 ⟨nb, hnb, hfs⟩
      refine ⟨hlevel, fs, ?_⟩
      simp only at h
      split at h
      · simp at h
      · next store1 hlinked =>
        split at h
        · simp at h
        · next nn hnn =>
          rw [deref_eq_ok] at hnn
          split at h
          · simp at h
          · next nfs hnfs =>
            rw [friendsAt_eq_ok] at hnfs
            simp only [Except.ok.injEq] at h
            have h1 : friendList store1 newNode level.toNat = some nfs :=
              friendList_eq_some.2 ⟨nn, hnn, hnfs.2⟩
            split at hlinked
            · next hlt =>
              simp only [Except.ok.injEq] at hlinked
              subst hlinked
              exact ⟨fs ++ [newNode], nfs, hfl, Or.inl ⟨hlt, rfl⟩, h1, h.symm⟩
            · next hge =>
              split at hlinked
              · simp at hlinked
              · next maxDistance maxIndex hfar =>
                split at hlinked
                · simp at hlinked
                · split at hlinked
                  · simp at hlinked
                  · split at hlinked
                    · split at hlinked
                      · next hidx =>
                        simp only [Except.ok.injEq] at hlinked
                        subst hlinked
                        exact ⟨fs.set maxIndex newNode, nfs, hfl,
                          Or.inr ⟨hge, Or.inl ⟨maxIndex, hidx, rfl⟩⟩, h1, h.symm⟩
                      · simp at hlinked
                    · simp only [Except.ok.injEq] at hlinked
                      subst hlinked
                      refine ⟨fs, nfs, hfl, Or.inr ⟨hge, Or.inr rfl⟩, ?_, ?_⟩
                      · rwa [setFriends_self hfl]
                      · rw [setFriends_self hfl]; exact h.symm

/-! ## `connectNewNode` keeps the store well formed -/

theorem connectOne_shape {maxEdges : Int} {np : Nat} {level : Int}
    {store store' : List Node} {nb : Nat}
    (h : connectOne maxEdges np level store nb = .ok store') :
    store'.map shape = store.map shape := by
  obtain ⟨-, fs, fs', nfs, -, -, -, rfl⟩ := connectOne_spec h
  rw [setFriends_shape, setFriends_shape]

/-- The adjacency lists after a completed `connectOne` on a neighbour other
than the new node. -/
theorem connectOne_friendList {maxEdges : Int} {np : Nat} {level : Int}
    {store store' : List Node} {nb : Nat} (hne : nb ≠ np)
    (h : connectOne maxEdges np level store nb = .ok store') :
    0 ≤ level ∧ ∃ fs fs' nfs, friendList store nb level.toNat = some fs ∧
      (((fs.length : Int) < maxEdges ∧ fs' = fs ++ [np]) ∨
        (¬ (fs.length : Int) < maxEdges ∧
          ((∃ i, i < fs.length ∧ fs' = fs.set i np) ∨ fs' = fs))) ∧
      friendList store np level.toNat = some nfs ∧
      (∀ q k, friendList store' q k =
        if q = np ∧ k = level.toNat then some (nfs ++ [nb])
        else if q = nb ∧ k = level.toNat then some fs'
        else friendList store q k) := by
  obtain ⟨hlevel, fs, fs', nfs, hfs, hcase, hnfs, rfl⟩ := connectOne_spec h
  have hnfs' : friendList store np level.toNat = some nfs := by
    rw [friendList_setFriends] at hnfs
    rw [if_neg (by intro hc; exact hne hc.1.symm)] at hnfs
    exact hnfs
  refine ⟨hlevel, fs, fs', nfs, hfs, hcase, hnfs', ?_⟩
  intro q k
  rw [friendList_setFriends, hnfs, friendList_setFriends, hfs]
  simp only [Option.isSome_some, and_true]

theorem mem_of_mem_relinked {fs fs' : List Nat} {np : Nat} {maxEdges : Int}
    (hcase : ((fs.length : Int) < maxEdges ∧ fs' = fs ++ [np]) ∨
        (¬ (fs.length : Int) < maxEdges ∧
          ((∃ i, i < fs.length ∧ fs' = fs.set i np) ∨ fs' = fs)))
    {f : Nat} (hf : f ∈ fs') : f ∈ fs ∨ f = np := by
  rcases hcase with ⟨-, rfl⟩ | ⟨-, ⟨i, -, rfl⟩ | rfl⟩
  · simpa using hf
  · exact List.mem_or_eq_of_mem_set hf
  · exact Or.inl hf

theorem connectOne_isSome {maxEdges : Int} {np : Nat} {level : Int}
    {store store' : List Node} {nb : Nat}
    (h : connectOne maxEdges np level store nb = .ok store') (q k : Nat) :
    (friendList store' q k).isSome = (friendList store q k).isSome := by
  obtain ⟨-, fs, fs', nfs, -, -, -, rfl⟩ := connectOne_spec h
  rw [friendList_isSome_setFriends, friendList_isSome_setFriends]

theorem connectOne_wellFormed {maxEdges : Int} {np : Nat} {level : Int}
    {store store' : List Node} {nb : Nat} (hne : nb ≠ np) (hwf : WellFormed store)
    (h : connectOne maxEdges np level store nb = .ok store') : WellFormed store' := by
  obtain ⟨-, fs, fs', nfs, hfs, hcase, hnfs, hall⟩ := connectOne_friendList hne h
  intro p l gs f hgs hf
  rw [connectOne_isSome h]
  rw [hall] at hgs
  split at hgs
  · next hp =>
    obtain ⟨rfl, rfl⟩ := hp
    simp only [Option.some.injEq] at hgs
    subst hgs
    rcases List.mem_append.1 hf with hf | hf
    · exact hwf _ _ _ _ hnfs hf
    · simp only [List.mem_singleton] at hf
      subst hf
      exact ⟨hne, by simp [hfs]⟩
  · split at hgs
    · next hp =>
      obtain ⟨rfl, rfl⟩ := hp
      simp only [Option.some.injEq] at hgs
      subst hgs
      rcases mem_of_mem_relinked hcase hf with hf | hf
      · exact hwf _ _ _ _ hfs hf
      · subst hf
        exact ⟨Ne.symm hne, by simp [hnfs]⟩
    · exact hwf _ _ _ _ hgs hf

theorem connectOne_stage {maxEdges : Int} {np : Nat} {level : Int}
    {store store' : List Node} {nb : Nat} (hne : nb ≠ np)
    (hst : Stage np (level - 1) store)
    (h : connectOne maxEdges np level store nb = .ok store') :
    Stage np (level - 1) store' := by
  obtain ⟨hlevel, fs, fs', nfs, hfs, hcase, hnfs, hall⟩ := connectOne_friendList hne h
  intro q l gs hgs hmem
  rw [hall] at hgs
  split at hgs
  · next hp => obtain ⟨-, rfl⟩ := hp; omega
  · split at hgs
    · next hp => obtain ⟨-, rfl⟩ := hp; omega
    · exact hst _ _ _ hgs hmem

theorem connectNewNode_shape {maxEdges : Int} {np : Nat} {level : Int}
    (neighbors : List Nat) {store store' : List Node}
    (h : connectNewNode maxEdges np level store neighbors = .ok store') :
    store'.map shape = store.map shape := by
  induction neighbors generalizing store with
  | nil => simp [connectNewNode] at h; rw [h]
  | cons nb rest ih =>
    unfold connectNewNode at h
    split at h
    · simp at h
    · next store1 h1 => rw [ih h, connectOne_shape h1]

theorem connectNewNode_wellFormed {maxEdges : Int} {np : Nat} {level : Int}
    (neighbors : List Nat) {store store' : List Node}
    (hne : ∀ nb ∈ neighbors, nb ≠ np) (hwf : WellFormed store)
    (hst : Stage np (level - 1) store)
    (h : connectNewNode maxEdges np level store neighbors = .ok store') :
    WellFormed store' ∧ Stage np (level - 1) store' := by
  induction neighbors generalizing store with
  | nil => simp [connectNewNode] at h; subst h; exact ⟨hwf, hst⟩
  | cons nb rest ih =>
    unfold connectNewNode at h
    split at h
    · simp at h
    · next store1 h1 =>
      have hnb := hne nb (List.mem_cons_self _ _)
      exact ih (fun x hx => hne x (List.mem_cons_of_mem _ hx))
        (connectOne_wellFormed hnb hwf h1) (connectOne_stage hnb hst h1) h

/-! ## The searches of `Insert` never return the node being inserted -/

theorem Stage.mono {np : Nat} {cur cur' : Int} {store : List Node} (h : Stage np cur store)
    (hle : cur' ≤ cur) : Stage np cur' store :=
  fun q l fs hfs hmem => lt_of_le_of_lt hle (h q l fs hfs hmem)

theorem searchLayer_ne_newNode {store : List Node} {e : Nat} {query : List ℚ}
    {ef layer : Int} {out : List Nat} {np : Nat} (hst : Stage np layer store)
    (he : e ≠ np) (h : searchLayer store e query ef layer = .ok out) :
    ∀ p ∈ out, p ≠ np := by
  refine searchLayer_mem (fun p => p ≠ np) he ?_ h
  intro c cn fs f _ hcn hfs hf hfnp
  obtain ⟨h0, hfs⟩ := friendsAt_eq_ok.1 hfs
  subst hfnp
  have := hst c layer.toNat fs (friendList_eq_some.2 ⟨cn, hcn, hfs⟩) hf
  rw [Int.toNat_of_nonneg h0] at this
  exact lt_irrefl _ this

theorem descend_ne_newNode {store : List Node} {query : List ℚ} {np : Nat}
    (hno : ∀ cur, Stage np cur store) (n : Nat) (cur : Int) (e : Nat) {ep : Nat}
    (he : e ≠ np) (h : descend store query n cur e = .ok ep) : ep ≠ np := by
  induction n generalizing cur e with
  | zero => simp [descend] at h; exact h ▸ he
  | succ n ih =>
    unfold descend at h
    split at h
    · simp at h
    · simp at h
    · next first rest hs =>
      exact ih _ _ (searchLayer_ne_newNode (hno cur) he hs first (List.mem_cons_self _ _)) h

theorem connectLayers_shape {maxEdges ef : Int} {query : List ℚ} {np ep : Nat}
    (n : Nat) (cur : Int) {store store' : List Node}
    (h : connectLayers maxEdges ef query np ep n cur store = .ok store') :
    store'.map shape = store.map shape := by
  induction n generalizing cur store with
  | zero => simp [connectLayers] at h; rw [h]
  | succ n ih =>
    unfold connectLayers at h
    split at h
    · simp at h
    · split at h
      · simp at h
      · next store1 h1 => rw [ih _ h, connectNewNode_shape _ h1]

theorem connectLayers_wellFormed {maxEdges ef : Int} {query : List ℚ} {np ep : Nat}
    (hep : ep ≠ np) (n : Nat) (cur : Int) {store store' : List Node}
    (hwf : WellFormed store) (hst : Stage np cur store)
    (h : connectLayers maxEdges ef query np ep n cur store = .ok store') :
    WellFormed store' := by
  induction n generalizing cur store with
  | zero => simp [connectLayers] at h; subst h; exact hwf
  | succ n ih =>
    unfold connectLayers at h
    split at h
    · simp at h
    · next neighbors hs =>
      split at h
      · simp at h
      · next store1 h1 =>
        obtain ⟨hwf1, hst1⟩ := connectNewNode_wellFormed neighbors
          (searchLayer_ne_newNode hst hep hs) hwf (hst.mono (by omega)) h1
        exact ih _ hwf1 hst1 h

/-! ## The store at the start of `Insert` -/

theorem friendList_append_left {store : List Node} {x : Node} {p l : Nat}
    (hp : p < store.length) : friendList (store ++ [x]) p l = friendList store p l := by
  unfold friendList
  rw [List.getElem?_append_left hp]

theorem friendList_append_new (store : List Node) (x : Node) (l : Nat) :
    friendList (store ++ [x]) store.length l = x.Friends[l]? := by
  unfold friendList
  simp

theorem friendList_freshNode {store : List Node} {id : Nat} {vector : List ℚ} {level : Int}
    {p l : Nat} {fs : List Nat}
    (h : friendList (store ++ [freshNode id vector level]) p l = some fs) :
    (p < store.length ∧ friendList store p l = some fs) ∨ (p = store.length ∧ fs = []) := by
  rcases Nat.lt_trichotomy p store.length with hp | hp | hp
  · left
    rw [friendList_append_left hp] at h
    exact ⟨hp, h⟩
  · right
    subst hp
    rw [friendList_append_new] at h
    simp only [freshNode, List.getElem?_replicate] at h
    split at h
    · simp only [Option.some.injEq] at h
      exact ⟨rfl, h.symm⟩
    · simp at h
  · have := lt_length_of_friendList h
    simp at this
    omega

theorem wellFormed_append_fresh {store : List Node} (hwf : WellFormed store)
    (id : Nat) (vector : List ℚ) (level : Int) :
    WellFormed (store ++ [freshNode id vector level]) ∧
      ∀ cur, Stage store.length cur (store ++ [freshNode id vector level]) := by
  constructor
  · intro p l fs f hfs hf
    rcases friendList_freshNode hfs with ⟨hp, hfs⟩ | ⟨-, rfl⟩
    · obtain ⟨h1, h2⟩ := hwf p l fs f hfs hf
      refine ⟨h1, ?_⟩
      obtain ⟨gs, hgs⟩ := Option.isSome_iff_exists.1 h2
      rw [friendList_append_left (lt_length_of_friendList hgs), hgs]
      rfl
    · simp at hf
  · intro cur q l fs hfs hmem
    exfalso
    rcases friendList_freshNode hfs with ⟨hp, hfs⟩ | ⟨-, rfl⟩
    · obtain ⟨-, h2⟩ := hwf q l fs _ hfs hmem
      obtain ⟨gs, hgs⟩ := Option.isSome_iff_exists.1 h2
      exact lt_irrefl _ (lt_length_of_friendList hgs)
    · simp at hmem

/-- Unfolding of a completed `Insert` on a non-empty index. -/
theorem Insert_eq_ok {h h' : HNSW} {vector : List ℚ} {level : Int}
    (hne : h.Nodes.length ≠ 0) (hins : Insert h vector level = .ok h') :
    ∃ entry ep store1, h.Nodes[0]? = some entry ∧
      descend (h.Nodes ++ [freshNode h.Nodes.length vector level]) vector
        (((entry.Friends.length : Int) - 1) - level).toNat ((entry.Friends.length : Int) - 1) 0
        = .ok ep ∧
      connectLayers h.MaxEdges h.Ef vector h.Nodes.length ep (level + 1).toNat level
        (h.Nodes ++ [freshNode h.Nodes.length vector level]) = .ok store1 ∧
      h' = { h with Nodes := store1 } := by
  unfold Insert at hins
  simp only [if_neg hne] at hins
  split at hins
  · simp at hins
  · next entry hentry =>
    rw [deref_eq_ok] at hentry
    have hentry' : h.Nodes[0]? = some entry := by
      rwa [List.getElem?_append_left (by omega)] at hentry
    split at hins
    · simp at hins
    · next ep hep =>
      split at hins
      · simp at hins
      · next store1 hs =>
        simp only [Except.ok.injEq] at hins
        exact ⟨entry, ep, store1, hentry', hep, hs, hins.symm⟩

/-- `Insert` appends the new node and leaves ID, vector and number of layers
of every earlier node as they were. -/
theorem Insert_shape {h h' : HNSW} {vector : List ℚ} {level : Int}
    (hins : Insert h vector level = .ok h') :
    h'.Nodes.map shape = h.Nodes.map shape ++ [(h.Nodes.length, vector, (level + 1).toNat)]
      ∧ h'.MaxEdges = h.MaxEdges ∧ h'.Ef = h.Ef := by
  by_cases hne : h.Nodes.length = 0
  · unfold Insert at hins
    simp only [if_pos hne, Except.ok.injEq] at hins
    subst hins
    simp [shape, freshNode]
  · obtain ⟨entry, ep, store1, -, -, hs, rfl⟩ := Insert_eq_ok hne hins
    simp only [connectLayers_shape _ _ hs, and_self, and_true]
    simp [shape, freshNode]

/-- A completed `Insert` keeps the store well formed. -/
theorem Insert_wellFormed {h h' : HNSW} {vector : List ℚ} {level : Int}
    (hwf : WellFormed h.Nodes) (hins : Insert h vector level = .ok h') :
    WellFormed h'.Nodes := by
  obtain ⟨hwf0, hst0⟩ := wellFormed_append_fresh hwf h.Nodes.length vector level
  by_cases hne : h.Nodes.length = 0
  · unfold Insert at hins
    simp only [if_pos hne, Except.ok.injEq] at hins
    subst hins
    exact hwf0
  · obtain ⟨entry, ep, store1, -, hep, hs, rfl⟩ := Insert_eq_ok hne hins
    have hep' : ep ≠ h.Nodes.length :=
      descend_ne_newNode hst0 _ _ 0 (by omega) hep
    exact connectLayers_wellFormed hep' _ _ hwf0 (hst0 level) hs

theorem wellFormed_nil : WellFormed [] := by
  intro p l fs f hfs
  simp [friendList] at hfs

theorem insertAll_wellFormed (inputs : List (List ℚ × Int)) {h h' : HNSW}
    (hwf : WellFormed h.Nodes) (hall : insertAll h inputs = .ok h') :
    WellFormed h'.Nodes := by
  induction inputs generalizing h with
  | nil => simp [insertAll] at hall; subst hall; exact hwf
  | cons x rest ih =>
    obtain ⟨v, l⟩ := x
    unfold insertAll at hall
    split at hall
    · simp at hall
    · next h1 hins => exact ih (Insert_wellFormed hwf hins) hall

/-! ## Nodes of an index built by `insertAll` -/

theorem Insert_length {h h' : HNSW} {vector : List ℚ} {level : Int}
    (hins : Insert h vector level = .ok h') : h'.Nodes.length = h.Nodes.length + 1 := by
  have := congrArg List.length (Insert_shape hins).1
  simpa using this

theorem Insert_node_kept {h h' : HNSW} {vector : List ℚ} {level : Int}
    (hins : Insert h vector level = .ok h') {i : Nat} {n : Node} (hn : h.Nodes[i]? = some n) :
    ∃ n', h'.Nodes[i]? = some n' ∧ shape n' = shape n := by
  have hlt : i < h.Nodes.length := (List.getElem?_eq_some_iff.1 hn).1
  have h1 := congrArg (fun l => l[i]?) (Insert_shape hins).1
  simp only [List.getElem?_map] at h1
  rw [List.getElem?_append_left (by simpa using hlt), List.getElem?_map, hn] at h1
  cases hn' : h'.Nodes[i]? with
  | none => rw [hn'] at h1; simp at h1
  | some n' =>
    rw [hn'] at h1
    simp only [Option.map_some', Option.some.injEq] at h1
    exact ⟨n', rfl, h1⟩

theorem Insert_node_new {h h' : HNSW} {vector : List ℚ} {level : Int}
    (hins : Insert h vector level = .ok h') :
    ∃ n', h'.Nodes[h.Nodes.length]? = some n' ∧
      shape n' = (h.Nodes.length, vector, (level + 1).toNat) := by
  have h1 := congrArg (fun l => l[h.Nodes.length]?) (Insert_shape hins).1
  simp only [List.getElem?_map] at h1
  rw [List.getElem?_append_right (by simp)] at h1
  simp only [List.length_map, Nat.sub_self, List.getElem?_cons_zero] at h1
  cases hn' : h'.Nodes[h.Nodes.length]? with
  | none => rw [hn'] at h1; simp at h1
  | some n' =>
    rw [hn'] at h1
    simp only [Option.map_some', Option.some.injEq] at h1
    exact ⟨n', rfl, h1⟩

/-- Nodes of an index after a sequence of completed inserts: the earlier nodes
keep their shape, and each input becomes one node, in order. -/
theorem insertAll_nodes (inputs : List (List ℚ × Int)) {h h' : HNSW}
    (hall : insertAll h inputs = .ok h') :
    h'.Nodes.length = h.Nodes.length + inputs.length ∧
    h'.MaxEdges = h.MaxEdges ∧ h'.Ef = h.Ef ∧
    (∀ (i : Nat) (n : Node), h.Nodes[i]? = some n →
      ∃ n', h'.Nodes[i]? = some n' ∧ shape n' = shape n) ∧
    (∀ j (hj : j < inputs.length), ∃ n', h'.Nodes[h.Nodes.length + j]? = some n' ∧
      shape n' = (h.Nodes.length + j, (inputs[j]).1, ((inputs[j]).2 + 1).toNat)) := by
  induction inputs generalizing h with
  | nil =>
    simp only [insertAll, Except.ok.injEq] at hall
    subst hall
    exact ⟨rfl, rfl, rfl, fun i n hn => ⟨n, hn, rfl⟩, fun j hj => absurd hj (by simp)⟩
  | cons x rest ih =>
    obtain ⟨v, l⟩ := x
    unfold insertAll at hall
    split at hall
    · simp at hall
    · next h1 hins =>
      obtain ⟨hlen, hM, hEf, hkept, hnew⟩ := ih hall
      have hlen1 := Insert_length hins
      obtain ⟨-, hM1, hEf1⟩ := Insert_shape hins
      refine ⟨by simp only [List.length_cons]; omega, hM.trans hM1, hEf.trans hEf1, ?_, ?_⟩
      · intro i n hn
        obtain ⟨n1, hn1, hs1⟩ := Insert_node_kept hins hn
        obtain ⟨n', hn', hs'⟩ := hkept i n1 hn1
        exact ⟨n', hn', hs'.trans hs1⟩
      · intro j hj
        cases j with
        | zero =>
          obtain ⟨n1, hn1, hs1⟩ := Insert_node_new hins
          obtain ⟨n', hn', hs'⟩ := hkept _ n1 hn1
          exact ⟨n', hn', by simpa using hs'.trans hs1⟩
        | succ j =>
          obtain ⟨n', hn', hs'⟩ := hnew j (by simpa using hj)
          rw [hlen1] at hn' hs'
          refine ⟨n', ?_, ?_⟩
          · rw [← hn']; congr 1; omega
          · rw [hs']
            simp only [List.getElem_cons_succ, Prod.mk.injEq, and_true]
            omega

theorem friendList_of_mem {store : List Node} {n : Node} {fs : List Nat} (hn : n ∈ store)
    (hfs : fs ∈ n.Friends) : ∃ p l, store[p]? = some n ∧ friendList store p l = some fs := by
  obtain ⟨p, hp⟩ := List.mem_iff_getElem?.1 hn
  obtain ⟨l, hl⟩ := List.mem_iff_getElem?.1 hfs
  exact ⟨p, l, hp, friendList_eq_some.2 ⟨n, hp, hl⟩⟩

/-! ## `Search` on a well-formed index -/

theorem sumSquares_total (a b : List ℚ) (sum : ℚ) (hlen : a.length ≤ b.length) :
    ∃ d, sumSquares a b sum = .ok d := by
  induction a generalizing b sum with
  | nil => exact ⟨sum, rfl⟩
  | cons x xs ih =>
    cases b with
    | nil => simp at hlen
    | cons y ys =>
      simp only [sumSquares]
      exact ih ys _ (by simpa using hlen)

theorem friendList_lower {store : List Node} {p l l' : Nat} (hle : l' ≤ l)
    (h : (friendList store p l).isSome) : (friendList store p l').isSome := by
  obtain ⟨fs, hfs⟩ := Option.isSome_iff_exists.1 h
  obtain ⟨n, hn, hl⟩ := friendList_eq_some.1 hfs
  have hlt : l < n.Friends.length := (List.getElem?_eq_some_iff.1 hl).1
  have hlt' : l' < n.Friends.length := by omega
  have : friendList store p l' = some (n.Friends[l']) :=
    friendList_eq_some.2 ⟨n, hn, List.getElem?_eq_getElem hlt'⟩
  rw [this]; rfl

/-- On a well-formed store whose vectors are long enough for the query, the
nodes that have a given layer form an explorable set. -/
theorem explorable_of_wellFormed {store : List Node} {query : List ℚ} (layer : Int)
    (hwf : WellFormed store) (hdim : ∀ n ∈ store, query.length ≤ n.Vector.length)
    (hlayer : 0 ≤ layer) :
    Explorable store query layer (fun p => (friendList store p layer.toNat).isSome) := by
  intro p hp
  obtain ⟨fs, hfs⟩ := Option.isSome_iff_exists.1 hp
  obtain ⟨n, hn, hl⟩ := friendList_eq_some.1 hfs
  obtain ⟨d, hd⟩ := sumSquares_total query n.Vector 0 (hdim n (List.getElem?_mem hn))
  exact ⟨n, fs, d, hn, friendsAt_eq_ok.2 ⟨hlayer, hl⟩, fun f hf => (hwf _ _ _ _ hfs hf).2, hd⟩

theorem descend_total {store : List Node} {query : List ℚ}
    (hwf : WellFormed store) (hdim : ∀ n ∈ store, query.length ≤ n.Vector.length)
    (n : Nat) (cur : Int) (e : Nat) (hn : (n : Int) ≤ cur)
    (he : (friendList store e cur.toNat).isSome) :
    ∃ ep, descend store query n cur e = .ok ep ∧
      (friendList store ep (cur - n).toNat).isSome := by
  induction n generalizing cur e with
  | zero => exact ⟨e, rfl, by simpa using he⟩
  | succ n ih =>
    have hcur : 0 ≤ cur := by omega
    have hex := explorable_of_wellFormed cur hwf hdim hcur
    obtain ⟨out, hout⟩ := searchLayer_total 1 hex he (by omega) one_le_maxSliceCap
    have hmem := searchLayer_mem _ he (fun c cn fs f hc hcn hfs hf => by
      obtain ⟨cn', fs', d, hcn', hfs', hcl, -⟩ := hex c hc
      rw [hcn] at hcn'
      cases hcn'
      rw [hfs] at hfs'
      cases hfs'
      exact hcl f hf) hout
    have hne := searchLayer_ne_nil (le_refl 1) hout
    cases out with
    | nil => exact absurd rfl hne
    | cons first rest =>
      have hfirst := hmem first (List.mem_cons_self _ _)
      obtain ⟨ep, hep, hlay⟩ := ih (cur - 1) first (by omega)
        (friendList_lower (Int.toNat_le_toNat (by omega)) hfirst)
      refine ⟨ep, by simp [descend, hout, hep], ?_⟩
      have : cur - 1 - (n : Int) = cur - ((n + 1 : Nat) : Int) := by push_cast; ring
      rwa [this] at hlay

/-- `Search` returns a result on a well-formed, non-empty index whose entry
node has a layer and whose vectors are long enough for the query; the result
is not empty, has no repetition, and has at most `k` entries.  `k` is a
capacity that `make` accepts. -/
theorem Search_total {h : HNSW} {query : List ℚ} {k : Int} {n0 : Node}
    (hwf : WellFormed h.Nodes) (hn0 : h.Nodes[0]? = some n0) (hdepth : 0 < n0.Friends.length)
    (hdim : ∀ n ∈ h.Nodes, query.length ≤ n.Vector.length) (hk : 1 ≤ k)
    (hcap : k ≤ maxSliceCap) :
    ∃ out, Search h query k = .ok out ∧ out ≠ [] ∧ (out.length : Int) ≤ k ∧
      out.Nodup ∧ ∀ p ∈ out, p < h.Nodes.length := by
  have htop : (0 : Int) ≤ (n0.Friends.length : Int) - 1 := by omega
  have he : (friendList h.Nodes 0 ((n0.Friends.length : Int) - 1).toNat).isSome := by
    have hlt : ((n0.Friends.length : Int) - 1).toNat < n0.Friends.length := by omega
    have : friendList h.Nodes 0 ((n0.Friends.length : Int) - 1).toNat
        = some (n0.Friends[((n0.Friends.length : Int) - 1).toNat]) :=
      friendList_eq_some.2 ⟨n0, hn0, List.getElem?_eq_getElem hlt⟩
    rw [this]; rfl
  obtain ⟨ep, hep, hlay⟩ := descend_total hwf hdim ((n0.Friends.length : Int) - 1).toNat
    ((n0.Friends.length : Int) - 1) 0 (by omega) he
  have hlay0 : (friendList h.Nodes ep (0 : Int).toNat).isSome := by
    have : ((n0.Friends.length : Int) - 1 - (((n0.Friends.length : Int) - 1).toNat : Int)).toNat
        = (0 : Int).toNat := by
      rw [Int.toNat_of_nonneg htop]; simp
    rwa [this] at hlay
  have hex := explorable_of_wellFormed 0 hwf hdim (le_refl 0)
  obtain ⟨out, hout⟩ := searchLayer_total k hex hlay0 (by omega) hcap
  refine ⟨out, by unfold Search; simp only [hn0, hep, hout], searchLayer_ne_nil hk hout,
    searchLayer_length_le hout, (searchLayer_nodup hout).1, (searchLayer_nodup hout).2⟩

/-! ## Small indexes: no adjacency list is ever full -/

theorem searchLayer_layer_nonneg {store : List Node} {e : Nat} {query : List ℚ}
    {ef layer : Int} {out : List Nat} (h : searchLayer store e query ef layer = .ok out) :
    0 ≤ layer := by
  obtain ⟨en, r, -, -, hr, -⟩ := searchLayer_eq_ok h
  unfold searchLoop at hr
  simp only at hr
  split at hr
  · simp at hr
  · split at hr
    · simp at hr
    · next fs hfs => exact (friendsAt_eq_ok.1 hfs).1

theorem length_lt_of_nodup_of_ne {l : List Nat} {n a : Nat} (hnd : l.Nodup) (ha : a < n)
    (hl : ∀ x ∈ l, x < n ∧ x ≠ a) : l.length < n := by
  have hnd' : (a :: l).Nodup := List.nodup_cons.2 ⟨fun hmem => (hl a hmem).2 rfl, hnd⟩
  have := length_le_of_nodup_of_lt (n := n) hnd' (by
    intro x hx
    rcases List.mem_cons.1 hx with rfl | hx
    · exact ha
    · exact (hl x hx).1)
  simpa using this

/-- In a store of at most `MaxEdges + 1` nodes the neighbour's list is never
full, so `connectOne` appends on both sides. -/
theorem connectOne_small {maxEdges : Int} {np : Nat} {level : Int}
    {store store' : List Node} {nb : Nat} (hne : nb ≠ np)
    (hlen : store.length = np + 1) (hM : (np : Int) ≤ maxEdges)
    (hwf : WellFormed store) (hmut : Mutual store) (hnd : NoRepeat store)
    (hfresh : ∀ nfs, friendList store np level.toNat = some nfs → nb ∉ nfs)
    (h : connectOne maxEdges np level store nb = .ok store') :
    ∃ fs nfs, friendList store nb level.toNat = some fs ∧
      friendList store np level.toNat = some nfs ∧ np ∉ fs ∧ nb ∉ nfs ∧
      (∀ q k, friendList store' q k =
        if q = np ∧ k = level.toNat then some (nfs ++ [nb])
        else if q = nb ∧ k = level.toNat then some (fs ++ [np])
        else friendList store q k) := by
  obtain ⟨-, fs, fs', nfs, hfs, hcase, hnfs, hall⟩ := connectOne_friendList hne h
  have hnp : np ∉ fs := by
    intro hmem
    obtain ⟨gs, hgs, hnb⟩ := hmut _ _ _ _ hfs hmem
    exact hfresh gs hgs hnb
  have hnblt : nb < np := by
    have := lt_length_of_friendList hfs
    omega
  have hshort : fs.length < np := by
    refine length_lt_of_nodup_of_ne (hnd _ _ _ hfs) hnblt ?_
    intro x hx
    obtain ⟨h1, h2⟩ := hwf _ _ _ _ hfs hx
    obtain ⟨gs, hgs⟩ := Option.isSome_iff_exists.1 h2
    have hxlt := lt_length_of_friendList hgs
    have hxne : x ≠ np := fun hc => hnp (hc ▸ hx)
    exact ⟨by omega, h1⟩
  have hfs' : fs' = fs ++ [np] := by
    rcases hcase with ⟨-, h1⟩ | ⟨h1, -⟩
    · exact h1
    · exact absurd (by omega) h1
  subst hfs'
  exact ⟨fs, nfs, hfs, hnfs, hnp, hfresh nfs hnfs, hall⟩

/-- The three invariants of a small store survive `connectOne`. -/
theorem connectOne_small_inv {maxEdges : Int} {np : Nat} {level : Int}
    {store store' : List Node} {nb : Nat} (hne : nb ≠ np)
    (hlen : store.length = np + 1) (hM : (np : Int) ≤ maxEdges)
    (hwf : WellFormed store) (hmut : Mutual store) (hnd : NoRepeat store)
    (hfresh : ∀ nfs, friendList store np level.toNat = some nfs → nb ∉ nfs)
    (h : connectOne maxEdges np level store nb = .ok store') :
    Mutual store' ∧ NoRepeat store' ∧
      ∀ r, r ≠ nb → (∀ nfs, friendList store np level.toNat = some nfs → r ∉ nfs) →
        ∀ nfs, friendList store' np level.toNat = some nfs → r ∉ nfs := by
  obtain ⟨fs, nfs, hfs, hnfs, hnp, hnb, hall⟩ :=
    connectOne_small hne hlen hM hwf hmut hnd hfresh h
  -- every old list is contained in the new one
  have hgrow : ∀ q k gs, friendList store q k = some gs →
      ∃ gs', friendList store' q k = some gs' ∧ ∀ x ∈ gs, x ∈ gs' := by
    intro q k gs hgs
    rw [hall]
    split
    · next hq =>
      obtain ⟨rfl, rfl⟩ := hq
      rw [hnfs] at hgs; cases hgs
      exact ⟨_, rfl, fun x hx => List.mem_append_left _ hx⟩
    · split
      · next hq =>
        obtain ⟨rfl, rfl⟩ := hq
        rw [hfs] at hgs; cases hgs
        exact ⟨_, rfl, fun x hx => List.mem_append_left _ hx⟩
      · exact ⟨gs, hgs, fun x hx => hx⟩
  have hnew_np : ∃ gs', friendList store' np level.toNat = some gs' ∧ nb ∈ gs' :=
    ⟨nfs ++ [nb], by rw [hall]; simp, by simp⟩
  have hnew_nb : ∃ gs', friendList store' nb level.toNat = some gs' ∧ np ∈ gs' :=
    ⟨fs ++ [np], by rw [hall]; simp [hne], by simp⟩
  refine ⟨?_, ?_, ?_⟩
  · intro p l gs f hgs hf
    rw [hall] at hgs
    split at hgs
    · next hq =>
      obtain ⟨rfl, rfl⟩ := hq
      simp only [Option.some.injEq] at hgs; subst hgs
      rcases List.mem_append.1 hf with hf | hf
      · obtain ⟨gs', hgs', hp⟩ := hmut _ _ _ _ hnfs hf
        obtain ⟨gs'', hgs'', hsub⟩ := hgrow _ _ _ hgs'
        exact ⟨gs'', hgs'', hsub _ hp⟩
      · simp only [List.mem_singleton] at hf; subst hf
        exact hnew_nb
    · split at hgs
      · next hq =>
        obtain ⟨rfl, rfl⟩ := hq
        simp only [Option.some.injEq] at hgs; subst hgs
        rcases List.mem_append.1 hf with hf | hf
        · obtain ⟨gs', hgs', hp⟩ := hmut _ _ _ _ hfs hf
          obtain ⟨gs'', hgs'', hsub⟩ := hgrow _ _ _ hgs'
          exact ⟨gs'', hgs'', hsub _ hp⟩
        · simp only [List.mem_singleton] at hf; subst hf
          exact hnew_np
      · obtain ⟨gs', hgs', hp⟩ := hmut _ _ _ _ hgs hf
        obtain ⟨gs'', hgs'', hsub⟩ := hgrow _ _ _ hgs'
        exact ⟨gs'', hgs'', hsub _ hp⟩
  · intro p l gs hgs
    rw [hall] at hgs
    split at hgs
    · simp only [Option.some.injEq] at hgs; subst hgs
      refine List.Nodup.append (hnd _ _ _ hnfs) (List.nodup_singleton _) ?_
      simp only [List.Disjoint, List.mem_singleton]
      intro a ha hab
      exact hnb (hab ▸ ha)
    · split at hgs
      · simp only [Option.some.injEq] at hgs; subst hgs
        refine List.Nodup.append (hnd _ _ _ hfs) (List.nodup_singleton _) ?_
        simp only [List.Disjoint, List.mem_singleton]
        intro a ha hab
        exact hnp (hab ▸ ha)
      · exact hnd _ _ _ hgs
  · intro r hr hold gs hgs hmem
    rw [hall] at hgs
    simp only [and_self, if_true, Option.some.injEq] at hgs
    subst hgs
    rcases List.mem_append.1 hmem with hmem | hmem
    · exact hold nfs hnfs hmem
    · simp only [List.mem_singleton] at hmem
      exact hr hmem

theorem connectNewNode_small {maxEdges : Int} {np : Nat} {level : Int}
    (neighbors : List Nat) {store store' : List Node}
    (hne : ∀ nb ∈ neighbors, nb ≠ np) (hnodup : neighbors.Nodup)
    (hlen : store.length = np + 1) (hM : (np : Int) ≤ maxEdges)
    (hwf : WellFormed store) (hmut : Mutual store) (hnd : NoRepeat store)
    (hfresh : ∀ nb ∈ neighbors, ∀ nfs, friendList store np level.toNat = some nfs → nb ∉ nfs)
    (h : connectNewNode maxEdges np level store neighbors = .ok store') :
    Mutual store' ∧ NoRepeat store' := by
  induction neighbors generalizing store with
  | nil => simp [connectNewNode] at h; subst h; exact ⟨hmut, hnd⟩
  | cons nb rest ih =>
    unfold connectNewNode at h
    split at h
    · simp at h
    · next store1 h1 =>
      have hnb := hne nb (List.mem_cons_self _ _)
      obtain ⟨hnbrest, hrest⟩ := List.nodup_cons.1 hnodup
      obtain ⟨hmut1, hnd1, hkeep⟩ := connectOne_small_inv hnb hlen hM hwf hmut hnd
        (hfresh nb (List.mem_cons_self _ _)) h1
      have hlen1 : store1.length = np + 1 := by
        have := congrArg List.length (connectOne_shape h1)
        simp only [List.length_map] at this
        omega
      exact ih (fun x hx => hne x (List.mem_cons_of_mem _ hx)) hrest hlen1
        (connectOne_wellFormed hnb hwf h1) hmut1 hnd1
        (fun r hr => hkeep r (fun hc => hnbrest (hc ▸ hr))
          (hfresh r (List.mem_cons_of_mem _ hr))) h

theorem connectLayers_small {maxEdges ef : Int} {query : List ℚ} {np ep : Nat}
    (hep : ep ≠ np) (hM : (np : Int) ≤ maxEdges) (n : Nat) (cur : Int)
    {store store' : List Node} (hlen : store.length = np + 1)
    (hwf : WellFormed store) (hst : Stage np cur store)
    (hmut : Mutual store) (hnd : NoRepeat store)
    (h : connectLayers maxEdges ef query np ep n cur store = .ok store') :
    Mutual store' ∧ NoRepeat store' := by
  induction n generalizing cur store with
  | zero => simp [connectLayers] at h; subst h; exact ⟨hmut, hnd⟩
  | succ n ih =>
    unfold connectLayers at h
    split at h
    · simp at h
    · next neighbors hs =>
      split at h
      · simp at h
      · next store1 h1 =>
        have hcur := searchLayer_layer_nonneg hs
        have hne := searchLayer_ne_newNode hst hep hs
        have hfresh : ∀ nb ∈ neighbors, ∀ nfs,
            friendList store np cur.toNat = some nfs → nb ∉ nfs := by
          intro nb _ nfs hnfs hmem
          obtain ⟨gs, hgs, hnp⟩ := hmut _ _ _ _ hnfs hmem
          have := hst _ _ _ hgs hnp
          rw [Int.toNat_of_nonneg hcur] at this
          exact lt_irrefl _ this
        obtain ⟨hmut1, hnd1⟩ := connectNewNode_small neighbors hne (searchLayer_nodup hs).1
          hlen hM hwf hmut hnd hfresh h1
        obtain ⟨hwf1, hst1⟩ := connectNewNode_wellFormed neighbors hne hwf
          (hst.mono (by omega)) h1
        have hlen1 : store1.length = np + 1 := by
          have := congrArg List.length (connectNewNode_shape _ h1)
          simp only [List.length_map] at this
          omega
        exact ih _ hlen1 hwf1 hst1 hmut1 hnd1 h

theorem small_append_fresh {store : List Node}
    (hmut : Mutual store) (hnd : NoRepeat store) (id : Nat) (vector : List ℚ) (level : Int) :
    Mutual (store ++ [freshNode id vector level]) ∧
      NoRepeat (store ++ [freshNode id vector level]) := by
  constructor
  · intro p l fs f hfs hf
    rcases friendList_freshNode hfs with ⟨hp, hfs⟩ | ⟨-, rfl⟩
    · obtain ⟨gs, hgs, hmem⟩ := hmut p l fs f hfs hf
      exact ⟨gs, by rw [friendList_append_left (lt_length_of_friendList hgs), hgs], hmem⟩
    · simp at hf
  · intro p l fs hfs
    rcases friendList_freshNode hfs with ⟨hp, hfs⟩ | ⟨-, rfl⟩
    · exact hnd p l fs hfs
    · exact List.nodup_nil

theorem Insert_small {h h' : HNSW} {vector : List ℚ} {level : Int}
    (hM : (h.Nodes.length : Int) ≤ h.MaxEdges)
    (hwf : WellFormed h.Nodes) (hmut : Mutual h.Nodes) (hnd : NoRepeat h.Nodes)
    (hins : Insert h vector level = .ok h') : Mutual h'.Nodes ∧ NoRepeat h'.Nodes := by
  obtain ⟨hwf0, hst0⟩ := wellFormed_append_fresh hwf h.Nodes.length vector level
  obtain ⟨hmut0, hnd0⟩ := small_append_fresh hmut hnd h.Nodes.length vector level
  by_cases hne : h.Nodes.length = 0
  · unfold Insert at hins
    simp only [if_pos hne, Except.ok.injEq] at hins
    subst hins
    exact ⟨hmut0, hnd0⟩
  · obtain ⟨entry, ep, store1, -, hep, hs, rfl⟩ := Insert_eq_ok hne hins
    have hep' : ep ≠ h.Nodes.length :=
      descend_ne_newNode hst0 _ _ 0 (by omega) hep
    exact connectLayers_small hep' hM _ _ (by simp) hwf0 (hst0 level) hmut0 hnd0 hs

theorem insertAll_small (inputs : List (List ℚ × Int)) {h h' : HNSW}
    (hM : (h.Nodes.length : Int) + inputs.length ≤ h.MaxEdges + 1)
    (hwf : WellFormed h.Nodes) (hmut : Mutual h.Nodes) (hnd : NoRepeat h.Nodes)
    (hall : insertAll h inputs = .ok h') : Mutual h'.Nodes := by
  induction inputs generalizing h with
  | nil => simp [insertAll] at hall; subst hall; exact hmut
  | cons x rest ih =>
    obtain ⟨v, l⟩ := x
    unfold insertAll at hall
    split at hall
    · simp at hall
    · next h1 hins =>
      simp only [List.length_cons, Nat.cast_add, Nat.cast_one] at hM
      obtain ⟨hmut1, hnd1⟩ := Insert_small (by omega) hwf hmut hnd hins
      obtain ⟨-, hM1, -⟩ := Insert_shape hins
      have hlen1 := Insert_length hins
      exact ih (by rw [hlen1, hM1]; push_cast; omega) (Insert_wellFormed hwf hins)
        hmut1 hnd1 hall

/-! ## The loop budget is never used up -/

theorem sumSquares_ne_outOfFuel (a b : List ℚ) (sum : ℚ) :
    sumSquares a b sum ≠ .error .outOfFuel := by
  induction a generalizing b sum with
  | nil => simp [sumSquares]
  | cons x xs ih =>
    cases b with
    | nil => simp [sumSquares]
    | cons y ys => simp only [sumSquares]; exact ih _ _

theorem EuclideanDistance_ne_outOfFuel (a b : List ℚ) :
    EuclideanDistance a b ≠ .error .outOfFuel :=
  sumSquares_ne_outOfFuel a b 0

theorem deref_ne_outOfFuel (store : List Node) (p : Nat) :
    deref store p ≠ .error .outOfFuel := by
  unfold deref
  split <;> simp

theorem friendsAt_ne_outOfFuel (n : Node) (layer : Int) :
    friendsAt n layer ≠ .error .outOfFuel := by
  unfold friendsAt
  split
  · simp
  · split <;> simp

theorem distanceTo_ne_outOfFuel (store : List Node) (query : List ℚ) (p : Nat) :
    distanceTo store query p ≠ .error .outOfFuel := by
  unfold distanceTo
  split
  · exact EuclideanDistance_ne_outOfFuel _ _
  · next e he =>
    intro hc
    simp only [Except.error.injEq] at hc
    subst hc
    exact deref_ne_outOfFuel _ _ he

theorem keyed_ne_outOfFuel (store : List Node) (query : List ℚ) (ps : List Nat) :
    keyed store query ps ≠ .error .outOfFuel := by
  induction ps with
  | nil => simp [keyed]
  | cons p ps ih =>
    unfold keyed
    split
    · next e he =>
      intro hc
      simp only [Except.error.injEq] at hc
      subst hc
      exact distanceTo_ne_outOfFuel _ _ _ he
    · split
      · next e he =>
        intro hc
        simp only [Except.error.injEq] at hc
        subst hc
        exact ih he
      · simp

theorem sortByDistance_ne_outOfFuel (store : List Node) (query : List ℚ) (ps : List Nat) :
    sortByDistance store query ps ≠ .error .outOfFuel := by
  unfold sortByDistance
  split
  · simp
  · split
    · next e he =>
      intro hc
      simp only [Except.error.injEq] at hc
      subst hc
      exact keyed_ne_outOfFuel _ _ _ he
    · simp

theorem visitFriend_ne_outOfFuel (store : List Node) (query : List ℚ) (ef : Int)
    (st : SearchState) (f : Nat) : visitFriend store query ef st f ≠ .error .outOfFuel := by
  unfold visitFriend
  split
  · next e he =>
    intro hc
    simp only [Except.error.injEq] at hc
    subst hc
    exact deref_ne_outOfFuel _ _ he
  · split
    · simp
    · split
      · simp
      · split
        · simp
        · split
          · next e he =>
            intro hc
            simp only [Except.error.injEq] at hc
            subst hc
            exact EuclideanDistance_ne_outOfFuel _ _ he
          · split
            · next e he =>
              intro hc
              simp only [Except.error.injEq] at hc
              subst hc
              exact distanceTo_ne_outOfFuel _ _ _ he
            · split
              · split
                · next e he =>
                  intro hc
                  simp only [Except.error.injEq] at hc
                  subst hc
                  exact sortByDistance_ne_outOfFuel _ _ _ he
                · simp
              · simp

theorem visitFriends_ne_outOfFuel (store : List Node) (query : List ℚ) (ef : Int)
    (fs : List Nat) (st : SearchState) :
    visitFriends store query ef fs st ≠ .error .outOfFuel := by
  induction fs generalizing st with
  | nil => simp [visitFriends]
  | cons f fs ih =>
    unfold visitFriends
    split
    · next e he =>
      intro hc
      simp only [Except.error.injEq] at hc
      subst hc
      exact visitFriend_ne_outOfFuel _ _ _ _ _ he
    · exact ih _

/-- Visiting friends never raises the number of pending candidates plus
unvisited IDs. -/
theorem visitFriends_measure {store : List Node} {query : List ℚ} {ef : Int}
    (fs : List Nat) {st st' : SearchState}
    (h : visitFriends store query ef fs st = .ok st') :
    st'.candidates.length + unvisited store st'.visited
      ≤ st.candidates.length + unvisited store st.visited := by
  refine visitFriends_rule
    (fun s => s.candidates.length + unvisited store s.visited
      ≤ st.candidates.length + unvisited store st.visited) fs ?_ (le_refl _) h
  intro s f s' _ hI hv
  beta_reduce at hI ⊢
  rcases visitFriend_cases hv with rfl | ⟨fn, hfn, hnv, hvis, hcase⟩
  · exact hI
  · have hu := unvisited_cons hfn hnv
    rw [← hvis] at hu
    rcases hcase with ⟨hc, -, -⟩ | ⟨hc, -, -, -⟩ | ⟨hc, -⟩
    · rw [hc, List.length_append, List.length_singleton]; omega
    · rw [hc, List.length_append, List.length_singleton]; omega
    · rw [hc]; omega

/-- The main loop of a layer search stops before its budget is used up,
as soon as the budget exceeds the pending candidates plus the unvisited
IDs. -/
theorem searchLoop_ne_outOfFuel {store : List Node} {query : List ℚ} {ef layer : Int}
    (fuel : Nat) (st : SearchState)
    (hfuel : st.candidates.length + unvisited store st.visited < fuel) :
    searchLoop store query ef layer fuel st ≠ .error .outOfFuel := by
  induction fuel generalizing st with
  | zero => omega
  | succ fuel ih =>
    obtain ⟨cands, v, r⟩ := st
    unfold searchLoop
    split
    · simp
    · next c rest hc =>
      simp only at hc
      subst hc
      split
      · next e he =>
        intro hc
        simp only [Except.error.injEq] at hc
        subst hc
        exact deref_ne_outOfFuel _ _ he
      · split
        · next e he =>
          intro hc
          simp only [Except.error.injEq] at hc
          subst hc
          exact friendsAt_ne_outOfFuel _ _ he
        · next fs hfs =>
          split
          · next e he =>
            intro hc
            simp only [Except.error.injEq] at hc
            subst hc
            exact visitFriends_ne_outOfFuel _ _ _ _ _ he
          · next st1 h1 =>
            have hm := visitFriends_measure fs h1
            simp only [List.length_cons] at hfuel hm
            exact ih st1 (by omega)

/-- A layer search never ends for lack of budget: every node enters the
frontier at most once. -/
theorem searchLayer_ne_outOfFuel (store : List Node) (e : Nat) (query : List ℚ)
    (ef layer : Int) : searchLayer store e query ef layer ≠ .error .outOfFuel := by
  unfold searchLayer
  split
  · next err he =>
    intro hc
    simp only [Except.error.injEq] at hc
    subst hc
    exact deref_ne_outOfFuel _ _ he
  · next en hen =>
    rw [deref_eq_ok] at hen
    split
    · simp
    · rw [sortByDistance_singleton]
      simp only
      split
      · next err he =>
        intro hc
        simp only [Except.error.injEq] at hc
        subst hc
        refine searchLoop_ne_outOfFuel _ _ ?_ he
        have h1 : unvisited store [en.ID] + 1 = unvisited store [] :=
          unvisited_cons hen (by simp)
        have h2 := unvisited_nil_le store
        simp only [List.length_singleton]
        omega
      · split <;> simp

theorem descend_ne_outOfFuel (store : List Node) (query : List ℚ) (n : Nat) (cur : Int)
    (e : Nat) : descend store query n cur e ≠ .error .outOfFuel := by
  induction n generalizing cur e with
  | zero => simp [descend]
  | succ n ih =>
    unfold descend
    split
    · next err he =>
      intro hc
      simp only [Except.error.injEq] at hc
      subst hc
      exact searchLayer_ne_outOfFuel _ _ _ _ _ he
    · simp
    · exact ih _ _

theorem farthestFriend_ne_outOfFuel (store : List Node) (origin : List ℚ) (fs : List Nat)
    (i : Nat) (maxDistance : ℚ) (maxIndex : Nat) :
    farthestFriend store origin fs i maxDistance maxIndex ≠ .error .outOfFuel := by
  induction fs generalizing i maxDistance maxIndex with
  | nil => simp [farthestFriend]
  | cons f fs ih =>
    unfold farthestFriend
    split
    · next err he =>
      intro hc
      simp only [Except.error.injEq] at hc
      subst hc
      exact deref_ne_outOfFuel _ _ he
    · split
      · next err he =>
        intro hc
        simp only [Except.error.injEq] at hc
        subst hc
        exact EuclideanDistance_ne_outOfFuel _ _ he
      · split
        · exact ih _ _ _
        · exact ih _ _ _

theorem connectOne_ne_outOfFuel (maxEdges : Int) (np : Nat) (level : Int)
    (store : List Node) (nb : Nat) :
    connectOne maxEdges np level store nb ≠ .error .outOfFuel := by
  unfold connectOne
  split
  · next err he =>
    intro hc
    simp only [Except.error.injEq] at hc
    subst hc
    exact deref_ne_outOfFuel _ _ he
  · split
    · next err he =>
      intro hc
      simp only [Except.error.injEq] at hc
      subst hc
      exact friendsAt_ne_outOfFuel _ _ he
    · simp only
      split
      · next err hlinked =>
        intro hc
        simp only [Except.error.injEq] at hc
        subst hc
        split at hlinked
        · simp at hlinked
        · split at hlinked
          · next err he =>
            simp only [Except.error.injEq] at hlinked
            subst hlinked
            exact farthestFriend_ne_outOfFuel _ _ _ _ _ _ he
          · split at hlinked
            · next err he =>
              simp only [Except.error.injEq] at hlinked
              subst hlinked
              exact deref_ne_outOfFuel _ _ he
            · split at hlinked
              · next err he =>
                simp only [Except.error.injEq] at hlinked
                subst hlinked
                exact EuclideanDistance_ne_outOfFuel _ _ he
              · split at hlinked
                · split at hlinked <;> simp at hlinked
                · simp at hlinked
      · split
        · next err he =>
          intro hc
          simp only [Except.error.injEq] at hc
          subst hc
          exact deref_ne_outOfFuel _ _ he
        · split
          · next err he =>
            intro hc
            simp only [Except.error.injEq] at hc
            subst hc
            exact friendsAt_ne_outOfFuel _ _ he
          · simp

theorem connectNewNode_ne_outOfFuel (maxEdges : Int) (np : Nat) (level : Int)
    (store : List Node) (neighbors : List Nat) :
    connectNewNode maxEdges np level store neighbors ≠ .error .outOfFuel := by
  induction neighbors generalizing store with
  | nil => simp [connectNewNode]
  | cons nb rest ih =>
    unfold connectNewNode
    split
    · next err he =>
      intro hc
      simp only [Except.error.injEq] at hc
      subst hc
      exact connectOne_ne_outOfFuel _ _ _ _ _ he
    · exact ih _

theorem connectLayers_ne_outOfFuel (maxEdges ef : Int) (query : List ℚ) (np ep : Nat)
    (n : Nat) (cur : Int) (store : List Node) :
    connectLayers maxEdges ef query np ep n cur store ≠ .error .outOfFuel := by
  induction n generalizing cur store with
  | zero => simp [connectLayers]
  | succ n ih =>
    unfold connectLayers
    split
    · next err he =>
      intro hc
      simp only [Except.error.injEq] at hc
      subst hc
      exact searchLayer_ne_outOfFuel _ _ _ _ _ he
    · split
      · next err he =>
        intro hc
        simp only [Except.error.injEq] at hc
        subst hc
        exact connectNewNode_ne_outOfFuel _ _ _ _ _ he
      · exact ih _ _

/-- `Insert` never ends for lack of loop budget: when it does not complete,
the Go call stops with a run-time error. -/
theorem Insert_ne_outOfFuel (h : HNSW) (vector : List ℚ) (level : Int) :
    Insert h vector level ≠ .error .outOfFuel := by
  unfold Insert
  simp only
  split
  · simp
  · split
    · next err he =>
      intro hc
      simp only [Except.error.injEq] at hc
      subst hc
      exact deref_ne_outOfFuel _ _ he
    · split
      · next err he =>
        intro hc
        simp only [Except.error.injEq] at hc
        subst hc
        exact descend_ne_outOfFuel _ _ _ _ _ he
      · split
        · next err he =>
          intro hc
          simp only [Except.error.injEq] at hc
          subst hc
          exact connectLayers_ne_outOfFuel _ _ _ _ _ _ _ _ he
        · simp

/-- `Search` never ends for lack of loop budget. -/
theorem Search_ne_outOfFuel (h : HNSW) (query : List ℚ) (k : Int) :
    Search h query k ≠ .error .outOfFuel := by
  unfold Search
  split
  · simp
  · simp only
    split
    · next err he =>
      intro hc
      simp only [Except.error.injEq] at hc
      subst hc
      exact descend_ne_outOfFuel _ _ _ _ _ he
    · exact searchLayer_ne_outOfFuel _ _ _ _ _

theorem testIndex_built : insertAll (NewHNSW 5 200) testVectors = .ok testIndex := by
  decide!

theorem testIndexGrown_built : insertAll testIndex [([4, 5], 0)] = .ok testIndexGrown := by
  decide!

theorem lineIndex_built : insertAll (NewHNSW 5 200) lineVectors = .ok lineIndex := by
  decide!

/-- Nodes of an index built from an empty one: node `i` carries ID `i`, the
vector of input `i`, and as many layers as its drawn level asks for. -/
theorem built_nodes {maxEdges ef : Int} {inputs : List (List ℚ × Int)} {h : HNSW}
    (hbuild : insertAll (NewHNSW maxEdges ef) inputs = .ok h) :
    h.Nodes.length = inputs.length ∧
    ∀ i (hi : i < inputs.length), ∃ n, h.Nodes[i]? = some n ∧ n.ID = i ∧
      n.Vector = (inputs[i]).1 ∧ n.Friends.length = ((inputs[i]).2 + 1).toNat := by
  obtain ⟨hlen, -, -, -, hnew⟩ := insertAll_nodes inputs hbuild
  simp only [NewHNSW, List.length_nil, Nat.zero_add] at hlen hnew
  refine ⟨hlen, fun i hi => ?_⟩
  obtain ⟨n, hn, hs⟩ := hnew i hi
  simp only [shape, Prod.mk.injEq] at hs
  exact ⟨n, hn, hs.1, hs.2.1, hs.2.2⟩

/-! ## Claims -/

/-- C1: with `NewHNSW(5, 200)` and seven points inserted at level 0, the
seventh node receives all six earlier nodes as friends on layer 0, one more
than `MaxEdges`; the lists of the earlier nodes stay at five. -/
theorem C1_new_node_exceeds_MaxEdges :
    (insertAll (NewHNSW 5 200) sevenOnALine).map
        (fun h => h.Nodes.map (fun n => n.Friends.map List.length))
      = .ok [[5], [5], [5], [5], [5], [5], [6]] := by
  decide!

/-- C2: on the data set of `TestSearchMultipleNearestNeighbors` (levels 0),
`Search([2, 2.5], 2)` returns `[1,2]` before `[2,3]`, although `[2,3]` is
strictly closer to the query (squared distances 5/4 and 1/4). -/
theorem C2_search_result_not_sorted :
    (insertAll (NewHNSW 5 200) testVectors).bind
        (fun h => (Search h [2, 2.5] 2).map (vectorsOf h.Nodes))
      = .ok [[1, 2], [2, 3]]
    ∧ EuclideanDistance [2, 2.5] [1, 2] = .ok (5 / 4)
    ∧ EuclideanDistance [2, 2.5] [2, 3] = .ok (1 / 4) := by
  decide!

/-- C3 (counterexample): with `NewHNSW(5, 200)`, six clustered points and one
far outlier, the outlier is linked from no node, and `Search([0,0], 7)`
returns 6 of the 7 nodes. -/
theorem C3_search_returns_fewer_than_min :
    (insertAll (NewHNSW 5 200) clusterAndOutlier).bind
        (fun h => (Search h [0, 0] 7).map (fun out => (out.length, h.Nodes.length)))
      = .ok (6, 7) := by
  decide!

/-- C3 (amended): on a non-empty index built by completed inserts of vectors
of one dimension `D` at levels `≥ 0`, for every query of dimension `D` and
every `k` with `1 ≤ k ≤ 2^45` (a capacity that `make` accepts), `Search(q, k)`
returns a result, of at least one and at most `min(k, number of nodes)`
nodes. -/
theorem C3_search_cardinality_bounds (maxEdges ef : Int) (inputs : List (List ℚ × Int))
    (h : HNSW) (D : Nat) (query : List ℚ) (k : Int)
    (hbuild : insertAll (NewHNSW maxEdges ef) inputs = .ok h) (hne : inputs ≠ [])
    (hdim : ∀ x ∈ inputs, x.1.length = D) (hlev : ∀ x ∈ inputs, 0 ≤ x.2)
    (hq : query.length = D) (hk : 1 ≤ k) (hcap : k ≤ maxSliceCap) :
    ∃ out, Search h query k = .ok out ∧ 1 ≤ out.length ∧
      (out.length : Int) ≤ min k (h.Nodes.length : Int) := by
  obtain ⟨hlen, hnodes⟩ := built_nodes hbuild
  have hwf : WellFormed h.Nodes := insertAll_wellFormed inputs wellFormed_nil hbuild
  have hpos : 0 < inputs.length := List.length_pos.2 hne
  obtain ⟨n0, hn0, -, -, hd0⟩ := hnodes 0 hpos
  have hdepth : 0 < n0.Friends.length := by
    have := hlev _ (List.getElem_mem hpos)
    omega
  have hdim' : ∀ n ∈ h.Nodes, query.length ≤ n.Vector.length := by
    intro n hn
    obtain ⟨i, hi⟩ := List.mem_iff_getElem?.1 hn
    have hlt : i < inputs.length := hlen ▸ (List.getElem?_eq_some_iff.1 hi).1
    obtain ⟨n', hn', -, hv, -⟩ := hnodes i hlt
    rw [hi] at hn'
    cases hn'
    rw [hv, hdim _ (List.getElem_mem hlt), hq]
  obtain ⟨out, hout, hnil, hle, hnd, hlt⟩ := Search_total hwf hn0 hdepth hdim' hk hcap
  refine ⟨out, hout, List.length_pos.2 hnil, le_min hle ?_⟩
  exact_mod_cast length_le_of_nodup_of_lt hnd hlt

/-- C3 (witness): the bounds on the test data set, query `[2, 2.5]`, `k = 2`. -/
theorem C3_search_cardinality_bounds_witness :
    insertAll (NewHNSW 5 200) testVectors = .ok testIndex ∧
    ∃ out, Search testIndex [2, 2.5] 2 = .ok out ∧ 1 ≤ out.length ∧
      (out.length : Int) ≤ min 2 (testIndex.Nodes.length : Int) :=
  ⟨testIndex_built,
    C3_search_cardinality_bounds 5 200 testVectors testIndex 2 [2, 2.5] 2 testIndex_built
      (by simp [testVectors]) (by simp [testVectors]) (by simp [testVectors])
      (by simp) (by decide) (by decide)⟩

/-- C4: on the index holding one node of level 0, `Insert` with drawn level 1
stops with an index-out-of-range error: `searchLayer` reads
`entryPoint.Friends[1]`. -/
theorem C4_insert_above_entry_top_layer_faults :
    insertAll (NewHNSW 5 200) [([1, 2], 0)]
      = .ok { Nodes := [{ ID := 0, Vector := [1, 2], Friends := [[]] }], MaxEdges := 5, Ef := 200 }
    ∧ insertAll (NewHNSW 5 200) [([1, 2], 0), ([3, 4], 1)] = .error .indexOutOfRange := by
  decide!

/-- C5: after inserting `v_0 .. v_{n-1}` into a new index the index holds
exactly `n` nodes, node `i` has ID `i` and vector `v_i`, and after any further
completed inserts position `i` still holds a node with ID `i` and vector
`v_i`. -/
theorem C5_identity_preservation (maxEdges ef : Int) (inputs more : List (List ℚ × Int))
    (h h' : HNSW) (hbuild : insertAll (NewHNSW maxEdges ef) inputs = .ok h)
    (hmore : insertAll h more = .ok h') :
    h.Nodes.length = inputs.length ∧
    ∀ i (hi : i < inputs.length), ∃ n n', h.Nodes[i]? = some n ∧ n.ID = i ∧
      n.Vector = (inputs[i]).1 ∧ h'.Nodes[i]? = some n' ∧ n'.ID = i ∧
      n'.Vector = (inputs[i]).1 := by
  obtain ⟨hlen, hnodes⟩ := built_nodes hbuild
  obtain ⟨-, -, -, hkept, -⟩ := insertAll_nodes more hmore
  refine ⟨hlen, fun i hi => ?_⟩
  obtain ⟨n, hn, hid, hv, -⟩ := hnodes i hi
  obtain ⟨n', hn', hs⟩ := hkept i n hn
  simp only [shape, Prod.mk.injEq] at hs
  exact ⟨n, n', hn, hid, hv, hn', hs.1.trans hid, hs.2.1.trans hv⟩

/-- C5 (witness): the three test vectors, followed by one more insert. -/
theorem C5_identity_preservation_witness :
    insertAll (NewHNSW 5 200) testVectors = .ok testIndex ∧
    insertAll testIndex [([4, 5], 0)] = .ok testIndexGrown ∧
    testIndex.Nodes.length = testVectors.length ∧
    ∀ i (hi : i < testVectors.length), ∃ n n', testIndex.Nodes[i]? = some n ∧ n.ID = i ∧
      n.Vector = (testVectors[i]).1 ∧ testIndexGrown.Nodes[i]? = some n' ∧ n'.ID = i ∧
      n'.Vector = (testVectors[i]).1 :=
  ⟨testIndex_built, testIndexGrown_built,
    C5_identity_preservation 5 200 testVectors [([4, 5], 0)] testIndex testIndexGrown
      testIndex_built testIndexGrown_built⟩

/-- C6 (counterexample): `insert([1,2])` followed by `insert([1,2,3])`, both
at level 0, completes and yields an index of two nodes. -/
theorem C6_mismatched_insert_completes :
    insertAll (NewHNSW 5 200) [([1, 2], 0), ([1, 2, 3], 0)]
      = .ok { Nodes := [{ ID := 0, Vector := [1, 2], Friends := [[1]] },
                        { ID := 1, Vector := [1, 2, 3], Friends := [[0]] }],
              MaxEdges := 5, Ef := 200 } := by
  decide!

/-- C6 (amended): `Insert` never compares the length of the vector with that
of the stored vectors and has no error result.  Whenever an `Insert` returns,
the vector has been appended as a new node, whatever its length.  With
`MaxEdges ≥ 2` (so that level 0 can be drawn) and `1 ≤ Ef ≤ 2^45`, after a
first vector has been inserted at level 0, `Insert` of any second vector at
level 0, of the same length or not, returns, and the two nodes are linked.
Where a distance to a shorter stored vector is computed, `Insert` stops with
an index-out-of-range panic instead: `NewHNSW(5, 1)`, `[1,2]`, `[2,3]`, then
`[1,2,3]`, all at level 0. -/
theorem C6_insert_accepts_any_length (maxEdges ef : Int) (v1 v2 : List ℚ)
    (hM : 2 ≤ maxEdges) (hef : 1 ≤ ef) (hcap : ef ≤ maxSliceCap) :
    (∀ (h h' : HNSW) (vector : List ℚ) (level : Int), Insert h vector level = .ok h' →
      h'.Nodes.length = h.Nodes.length + 1 ∧
      ∃ n, h'.Nodes[h.Nodes.length]? = some n ∧ n.Vector = vector) ∧
    levelDrawable maxEdges 0 ∧
    insertAll (NewHNSW maxEdges ef) [(v1, 0), (v2, 0)]
      = .ok { Nodes := [{ ID := 0, Vector := v1, Friends := [[1]] },
                        { ID := 1, Vector := v2, Friends := [[0]] }],
              MaxEdges := maxEdges, Ef := ef } ∧
    insertAll (NewHNSW 5 1) [([1, 2], 0), ([2, 3], 0)]
      = .ok { Nodes := [{ ID := 0, Vector := [1, 2], Friends := [[1]] },
                        { ID := 1, Vector := [2, 3], Friends := [[0]] }],
              MaxEdges := 5, Ef := 1 } ∧
    insertAll (NewHNSW 5 1) [([1, 2], 0), ([2, 3], 0), ([1, 2, 3], 0)]
      = .error .indexOutOfRange := by
  refine ⟨?_, Or.inl ⟨hM, le_refl 0⟩, ?_, by decide!, by decide!⟩
  · intro h h' vector level hins
    refine ⟨Insert_length hins, ?_⟩
    obtain ⟨n, hn, hs⟩ := Insert_node_new hins
    simp only [shape, Prod.mk.injEq] at hs
    exact ⟨n, hn, hs.2.1⟩
  · have h1 : ¬ (ef < 0 ∨ maxSliceCap < ef) := by omega
    have h2 : (0 : Int) < maxEdges := by omega
    have h3 : ¬ (1 : Int) > ef := by omega
    have h3' : ¬ ef < 1 := by omega
    simp [insertAll, Insert, NewHNSW, freshNode, deref, descend, connectLayers, searchLayer,
      sortByDistance, searchLoop, friendsAt, visitFriends, connectNewNode, connectOne,
      setFriends, h1, h2, h3, h3']

/-- C6 (witness): a shorter second vector, `[1,2]` then `[7]`, with
`NewHNSW(2, 1)`. -/
theorem C6_insert_accepts_any_length_witness :
    (2 : Int) ≤ 2 ∧ (1 : Int) ≤ 1 ∧ (1 : Int) ≤ maxSliceCap ∧
    (∀ (h h' : HNSW) (vector : List ℚ) (level : Int), Insert h vector level = .ok h' →
      h'.Nodes.length = h.Nodes.length + 1 ∧
      ∃ n, h'.Nodes[h.Nodes.length]? = some n ∧ n.Vector = vector) ∧
    levelDrawable 2 0 ∧
    insertAll (NewHNSW 2 1) [([1, 2], 0), ([7], 0)]
      = .ok { Nodes := [{ ID := 0, Vector := [1, 2], Friends := [[1]] },
                        { ID := 1, Vector := [7], Friends := [[0]] }],
              MaxEdges := 2, Ef := 1 } ∧
    insertAll (NewHNSW 5 1) [([1, 2], 0), ([2, 3], 0)]
      = .ok { Nodes := [{ ID := 0, Vector := [1, 2], Friends := [[1]] },
                        { ID := 1, Vector := [2, 3], Friends := [[0]] }],
              MaxEdges := 5, Ef := 1 } ∧
    insertAll (NewHNSW 5 1) [([1, 2], 0), ([2, 3], 0), ([1, 2, 3], 0)]
      = .error .indexOutOfRange :=
  ⟨by decide, by decide, by decide,
    C6_insert_accepts_any_length 2 1 [1, 2] [7] (by decide) (by decide) (by decide)⟩

/-- C7: `Search` on a freshly constructed index stops with an
index-out-of-range error (`h.Nodes[0]`), for every query and every `k`. -/
theorem C7_search_on_empty_index_faults (maxEdges ef : Int) (query : List ℚ) (k : Int) :
    Search (NewHNSW maxEdges ef) query k = .error .indexOutOfRange := by
  simp [Search, NewHNSW]

/-- C8: in an index built by completed inserts no node is listed in any of
its own adjacency lists. -/
theorem C8_no_self_loops (maxEdges ef : Int) (inputs : List (List ℚ × Int)) (h : HNSW)
    (hbuild : insertAll (NewHNSW maxEdges ef) inputs = .ok h) :
    ∀ (p : Nat) (n : Node), h.Nodes[p]? = some n → ∀ fs ∈ n.Friends, p ∉ fs := by
  have hwf : WellFormed h.Nodes := insertAll_wellFormed inputs wellFormed_nil hbuild
  intro p n hn fs hfs hp
  obtain ⟨l, hl⟩ := List.mem_iff_getElem?.1 hfs
  exact (hwf p l fs p (friendList_eq_some.2 ⟨n, hn, hl⟩) hp).1 rfl

/-- C8 (witness): the index of the test data set. -/
theorem C8_no_self_loops_witness :
    insertAll (NewHNSW 5 200) testVectors = .ok testIndex ∧
    ∀ (p : Nat) (n : Node), testIndex.Nodes[p]? = some n → ∀ fs ∈ n.Friends, p ∉ fs :=
  ⟨testIndex_built, C8_no_self_loops 5 200 testVectors testIndex testIndex_built⟩

/-- C9: in an index built by completed inserts every entry of every adjacency
list is the position of a node of `Nodes`, and that node carries the entry as
its ID. -/
theorem C9_ownership_closure (maxEdges ef : Int) (inputs : List (List ℚ × Int)) (h : HNSW)
    (hbuild : insertAll (NewHNSW maxEdges ef) inputs = .ok h) :
    ∀ n ∈ h.Nodes, ∀ fs ∈ n.Friends, ∀ f ∈ fs,
      ∃ m, h.Nodes[f]? = some m ∧ m ∈ h.Nodes ∧ m.ID = f := by
  have hwf : WellFormed h.Nodes := insertAll_wellFormed inputs wellFormed_nil hbuild
  obtain ⟨hlen, hnodes⟩ := built_nodes hbuild
  intro n hn fs hfs f hf
  obtain ⟨p, l, -, hfl⟩ := friendList_of_mem hn hfs
  obtain ⟨gs, hgs⟩ := Option.isSome_iff_exists.1 (hwf p l fs f hfl hf).2
  have hlt : f < inputs.length := hlen ▸ lt_length_of_friendList hgs
  obtain ⟨m, hm, hid, -, -⟩ := hnodes f hlt
  exact ⟨m, hm, List.getElem?_mem hm, hid⟩

/-- C9 (witness): the index of the test data set. -/
theorem C9_ownership_closure_witness :
    insertAll (NewHNSW 5 200) testVectors = .ok testIndex ∧
    ∀ n ∈ testIndex.Nodes, ∀ fs ∈ n.Friends, ∀ f ∈ fs,
      ∃ m, testIndex.Nodes[f]? = some m ∧ m ∈ testIndex.Nodes ∧ m.ID = f :=
  ⟨testIndex_built, C9_ownership_closure 5 200 testVectors testIndex testIndex_built⟩

/-- C10: in an index built from `NewHNSW(M, ef)` by at most `M + 1` completed
inserts, for every node, every layer of the node and every friend listed
there, the friend has that layer and lists the node on it. -/
theorem C10_mutual_adjacency_small_index (maxEdges ef : Int)
    (inputs : List (List ℚ × Int)) (h : HNSW)
    (hbuild : insertAll (NewHNSW maxEdges ef) inputs = .ok h)
    (hsmall : (inputs.length : Int) ≤ maxEdges + 1) :
    ∀ (p : Nat) (n : Node) (l : Nat) (fs : List Nat) (f : Nat),
      h.Nodes[p]? = some n → n.Friends[l]? = some fs → f ∈ fs →
      ∃ m gs, h.Nodes[f]? = some m ∧ m.Friends[l]? = some gs ∧ p ∈ gs := by
  have hmut : Mutual h.Nodes :=
    insertAll_small inputs (by simpa [NewHNSW] using hsmall) wellFormed_nil
      (fun p l fs f hfs => by simp [friendList, NewHNSW] at hfs)
      (fun p l fs hfs => by simp [friendList, NewHNSW] at hfs) hbuild
  intro p n l fs f hn hfs hf
  obtain ⟨gs, hgs, hp⟩ := hmut p l fs f (friendList_eq_some.2 ⟨n, hn, hfs⟩) hf
  obtain ⟨m, hm, hl⟩ := friendList_eq_some.1 hgs
  exact ⟨m, gs, hm, hl, hp⟩

/-- C10 (witness): `M = 5` and the five points of `TestGraphConnections`, on
two layers. -/
theorem C10_mutual_adjacency_small_index_witness :
    insertAll (NewHNSW 5 200) lineVectors = .ok lineIndex ∧
    (lineVectors.length : Int) ≤ 5 + 1 ∧
    ∀ (p : Nat) (n : Node) (l : Nat) (fs : List Nat) (f : Nat),
      lineIndex.Nodes[p]? = some n → n.Friends[l]? = some fs → f ∈ fs →
      ∃ m gs, lineIndex.Nodes[f]? = some m ∧ m.Friends[l]? = some gs ∧ p ∈ gs :=
  ⟨lineIndex_built, by decide,
    C10_mutual_adjacency_small_index 5 200 lineVectors lineIndex lineIndex_built (by decide)⟩

/-! ## The instrumented search -/

theorem searchLoop_eq_trace (store : List Node) (query : List ℚ) (ef layer : Int)
    (fuel : Nat) (st : SearchState) (popped : List Nat) :
    searchLoop store query ef layer fuel st
      = (searchLoopTrace store query ef layer fuel st popped).map (fun t => t.1.results) := by
  induction fuel generalizing st popped with
  | zero => simp [searchLoop, searchLoopTrace, Except.map]
  | succ fuel ih =>
    obtain ⟨cands, v, r⟩ := st
    cases cands with
    | nil => simp [searchLoop, searchLoopTrace, Except.map]
    | cons c rest =>
      simp only [searchLoop, searchLoopTrace]
      cases deref store c with
      | error err => simp [Except.map]
      | ok cn =>
        simp only
        cases friendsAt cn layer with
        | error err => simp [Except.map]
        | ok fs =>
          simp only
          cases visitFriends store query ef fs ⟨rest, v, r⟩ with
          | error err => simp [Except.map]
          | ok st1 => exact ih _ _

/-- The instrumented run computes the result of `searchLayer`. -/
theorem searchLayer_eq_trace (store : List Node) (e : Nat) (query : List ℚ) (ef layer : Int) :
    searchLayer store e query ef layer
      = (searchLayerTrace store e query ef layer).map (fun t => truncate ef t.1.results) := by
  simp only [searchLayer, searchLayerTrace]
  cases deref store e with
  | error err => simp [Except.map]
  | ok en =>
    simp only
    by_cases hef : ef < 0 ∨ maxSliceCap < ef
    · simp [hef, Except.map]
    · simp only [hef, if_false, sortByDistance_singleton]
      rw [searchLoop_eq_trace store query ef layer _ _ []]
      cases searchLoopTrace store query ef layer (store.length + 1)
          { candidates := [e], visited := [en.ID], results := [e] } [] with
      | error err => simp [Except.map]
      | ok t =>
        simp only [Except.map, truncate]
        split <;> rfl

/-- Everything one visit of a friend can do, with the distances compared. -/
theorem visitFriend_full {store : List Node} {query : List ℚ} {ef : Int}
    {st st' : SearchState} {f : Nat} (h : visitFriend store query ef st f = .ok st') :
    ∃ fn, store[f]? = some fn ∧
      ((fn.ID ∈ st.visited ∧ st' = st) ∨
       (fn.ID ∉ st.visited ∧ (st.results.length : Int) < ef ∧
          st' = { candidates := st.candidates ++ [f], visited := fn.ID :: st.visited,
                  results := st.results ++ [f] }) ∨
       (fn.ID ∉ st.visited ∧ ¬ (st.results.length : Int) < ef ∧
          ∃ last df dl, st.results.getLast? = some last ∧
            EuclideanDistance query fn.Vector = .ok df ∧ distanceTo store query last = .ok dl ∧
            ((df < dl ∧ ∃ sorted,
                sortByDistance store query (st.results.set (st.results.length - 1) f)
                  = .ok sorted ∧
                st' = { candidates := st.candidates ++ [f], visited := fn.ID :: st.visited,
                        results := sorted }) ∨
             (¬ df < dl ∧ st' = { st with visited := fn.ID :: st.visited })))) := by
  unfold visitFriend at h
  split at h
  · simp at h
  · next fn hfn =>
    rw [deref_eq_ok] at hfn
    refine ⟨fn, hfn, ?_⟩
    split at h
    · next hv => left; simp at h; exact ⟨hv, h.symm⟩
    · next hnv =>
      right
      split at h
      · next hlt =>
        left
        simp only [Except.ok.injEq] at h
        exact ⟨hnv, hlt, h.symm⟩
      · next hge =>
        right
        refine ⟨hnv, hge, ?_⟩
        split at h
        · simp at h
        · next last hlast =>
          split at h
          · simp at h
          · next df hdf =>
            split at h
            · simp at h
            · next dl hdl =>
              refine ⟨last, df, dl, hlast, hdf, hdl, ?_⟩
              split at h
              · next hlt =>
                split at h
                · simp at h
                · next sorted hs =>
                  simp only [Except.ok.injEq] at h
                  exact Or.inl ⟨hlt, sorted, hs, h.symm⟩
              · next hnlt =>
                simp only [Except.ok.injEq] at h
                exact Or.inr ⟨hnlt, h.symm⟩

/-- A visit marks the friend's ID and forgets no ID. -/
theorem visitFriend_visited {store : List Node} {query : List ℚ} {ef : Int}
    {st st' : SearchState} {f : Nat} (h : visitFriend store query ef st f = .ok st') :
    (∃ fn, store[f]? = some fn ∧ fn.ID ∈ st'.visited) ∧ ∀ x ∈ st.visited, x ∈ st'.visited := by
  obtain ⟨fn, hfn, hcase⟩ := visitFriend_full h
  rcases hcase with ⟨hv, rfl⟩ | ⟨-, -, rfl⟩ | ⟨-, -, last, df, dl, -, -, -, hcase⟩
  · exact ⟨⟨fn, hfn, hv⟩, fun x hx => hx⟩
  · exact ⟨⟨fn, hfn, List.mem_cons_self _ _⟩, fun x hx => List.mem_cons_of_mem _ hx⟩
  · rcases hcase with ⟨-, sorted, -, rfl⟩ | ⟨-, rfl⟩
    · exact ⟨⟨fn, hfn, List.mem_cons_self _ _⟩, fun x hx => List.mem_cons_of_mem _ hx⟩
    · exact ⟨⟨fn, hfn, List.mem_cons_self _ _⟩, fun x hx => List.mem_cons_of_mem _ hx⟩

theorem visitFriends_visited {store : List Node} {query : List ℚ} {ef : Int}
    (fs : List Nat) {st st' : SearchState}
    (h : visitFriends store query ef fs st = .ok st') :
    (∀ f ∈ fs, ∃ fn, store[f]? = some fn ∧ fn.ID ∈ st'.visited) ∧
      ∀ x ∈ st.visited, x ∈ st'.visited := by
  induction fs generalizing st with
  | nil => simp [visitFriends] at h; subst h; exact ⟨by simp, fun x hx => hx⟩
  | cons f fs ih =>
    unfold visitFriends at h
    split at h
    · simp at h
    · next st1 h1 =>
      obtain ⟨⟨fn, hfn, hvis⟩, hmono1⟩ := visitFriend_visited h1
      obtain ⟨hall, hmono⟩ := ih h
      refine ⟨?_, fun x hx => hmono x (hmono1 x hx)⟩
      intro g hg
      rcases List.mem_cons.1 hg with rfl | hg
      · exact ⟨fn, hfn, hmono _ hvis⟩
      · exact hall g hg

/-- Invariant rule for the instrumented loop.  `J c` holds while the friends
of the popped candidate `c` are visited; when all of them carry a visited ID
the invariant `I` is restored, with `c` among the pops. -/
theorem searchLoopTrace_rule {store : List Node} {query : List ℚ} {ef layer : Int}
    (I : SearchState → List Nat → Prop) (J : Nat → SearchState → List Nat → Prop)
    (hpop : ∀ c cs v r popped, I ⟨c :: cs, v, r⟩ popped → J c ⟨cs, v, r⟩ popped)
    (hstep : ∀ c cn fs f st st' popped, store[c]? = some cn → friendsAt cn layer = .ok fs →
      f ∈ fs → J c st popped → visitFriend store query ef st f = .ok st' → J c st' popped)
    (hdone : ∀ c st popped, J c st popped → Expanded store layer st.visited c →
      I st (popped ++ [c]))
    (fuel : Nat) (st : SearchState) (popped : List Nat) {st' : SearchState}
    {popped' : List Nat} (hI : I st popped)
    (h : searchLoopTrace store query ef layer fuel st popped = .ok (st', popped')) :
    I st' popped' ∧ st'.candidates = [] := by
  induction fuel generalizing st popped with
  | zero => simp [searchLoopTrace] at h
  | succ fuel ih =>
    obtain ⟨cands, v, r⟩ := st
    unfold searchLoopTrace at h
    split at h
    · next hc =>
      simp only [Except.ok.injEq, Prod.mk.injEq] at h
      simp only at hc
      obtain ⟨rfl, rfl⟩ := h
      exact ⟨hI, hc⟩
    · next c rest hc =>
      simp only at hc
      subst hc
      have hJ := hpop _ _ _ _ _ hI
      split at h
      · simp at h
      · next cn hcn =>
        rw [deref_eq_ok] at hcn
        split at h
        · simp at h
        · next fs hfs =>
          split at h
          · simp at h
          · next st1 h1 =>
            have hJ1 : J c st1 popped :=
              visitFriends_rule (fun s => J c s popped) fs
                (fun s f s' hf hs hv => hstep c cn fs f s s' popped hcn hfs hf hs hv) hJ h1
            have hexp : Expanded store layer st1.visited c := by
              intro n gs hn hgs
              rw [hcn] at hn
              cases hn
              rw [hfs] at hgs
              cases hgs
              exact (visitFriends_visited fs h1).1
            exact ih st1 _ (hdone c st1 popped hJ1 hexp) h

theorem expanded_mono {store : List Node} {layer : Int} {v v' : List Nat} {p : Nat}
    (h : Expanded store layer v p) (hsub : ∀ x ∈ v, x ∈ v') : Expanded store layer v' p := by
  intro n fs hn hfs f hf
  obtain ⟨fn, hfn, hmem⟩ := h n fs hn hfs f hf
  exact ⟨fn, hfn, hsub _ hmem⟩

/-- Unfolding of a completed instrumented run. -/
theorem searchLayerTrace_eq_ok {store : List Node} {e : Nat} {query : List ℚ}
    {ef layer : Int} {t : SearchState × List Nat}
    (h : searchLayerTrace store e query ef layer = .ok t) :
    ∃ en, store[e]? = some en ∧ (0 ≤ ef ∧ ef ≤ maxSliceCap) ∧
      searchLoopTrace store query ef layer (store.length + 1) ⟨[e], [en.ID], [e]⟩ [] = .ok t := by
  unfold searchLayerTrace at h
  split at h
  · simp at h
  · next en hen =>
    rw [deref_eq_ok] at hen
    split at h
    · simp at h
    · next hef =>
      rw [sortByDistance_singleton] at h
      exact ⟨en, hen, by omega, h⟩

/-! ## Pops of a layer search -/

theorem traceInv_step {store : List Node} {query : List ℚ} {ef layer : Int} {e c : Nat}
    {st st' : SearchState} {popped : List Nat} {f : Nat}
    (hJ : TraceInv store layer e (c :: st.candidates) st popped)
    (hv : visitFriend store query ef st f = .ok st') :
    TraceInv store layer e (c :: st'.candidates) st' popped := by
  obtain ⟨hnd, hids, hres, hexp, he⟩ := hJ
  obtain ⟨fn, hfn, hcase⟩ := visitFriend_full hv
  have hmono : ∀ x ∈ st.visited, x ∈ fn.ID :: st.visited :=
    fun x hx => List.mem_cons_of_mem _ hx
  -- what a push of `f` does to the invariant, whatever the new results are
  have push : ∀ results' : List Nat, fn.ID ∉ st.visited →
      (∀ p ∈ results', p ∈ st.results ∨ p = f) →
      TraceInv store layer e (c :: (st.candidates ++ [f]))
        ⟨st.candidates ++ [f], fn.ID :: st.visited, results'⟩ popped := by
    intro results' hnv hsub
    have hfresh : f ∉ popped ++ c :: st.candidates := by
      intro hmem
      obtain ⟨n, hn, hnv'⟩ := hids f hmem
      rw [hfn] at hn
      cases hn
      exact hnv hnv'
    have heq : popped ++ c :: (st.candidates ++ [f]) = (popped ++ c :: st.candidates) ++ [f] := by
      simp
    refine ⟨?_, ?_, ?_, ?_, ?_⟩
    · rw [heq]
      refine List.Nodup.append hnd (List.nodup_singleton f) ?_
      simp only [List.Disjoint, List.mem_singleton]
      intro a ha hfa
      exact hfresh (hfa ▸ ha)
    · rw [heq]
      intro p hp
      rcases List.mem_append.1 hp with hp | hp
      · obtain ⟨n, hn, hnv'⟩ := hids p hp
        exact ⟨n, hn, hmono _ hnv'⟩
      · simp only [List.mem_singleton] at hp
        subst hp
        exact ⟨fn, hfn, List.mem_cons_self _ _⟩
    · rw [heq]
      intro p hp
      rcases hsub p hp with hp | hp
      · exact List.mem_append_left _ (hres p hp)
      · subst hp; simp
    · exact fun p hp => expanded_mono (hexp p hp) hmono
    · rw [heq]; exact List.mem_append_left _ he
  rcases hcase with ⟨-, rfl⟩ | ⟨hnv, -, rfl⟩ | ⟨hnv, -, last, df, dl, -, -, -, hcase⟩
  · exact ⟨hnd, hids, hres, hexp, he⟩
  · exact push _ hnv (fun p hp => by simpa using hp)
  · rcases hcase with ⟨-, sorted, hs, rfl⟩ | ⟨-, rfl⟩
    · refine push _ hnv (fun p hp => ?_)
      exact List.mem_or_eq_of_mem_set ((sortByDistance_perm hs).mem_iff.1 hp)
    · refine ⟨hnd, ?_, hres, fun p hp => expanded_mono (hexp p hp) hmono, he⟩
      intro p hp
      obtain ⟨n, hn, hnv'⟩ := hids p hp
      exact ⟨n, hn, hmono _ hnv'⟩

/-- Facts about a completed instrumented run: no node is popped twice, every
pop is a position of the store, every result and the entry point were popped,
all friends of every popped node carry a visited ID, and so does the node. -/
theorem searchLayerTrace_facts {store : List Node} {e : Nat} {query : List ℚ}
    {ef layer : Int} {st : SearchState} {popped : List Nat}
    (h : searchLayerTrace store e query ef layer = .ok (st, popped)) :
    st.candidates = [] ∧ popped.Nodup ∧ (∀ p ∈ popped, p < store.length) ∧
      (∀ p ∈ st.results, p ∈ popped) ∧ e ∈ popped ∧
      (∀ p ∈ popped, Expanded store layer st.visited p) ∧
      (∀ p ∈ popped, ∃ n, store[p]? = some n ∧ n.ID ∈ st.visited) := by
  obtain ⟨en, hen, -, hloop⟩ := searchLayerTrace_eq_ok h
  have key := searchLoopTrace_rule
    (fun s pp => TraceInv store layer e s.candidates s pp)
    (fun c s pp => TraceInv store layer e (c :: s.candidates) s pp)
    (fun c cs v r pp hI => hI)
    (fun c cn fs f s s' pp _ _ _ hJ hv => traceInv_step hJ hv)
    (fun c s pp hJ hexp => by
      obtain ⟨hnd, hids, hres, hexps, he⟩ := hJ
      have heq : (pp ++ [c]) ++ s.candidates = pp ++ c :: s.candidates := by simp
      refine ⟨by rw [heq]; exact hnd, by rw [heq]; exact hids, by rw [heq]; exact hres, ?_,
        by rw [heq]; exact he⟩
      intro p hp
      rcases List.mem_append.1 hp with hp | hp
      · exact hexps p hp
      · simp only [List.mem_singleton] at hp
        subst hp
        exact hexp)
    (store.length + 1) ⟨[e], [en.ID], [e]⟩ []
    ⟨by simp, fun p hp => by simp at hp; subst hp; exact ⟨en, hen, by simp⟩,
      fun p hp => by simpa using hp, fun p hp => by simp at hp, by simp⟩ hloop
  obtain ⟨⟨hnd, hids, hres, hexp, he⟩, hc⟩ := key
  simp only [hc, List.append_nil] at hnd hids hres he
  refine ⟨hc, hnd, ?_, hres, he, hexp, hids⟩
  intro p hp
  obtain ⟨n, hn, -⟩ := hids p hp
  exact (List.getElem?_eq_some_iff.1 hn).1

/-! ## Reachable nodes -/

theorem explorable_of_reach {store : List Node} {e : Nat} {query : List ℚ} {layer : Int}
    (hreach : ∀ p, Reach store layer e p → ∃ n fs d, store[p]? = some n ∧
      friendsAt n layer = .ok fs ∧ EuclideanDistance query n.Vector = .ok d) :
    Explorable store query layer (Reach store layer e) := by
  intro p hp
  obtain ⟨n, fs, d, hn, hfs, hd⟩ := hreach p hp
  exact ⟨n, fs, d, hn, hfs, fun f hf => Reach.edge hp hn hfs hf, hd⟩

theorem searchLayer_reach {store : List Node} {e : Nat} {query : List ℚ} {ef layer : Int}
    {out : List Nat} (h : searchLayer store e query ef layer = .ok out) :
    ∀ p ∈ out, Reach store layer e p :=
  searchLayer_mem (Reach store layer e) Reach.entry
    (fun _ _ _ _ hc hcn hfs hf => Reach.edge hc hcn hfs hf) h

/-- An entry point without neighbours on the layer is the whole result. -/
theorem searchLayer_no_friends {store : List Node} {e : Nat} (query : List ℚ)
    {ef layer : Int} {en : Node} (hen : store[e]? = some en)
    (hfs : friendsAt en layer = .ok []) (hef : 1 ≤ ef) (hcap : ef ≤ maxSliceCap) :
    searchLayer store e query ef layer = .ok [e] := by
  have hlt : e < store.length := (List.getElem?_eq_some_iff.1 hen).1
  obtain ⟨k, hk⟩ : ∃ k, store.length = k + 1 := ⟨store.length - 1, by omega⟩
  have h1 : ¬ (ef < 0 ∨ maxSliceCap < ef) := by omega
  have h2 : ¬ (1 : Int) > ef := by omega
  have h2' : ¬ ef < 1 := by omega
  simp [searchLayer, deref, hen, h1, sortByDistance_singleton, hk, searchLoop, hfs,
    visitFriends, h2, h2']

/-! ## The greedy walk: a beam of one -/

theorem distanceTo_eq {store : List Node} {query : List ℚ} {p : Nat} {n : Node}
    (hn : store[p]? = some n) : distanceTo store query p = EuclideanDistance query n.Vector := by
  simp [distanceTo, deref, hn]

theorem greedyInv_step {store : List Node} {query : List ℚ} (huniq : UniqueIDs store)
    {st st' : SearchState} {f : Nat} (hG : GreedyInv store query st)
    (hv : visitFriend store query 1 st f = .ok st') : GreedyInv store query st' := by
  obtain ⟨r, hr, hmin⟩ := hG
  obtain ⟨fn, hfn, hcase⟩ := visitFriend_full hv
  rcases hcase with ⟨-, rfl⟩ | ⟨-, hlt, -⟩ | ⟨-, -, last, df, dl, hlast, hdf, hdl, hcase⟩
  · exact ⟨r, hr, hmin⟩
  · rw [hr] at hlt
    simp at hlt
  · rw [hr] at hlast
    simp only [List.getLast?_singleton, Option.some.injEq] at hlast
    subst hlast
    have hdf' : distanceTo store query f = .ok df := by rw [distanceTo_eq hfn]; exact hdf
    rcases hcase with ⟨hlt, sorted, hs, rfl⟩ | ⟨hnlt, rfl⟩
    · rw [hr] at hs
      simp only [List.length_singleton, Nat.sub_self, List.set_cons_zero,
        sortByDistance_singleton, Except.ok.injEq] at hs
      subst hs
      refine ⟨f, rfl, ?_⟩
      intro p n dp dr hn hvis hdp hdr
      rw [hdf'] at hdr
      cases hdr
      rcases List.mem_cons.1 hvis with hid | hvis
      · have hpf : p = f := huniq p f n fn hn hfn hid
        subst hpf
        rw [hdf'] at hdp
        cases hdp
        exact le_refl _
      · exact le_of_lt (lt_of_lt_of_le hlt (hmin p n dp dl hn hvis hdp hdl))
    · refine ⟨r, hr, ?_⟩
      intro p n dp dr hn hvis hdp hdr
      rw [hdl] at hdr
      cases hdr
      rcases List.mem_cons.1 hvis with hid | hvis
      · have hpf : p = f := huniq p f n fn hn hfn hid
        subst hpf
        rw [hdf'] at hdp
        cases hdp
        exact not_lt.1 hnlt
      · exact hmin p n dp _ hn hvis hdp hdl

/-- The final state of a completed run with a beam of one. -/
theorem searchLayerTrace_greedy {store : List Node} {e : Nat} {query : List ℚ} {layer : Int}
    (huniq : UniqueIDs store) {st : SearchState} {popped : List Nat}
    (h : searchLayerTrace store e query 1 layer = .ok (st, popped)) :
    GreedyInv store query st := by
  obtain ⟨en, hen, -, hloop⟩ := searchLayerTrace_eq_ok h
  refine (searchLoopTrace_rule (fun s _ => GreedyInv store query s)
    (fun _ s _ => GreedyInv store query s)
    (fun c cs v r pp hI => ?_)
    (fun c cn fs f s s' pp _ _ _ hJ hv => greedyInv_step huniq hJ hv)
    (fun c s pp hJ _ => hJ)
    (store.length + 1) ⟨[e], [en.ID], [e]⟩ [] ?_ hloop).1
  · exact hI
  · refine ⟨e, rfl, ?_⟩
    intro p n dp dr hn hvis hdp hdr
    simp only [List.mem_singleton] at hvis
    have hpe : p = e := huniq p e n en hn hen hvis
    subst hpe
    rw [hdp] at hdr
    cases hdr
    exact le_refl _

/-- On a store with unique IDs every node whose ID is marked visited belongs
to any set that holds the entry point and is closed under the edges of the
layer. -/
theorem searchLayerTrace_visited_mem {store : List Node} {e : Nat} {query : List ℚ}
    {ef layer : Int} (huniq : UniqueIDs store) (P : Nat → Prop) (he : P e)
    (hclosed : ∀ c cn fs f, P c → store[c]? = some cn → friendsAt cn layer = .ok fs →
      f ∈ fs → P f)
    {st : SearchState} {popped : List Nat}
    (h : searchLayerTrace store e query ef layer = .ok (st, popped)) :
    ∀ p n, store[p]? = some n → n.ID ∈ st.visited → P p := by
  obtain ⟨en, hen, -, hloop⟩ := searchLayerTrace_eq_ok h
  have key := searchLoopTrace_rule
    (fun s _ => (∀ p ∈ s.candidates, P p) ∧
      ∀ p n, store[p]? = some n → n.ID ∈ s.visited → P p)
    (fun c s _ => P c ∧ (∀ p ∈ s.candidates, P p) ∧
      ∀ p n, store[p]? = some n → n.ID ∈ s.visited → P p)
    (fun c cs v r pp hI => ⟨hI.1 c (List.mem_cons_self _ _),
      fun p hp => hI.1 p (List.mem_cons_of_mem _ hp), hI.2⟩)
    (fun c cn fs f s s' pp hcn hfs hf hJ hv => by
      obtain ⟨hPc, hcand, hvis⟩ := hJ
      have hPf : P f := hclosed c cn fs f hPc hcn hfs hf
      obtain ⟨fn, hfn, hcase⟩ := visitFriend_full hv
      have hvis' : ∀ p n, store[p]? = some n → n.ID ∈ fn.ID :: s.visited → P p := by
        intro p n hn hmem
        rcases List.mem_cons.1 hmem with hid | hmem
        · exact (huniq p f n fn hn hfn hid) ▸ hPf
        · exact hvis p n hn hmem
      have hcand' : ∀ p ∈ s.candidates ++ [f], P p := by
        intro p hp
        rcases List.mem_append.1 hp with hp | hp
        · exact hcand p hp
        · simp only [List.mem_singleton] at hp
          exact hp ▸ hPf
      rcases hcase with ⟨-, rfl⟩ | ⟨-, -, rfl⟩ | ⟨-, -, last, df, dl, -, -, -, hcase⟩
      · exact ⟨hPc, hcand, hvis⟩
      · exact ⟨hPc, hcand', hvis'⟩
      · rcases hcase with ⟨-, sorted, -, rfl⟩ | ⟨-, rfl⟩
        · exact ⟨hPc, hcand', hvis'⟩
        · exact ⟨hPc, hcand, hvis'⟩)
    (fun c s pp hJ _ => hJ.2)
    (store.length + 1) ⟨[e], [en.ID], [e]⟩ []
    ⟨fun p hp => by simp at hp; exact hp ▸ he,
      fun p n hn hmem => by
        simp only [List.mem_singleton] at hmem
        exact (huniq p e n en hn hen hmem) ▸ he⟩ hloop
  exact key.1.2

/-- A completed `searchLayer` comes with a completed instrumented run. -/
theorem searchLayerTrace_of_ok {store : List Node} {e : Nat} {query : List ℚ}
    {ef layer : Int} {out : List Nat} (h : searchLayer store e query ef layer = .ok out) :
    ∃ st popped, searchLayerTrace store e query ef layer = .ok (st, popped) ∧
      out = truncate ef st.results := by
  rw [searchLayer_eq_trace] at h
  cases htr : searchLayerTrace store e query ef layer with
  | error err => rw [htr] at h; simp [Except.map] at h
  | ok t =>
    rw [htr] at h
    simp only [Except.map, Except.ok.injEq] at h
    exact ⟨t.1, t.2, rfl, h.symm⟩

/-! ## Indexes built by `insertAll` are well typed for a search -/

/-- In an index built by completed inserts node IDs are the positions. -/
theorem uniqueIDs_of_built {maxEdges ef : Int} {inputs : List (List ℚ × Int)} {h : HNSW}
    (hbuild : insertAll (NewHNSW maxEdges ef) inputs = .ok h) : UniqueIDs h.Nodes := by
  obtain ⟨hlen, hnodes⟩ := built_nodes hbuild
  have hid : ∀ (p : Nat) (n : Node), h.Nodes[p]? = some n → n.ID = p := by
    intro p n hn
    have hlt : p < inputs.length := hlen ▸ (List.getElem?_eq_some_iff.1 hn).1
    obtain ⟨n', hn', hid, -, -⟩ := hnodes p hlt
    rw [hn] at hn'
    cases hn'
    exact hid
  intro p q n m hn hm hnm
  rw [← hid p n hn, ← hid q m hm, hnm]

/-- On a well-formed store whose vectors are long enough for the query, every
node reachable from an entry point that has the layer has the layer too, and
its distance to the query is defined. -/
theorem reach_typed_of_wellFormed {store : List Node} {query : List ℚ} {layer : Int}
    {e : Nat} (hwf : WellFormed store) (hdim : ∀ n ∈ store, query.length ≤ n.Vector.length)
    (hlayer : 0 ≤ layer) (he : (friendList store e layer.toNat).isSome) :
    ∀ p, Reach store layer e p → ∃ n fs d, store[p]? = some n ∧
      friendsAt n layer = .ok fs ∧ EuclideanDistance query n.Vector = .ok d := by
  have hex := explorable_of_wellFormed layer hwf hdim hlayer
  have hall : ∀ p, Reach store layer e p → (friendList store p layer.toNat).isSome := by
    intro p hp
    induction hp with
    | entry => exact he
    | edge _ hn hfs hf ih =>
      obtain ⟨n', fs', d, hn', hfs', hcl, -⟩ := hex _ ih
      rw [hn] at hn'
      cases hn'
      rw [hfs] at hfs'
      cases hfs'
      exact hcl _ hf
  intro p hp
  obtain ⟨n, fs, d, hn, hfs, -, hd⟩ := hex p (hall p hp)
  exact ⟨n, fs, d, hn, hfs, hd⟩

theorem testIndex_wellFormed : WellFormed testIndex.Nodes :=
  insertAll_wellFormed testVectors wellFormed_nil testIndex_built

theorem testIndex_reach (query : List ℚ) (hq : query.length ≤ 2) :
    ∀ p, Reach testIndex.Nodes 0 0 p → ∃ n fs d, testIndex.Nodes[p]? = some n ∧
      friendsAt n 0 = .ok fs ∧ EuclideanDistance query n.Vector = .ok d :=
  reach_typed_of_wellFormed testIndex_wellFormed
    (by
      intro n hn
      simp only [testIndex, List.mem_cons, List.mem_singleton, List.not_mem_nil, or_false] at hn
      rcases hn with rfl | rfl | rfl <;> simpa using hq)
    (le_refl 0) (by decide)

/-! ## Claims on the layer search and the constructor -/

/-- C12 (counterexample): on the index of the test data set, `searchLayer`
from node 0 with the beam width `2^45 + 1` stops in `make` and returns
nothing. -/
theorem C12_searchLayer_rejects_huge_beam :
    (1 : Int) ≤ maxSliceCap + 1 ∧
    searchLayer testIndex.Nodes 0 [2, 2.5] (maxSliceCap + 1) 0 = .error .makesliceCap := by
  decide!

/-- C12 (amended): for an entry point, a query, a layer that every node
reachable from the entry point on that layer has (with a vector long enough
for the query) and a beam width `1 ≤ ef ≤ 2^45`, `searchLayer` returns at
least 1 and at most `ef` nodes, pairwise distinct, each reachable from the
entry point along edges of the layer; when the entry point has no neighbours
on the layer the result is exactly `[entry]`. -/
theorem C12_searchLayer_shape (store : List Node) (e : Nat) (query : List ℚ) (ef layer : Int)
    (hef : 1 ≤ ef) (hcap : ef ≤ maxSliceCap)
    (hreach : ∀ p, Reach store layer e p → ∃ n fs d, store[p]? = some n ∧
      friendsAt n layer = .ok fs ∧ EuclideanDistance query n.Vector = .ok d) :
    ∃ out, searchLayer store e query ef layer = .ok out ∧ 1 ≤ out.length ∧
      (out.length : Int) ≤ ef ∧ out.Nodup ∧ (∀ p ∈ out, Reach store layer e p) ∧
      (∀ en, store[e]? = some en → friendsAt en layer = .ok [] → out = [e]) := by
  obtain ⟨out, hout⟩ := searchLayer_total ef (explorable_of_reach hreach) Reach.entry
    (by omega) hcap
  refine ⟨out, hout, List.length_pos.2 (searchLayer_ne_nil hef hout),
    searchLayer_length_le hout, (searchLayer_nodup hout).1, searchLayer_reach hout, ?_⟩
  intro en hen hfs
  have := searchLayer_no_friends query hen hfs hef hcap
  rw [hout] at this
  exact Except.ok.inj this

/-- C12 (witness): the index of the test data set, entry node 0, query
`[2, 2.5]`, beam 2, layer 0. -/
theorem C12_searchLayer_shape_witness :
    (1 : Int) ≤ 2 ∧ (2 : Int) ≤ maxSliceCap ∧
    ∃ out, searchLayer testIndex.Nodes 0 [2, 2.5] 2 0 = .ok out ∧ 1 ≤ out.length ∧
      (out.length : Int) ≤ 2 ∧ out.Nodup ∧ (∀ p ∈ out, Reach testIndex.Nodes 0 0 p) ∧
      (∀ en, testIndex.Nodes[0]? = some en → friendsAt en 0 = .ok [] → out = [0]) :=
  ⟨by decide, by decide, C12_searchLayer_shape testIndex.Nodes 0 [2, 2.5] 2 0 (by decide)
    (by decide) (testIndex_reach [2, 2.5] (by simp))⟩

/-- C13 (counterexample): `NewHNSW(1, 0)` returns an index.  Every level
drawn with `MaxEdges = 1` is `int(+Inf)`, and the first `Insert` into the
index completes and stores a node without layers. -/
theorem C13_constructor_accepts_invalid_parameters :
    NewHNSW 1 0 = { Nodes := [], MaxEdges := 1, Ef := 0 } ∧
    levelDrawable 1 intOfNonFinite ∧
    insertAll (NewHNSW 1 0) [([1, 2], intOfNonFinite)]
      = .ok { Nodes := [{ ID := 0, Vector := [1, 2], Friends := [] }],
              MaxEdges := 1, Ef := 0 } := by
  decide!

/-- C13 (amended): `NewHNSW` checks nothing.  For every `M` and `ef` it
returns the empty index that carries `MaxEdges = M` and `Ef = ef`, and a first
`Insert` into it completes, for every vector and drawn level. -/
theorem C13_constructor_never_rejects (maxEdges ef : Int) (vector : List ℚ) (level : Int) :
    NewHNSW maxEdges ef = { Nodes := [], MaxEdges := maxEdges, Ef := ef } ∧
    Insert (NewHNSW maxEdges ef) vector level
      = .ok { Nodes := [freshNode 0 vector level], MaxEdges := maxEdges, Ef := ef } := by
  simp [NewHNSW, Insert]

/-- C14: on the index of the test data set with `ef = 2`, when the result set
holds nodes 0 and 1 (squared distances 13/4 and 1/4 to the query `[2.5, 3]`)
and the unvisited neighbour 2 (squared distance 5/4) is examined, node 2 is
not admitted although it is closer than node 0: it is compared with the last
entry only.  With the query `[3, 4]` node 2 is admitted and replaces node 1
(squared distance 2), not the farthest node 0 (squared distance 8). -/
theorem C14_full_result_set_compares_with_last :
    visitFriend testIndex.Nodes [5 / 2, 3] 2 ⟨[1], [1, 0], [0, 1]⟩ 2
      = .ok ⟨[1], [2, 1, 0], [0, 1]⟩
    ∧ [0, 1, 2].map (distanceTo testIndex.Nodes [5 / 2, 3]) = [.ok (13 / 4), .ok (1 / 4), .ok (5 / 4)]
    ∧ Search testIndex [5 / 2, 3] 2 = .ok [0, 1]
    ∧ visitFriend testIndex.Nodes [3, 4] 2 ⟨[1], [1, 0], [0, 1]⟩ 2
      = .ok ⟨[1, 2], [2, 1, 0], [2, 0]⟩
    ∧ [0, 1, 2].map (distanceTo testIndex.Nodes [3, 4]) = [.ok 8, .ok 2, .ok 0]
    ∧ Search testIndex [3, 4] 2 = .ok [2, 0] := by
  decide!

/-- C15: on a store with unique node IDs, for an entry point, a query and a
layer that every node reachable from the entry point has (with a vector long
enough for the query), `searchLayer` with `ef = 1` returns a single node `r`;
the distance of `r` to the query is no greater than that of the entry point
and of every node whose ID the search marked visited, and no neighbour of `r`
on the layer is closer to the query than `r`. -/
theorem C15_greedy_walk (store : List Node) (e : Nat) (query : List ℚ) (layer : Int)
    (huniq : UniqueIDs store)
    (hreach : ∀ p, Reach store layer e p → ∃ n fs d, store[p]? = some n ∧
      friendsAt n layer = .ok fs ∧ EuclideanDistance query n.Vector = .ok d) :
    ∃ st popped r dr, searchLayerTrace store e query 1 layer = .ok (st, popped) ∧
      searchLayer store e query 1 layer = .ok [r] ∧ distanceTo store query r = .ok dr ∧
      (∃ de, distanceTo store query e = .ok de ∧ dr ≤ de) ∧
      (∀ p n, store[p]? = some n → n.ID ∈ st.visited →
        ∃ dp, distanceTo store query p = .ok dp ∧ dr ≤ dp) ∧
      (∀ rn fs, store[r]? = some rn → friendsAt rn layer = .ok fs →
        ∀ f ∈ fs, ∃ df, distanceTo store query f = .ok df ∧ dr ≤ df) := by
  have hex := explorable_of_reach hreach
  obtain ⟨out, hout⟩ := searchLayer_total 1 hex Reach.entry (by decide) one_le_maxSliceCap
  obtain ⟨st, popped, htr, hout'⟩ := searchLayerTrace_of_ok hout
  obtain ⟨-, -, -, hres, he, hexp, hids⟩ := searchLayerTrace_facts htr
  obtain ⟨r, hr, hmin⟩ := searchLayerTrace_greedy huniq htr
  have hvisP := searchLayerTrace_visited_mem huniq (Reach store layer e) Reach.entry
    (fun _ _ _ _ hc hcn hfs hf => Reach.edge hc hcn hfs hf) htr
  have houtr : out = [r] := by rw [hout', hr]; simp [truncate]
  subst houtr
  have hPr : Reach store layer e r := searchLayer_reach hout r (List.mem_singleton_self r)
  obtain ⟨dr, hdr⟩ := distanceTo_of_explorable hex hPr
  have hseen : ∀ p n, store[p]? = some n → n.ID ∈ st.visited →
      ∃ dp, distanceTo store query p = .ok dp ∧ dr ≤ dp := by
    intro p n hn hvis
    obtain ⟨dp, hdp⟩ := distanceTo_of_explorable hex (hvisP p n hn hvis)
    exact ⟨dp, hdp, hmin p n dp dr hn hvis hdp hdr⟩
  refine ⟨st, popped, r, dr, htr, hout, hdr, ?_, hseen, ?_⟩
  · obtain ⟨en, hen, hvis⟩ := hids e he
    exact hseen e en hen hvis
  · intro rn fs hrn hfs f hf
    have hrpop : r ∈ popped := hres r (by rw [hr]; exact List.mem_singleton_self r)
    obtain ⟨fn, hfn, hvis⟩ := hexp r hrpop rn fs hrn hfs f hf
    exact hseen f fn hfn hvis

/-- C15 (witness): the index of the test data set, entry node 0, query
`[2, 2.5]`, layer 0. -/
theorem C15_greedy_walk_witness :
    insertAll (NewHNSW 5 200) testVectors = .ok testIndex ∧
    ∃ st popped r dr, searchLayerTrace testIndex.Nodes 0 [2, 2.5] 1 0 = .ok (st, popped) ∧
      searchLayer testIndex.Nodes 0 [2, 2.5] 1 0 = .ok [r] ∧
      distanceTo testIndex.Nodes [2, 2.5] r = .ok dr ∧
      (∃ de, distanceTo testIndex.Nodes [2, 2.5] 0 = .ok de ∧ dr ≤ de) ∧
      (∀ p n, testIndex.Nodes[p]? = some n → n.ID ∈ st.visited →
        ∃ dp, distanceTo testIndex.Nodes [2, 2.5] p = .ok dp ∧ dr ≤ dp) ∧
      (∀ rn fs, testIndex.Nodes[r]? = some rn → friendsAt rn 0 = .ok fs →
        ∀ f ∈ fs, ∃ df, distanceTo testIndex.Nodes [2, 2.5] f = .ok df ∧ dr ≤ df) :=
  ⟨testIndex_built, C15_greedy_walk testIndex.Nodes 0 [2, 2.5] 0
    (uniqueIDs_of_built testIndex_built) (testIndex_reach [2, 2.5] (by simp))⟩

/-- C18: on every store, cyclic or not, a layer search ends within its budget
of `len(store) + 1` loop tests.  The instrumented run computes the same
result, and when it completes the frontier is empty, no node was popped twice
and the number of pops is at most the number of nodes. -/
theorem C18_searchLayer_terminates (store : List Node) (e : Nat) (query : List ℚ)
    (ef layer : Int) :
    searchLayer store e query ef layer ≠ .error .outOfFuel ∧
    searchLayer store e query ef layer
      = (searchLayerTrace store e query ef layer).map (fun t => truncate ef t.1.results) ∧
    ∀ st popped, searchLayerTrace store e query ef layer = .ok (st, popped) →
      st.candidates = [] ∧ popped.Nodup ∧ popped.length ≤ store.length := by
  refine ⟨searchLayer_ne_outOfFuel store e query ef layer,
    searchLayer_eq_trace store e query ef layer, ?_⟩
  intro st popped htr
  obtain ⟨hc, hnd, hlt, -, -, -, -⟩ := searchLayerTrace_facts htr
  exact ⟨hc, hnd, length_le_of_nodup_of_lt hnd hlt⟩

/-! ## The pruning rule of `connectNewNode` -/

theorem sumSquares_le (a b : List ℚ) (sum d : ℚ) (h : sumSquares a b sum = .ok d) :
    sum ≤ d := by
  induction a generalizing b sum with
  | nil => simp [sumSquares] at h; exact h ▸ le_refl _
  | cons x xs ih =>
    cases b with
    | nil => simp [sumSquares] at h
    | cons y ys =>
      simp only [sumSquares] at h
      have := ih ys _ h
      nlinarith [mul_self_nonneg (x - y)]

theorem EuclideanDistance_nonneg {a b : List ℚ} {d : ℚ}
    (h : EuclideanDistance a b = .ok d) : 0 ≤ d :=
  sumSquares_le a b 0 d h

theorem distanceBetween_eq {store : List Node} {a b : Nat} {an bn : Node}
    (ha : store[a]? = some an) (hb : store[b]? = some bn) :
    distanceBetween store a b = EuclideanDistance an.Vector bn.Vector := by
  simp [distanceBetween, ha, hb]

/-- What the loop over the friends computes: a bound on every distance, and
the first index that attains it when it exceeds the starting value. -/
theorem farthestFriend_spec {store : List Node} {v : Nat} {vn : Node}
    (hv : store[v]? = some vn) (fs : List Nat) (i : Nat) (maxDistance : ℚ) (maxIndex : Nat)
    {d : ℚ} {j : Nat}
    (h : farthestFriend store vn.Vector fs i maxDistance maxIndex = .ok (d, j)) :
    maxDistance ≤ d ∧ (∀ x ∈ fs, ∃ dx, distanceBetween store v x = .ok dx ∧ dx ≤ d) ∧
      ((d = maxDistance ∧ j = maxIndex) ∨
       (maxDistance < d ∧ i ≤ j ∧ ∃ w, fs[j - i]? = some w ∧
          distanceBetween store v w = .ok d)) := by
  induction fs generalizing i maxDistance maxIndex with
  | nil =>
    simp only [farthestFriend, Except.ok.injEq, Prod.mk.injEq] at h
    obtain ⟨rfl, rfl⟩ := h
    exact ⟨le_refl _, by simp, Or.inl ⟨rfl, rfl⟩⟩
  | cons f fs ih =>
    unfold farthestFriend at h
    split at h
    · simp at h
    · next fn hfn =>
      rw [deref_eq_ok] at hfn
      split at h
      · simp at h
      · next df hdf =>
        have hdf' : distanceBetween store v f = .ok df := by
          rw [distanceBetween_eq hv hfn]; exact hdf
        split at h
        · next hgt =>
          obtain ⟨hle, hall, hcase⟩ := ih _ _ _ h
          refine ⟨le_of_lt (lt_of_lt_of_le hgt hle), ?_, ?_⟩
          · intro x hx
            rcases List.mem_cons.1 hx with rfl | hx
            · exact ⟨df, hdf', hle⟩
            · exact hall x hx
          · right
            rcases hcase with ⟨rfl, rfl⟩ | ⟨hlt, hij, w, hw, hdw⟩
            · exact ⟨hgt, le_refl _, f, by simp, hdf'⟩
            · refine ⟨lt_trans hgt hlt, by omega, w, ?_, hdw⟩
              have : j - i = (j - (i + 1)) + 1 := by omega
              rw [this, List.getElem?_cons_succ]
              exact hw
        · next hngt =>
          obtain ⟨hle, hall, hcase⟩ := ih _ _ _ h
          refine ⟨hle, ?_, ?_⟩
          · intro x hx
            rcases List.mem_cons.1 hx with rfl | hx
            · exact ⟨df, hdf', le_trans (not_lt.1 hngt) hle⟩
            · exact hall x hx
          · rcases hcase with ⟨rfl, rfl⟩ | ⟨hlt, hij, w, hw, hdw⟩
            · exact Or.inl ⟨rfl, rfl⟩
            · refine Or.inr ⟨hlt, by omega, w, ?_, hdw⟩
              have : j - i = (j - (i + 1)) + 1 := by omega
              rw [this, List.getElem?_cons_succ]
              exact hw

/-- What a completed `connectOne` does, candidate other than the new node:
the candidate's list follows the pruning rule, the candidate is appended to
the new node's list, and no other list changes. -/
theorem connectOne_rule {maxEdges : Int} {np : Nat} {level : Int}
    {store store' : List Node} {nb : Nat} (hne : nb ≠ np)
    (h : connectOne maxEdges np level store nb = .ok store') :
    0 ≤ level ∧ ∃ fs fs' nfs, friendList store nb level.toNat = some fs ∧
      friendList store np level.toNat = some nfs ∧
      PruneRule store maxEdges np nb fs fs' ∧
      (∀ q k, friendList store' q k =
        if q = np ∧ k = level.toNat then some (nfs ++ [nb])
        else if q = nb ∧ k = level.toNat then some fs'
        else friendList store q k) := by
  unfold connectOne at h
  split at h
  · simp at h
  · next nbn hnb =>
    rw [deref_eq_ok] at hnb
    split at h
    · simp at h
    · next fs hfs =>
      rw [friendsAt_eq_ok] at hfs
      obtain ⟨hlevel, hfs⟩ := hfs
      have hfl : friendList store nb level.toNat = some fs :=
        friendList_eq_some.2 ⟨nbn, hnb, hfs⟩
      simp only at h
      split at h
      · simp at h
      · next store1 hlinked =>
        -- the candidate's side
        have hside : ∃ fs', PruneRule store maxEdges np nb fs fs' ∧
            store1 = setFriends store nb level.toNat fs' := by
          split at hlinked
          · next hlt =>
            simp only [Except.ok.injEq] at hlinked
            exact ⟨fs ++ [np], Or.inl ⟨hlt, rfl⟩, hlinked.symm⟩
          · next hge =>
            split at hlinked
            · simp at hlinked
            · next maxDistance maxIndex hfar =>
              obtain ⟨h0, hall, hcase⟩ := farthestFriend_spec hnb fs 0 0 0 hfar
              split at hlinked
              · simp at hlinked
              · next nn hnn =>
                rw [deref_eq_ok] at hnn
                split at hlinked
                · simp at hlinked
                · next dn hdn =>
                  have hdn' : distanceBetween store nb np = .ok dn := by
                    rw [distanceBetween_eq hnb hnn]; exact hdn
                  have hdn0 := EuclideanDistance_nonneg hdn
                  split at hlinked
                  · next hlt =>
                    split at hlinked
                    · simp only [Except.ok.injEq] at hlinked
                      rcases hcase with ⟨rfl, -⟩ | ⟨-, -, w, hw, hdw⟩
                      · exact absurd hlt (not_lt.2 hdn0)
                      · simp only [Nat.sub_zero] at hw
                        exact ⟨fs.set maxIndex np, Or.inr ⟨hge, dn, hdn',
                          Or.inl ⟨maxIndex, w, maxDistance, hw, hdw, hall, hlt, rfl⟩⟩,
                          hlinked.symm⟩
                    · simp at hlinked
                  · next hnlt =>
                    simp only [Except.ok.injEq] at hlinked
                    refine ⟨fs, Or.inr ⟨hge, dn, hdn', Or.inr ⟨?_, rfl⟩⟩, ?_⟩
                    · intro x hx
                      obtain ⟨dx, hdx, hle⟩ := hall x hx
                      exact ⟨dx, hdx, le_trans hle (not_lt.1 hnlt)⟩
                    · rw [setFriends_self hfl]; exact hlinked.symm
        obtain ⟨fs', hrule, rfl⟩ := hside
        split at h
        · simp at h
        · next nn hnn =>
          rw [deref_eq_ok] at hnn
          split at h
          · simp at h
          · next nfs hnfs =>
            rw [friendsAt_eq_ok] at hnfs
            simp only [Except.ok.injEq] at h
            have hnfs1 : friendList (setFriends store nb level.toNat fs') np level.toNat
                = some nfs := friendList_eq_some.2 ⟨nn, hnn, hnfs.2⟩
            have hnfs0 : friendList store np level.toNat = some nfs := by
              rw [friendList_setFriends] at hnfs1
              rw [if_neg (by intro hc; exact hne hc.1.symm)] at hnfs1
              exact hnfs1
            refine ⟨hlevel, fs, fs', nfs, hfl, hnfs0, hrule, ?_⟩
            intro q k
            rw [← h, friendList_setFriends, hnfs1, friendList_setFriends, hfl]
            simp only [Option.isSome_some, and_true]

/-! ## The pruning rule along the loop of `connectNewNode` -/

theorem getElem?_of_shape_eq {store store' : List Node}
    (hs : store'.map shape = store.map shape) (a : Nat) :
    (store'[a]?).map shape = (store[a]?).map shape := by
  have := congrArg (fun l => l[a]?) hs
  simpa using this

theorem getElem?_vector_of_shape_eq {store store' : List Node}
    (hs : store'.map shape = store.map shape) (a : Nat) :
    (store'[a]?).map Node.Vector = (store[a]?).map Node.Vector := by
  have ha := getElem?_of_shape_eq hs a
  cases h1 : store'[a]? <;> cases h2 : store[a]? <;> rw [h1, h2] at ha <;>
    simp [shape] at ha ⊢
  exact ha.2.1

theorem distanceBetween_congr {store store' : List Node}
    (hs : store'.map shape = store.map shape) :
    distanceBetween store' = distanceBetween store := by
  funext a b
  have ha := getElem?_vector_of_shape_eq hs a
  have hb := getElem?_vector_of_shape_eq hs b
  unfold distanceBetween
  cases h1 : store'[a]? <;> cases h2 : store[a]? <;> rw [h1, h2] at ha <;>
    cases h3 : store'[b]? <;> cases h4 : store[b]? <;> rw [h3, h4] at hb <;>
    simp at ha hb ⊢
  rw [ha, hb]

theorem pruneRule_congr {store store' : List Node}
    (hs : store'.map shape = store.map shape) (maxEdges : Int) (np v : Nat)
    (fs result : List Nat) :
    PruneRule store' maxEdges np v fs result ↔ PruneRule store maxEdges np v fs result := by
  unfold PruneRule
  rw [distanceBetween_congr hs]

/-- The effect of a completed `connectNewNode` on distinct candidates, none of
them the new node: every candidate's list follows the pruning rule, the
candidates are appended, in order, to the new node's list, and no other list
changes. -/
theorem connectNewNode_rule {maxEdges : Int} {np : Nat} {level : Int}
    (neighbors : List Nat) {store store' : List Node}
    (hne : ∀ nb ∈ neighbors, nb ≠ np) (hnd : neighbors.Nodup)
    (h : connectNewNode maxEdges np level store neighbors = .ok store') :
    (∀ nfs, friendList store np level.toNat = some nfs →
      friendList store' np level.toNat = some (nfs ++ neighbors)) ∧
    (∀ v ∈ neighbors, ∃ fs fs', friendList store v level.toNat = some fs ∧
      friendList store' v level.toNat = some fs' ∧ PruneRule store maxEdges np v fs fs') ∧
    (∀ q k, ¬ (q = np ∧ k = level.toNat) → ¬ (q ∈ neighbors ∧ k = level.toNat) →
      friendList store' q k = friendList store q k) := by
  induction neighbors generalizing store with
  | nil =>
    simp only [connectNewNode, Except.ok.injEq] at h
    subst h
    exact ⟨fun nfs hnfs => by simpa using hnfs, fun v hv => by simp at hv, fun _ _ _ _ => rfl⟩
  | cons nb rest ih =>
    unfold connectNewNode at h
    split at h
    · simp at h
    · next store1 h1 =>
      have hnb := hne nb (List.mem_cons_self _ _)
      obtain ⟨hnbrest, hrest⟩ := List.nodup_cons.1 hnd
      obtain ⟨-, fs, fs1, nfs, hfs, hnfs, hrule, hall1⟩ := connectOne_rule hnb h1
      obtain ⟨ih1, ih2, ih3⟩ := ih (fun x hx => hne x (List.mem_cons_of_mem _ hx)) hrest h
      have hnp1 : friendList store1 np level.toNat = some (nfs ++ [nb]) := by
        rw [hall1]; simp
      have hnb1 : friendList store1 nb level.toNat = some fs1 := by
        rw [hall1]; simp [hnb]
      refine ⟨?_, ?_, ?_⟩
      · intro nfs0 hnfs0
        rw [hnfs] at hnfs0
        cases hnfs0
        rw [ih1 _ hnp1]
        simp
      · intro v hv
        rcases List.mem_cons.1 hv with rfl | hv
        · refine ⟨fs, fs1, hfs, ?_, hrule⟩
          rw [ih3 v level.toNat (fun hc => hnb hc.1) (fun hc => hnbrest hc.1)]
          exact hnb1
        · obtain ⟨gs, gs', hgs, hgs', hr⟩ := ih2 v hv
          have hvnp : v ≠ np := hne v (List.mem_cons_of_mem _ hv)
          have hvnb : v ≠ nb := fun hc => hnbrest (hc ▸ hv)
          refine ⟨gs, gs', ?_, hgs', (pruneRule_congr (connectOne_shape h1) _ _ _ _ _).1 hr⟩
          rw [hall1] at hgs
          simpa [hvnp, hvnb] using hgs
      · intro q k hq1 hq2
        rw [ih3 q k hq1 (fun hc => hq2 ⟨List.mem_cons_of_mem _ hc.1, hc.2⟩), hall1]
        have hq3 : ¬ (q = nb ∧ k = level.toNat) :=
          fun hc => hq2 ⟨hc.1 ▸ List.mem_cons_self _ _, hc.2⟩
        rw [if_neg hq1, if_neg hq3]

/-! ## `connectNewNode` completes on a well-typed store -/

theorem EuclideanDistance_total {a b : List ℚ} (hlen : a.length ≤ b.length) :
    ∃ d, EuclideanDistance a b = .ok d :=
  sumSquares_total a b 0 hlen

theorem farthestFriend_total {store : List Node} {D : Nat} {origin : List ℚ}
    (hdim : ∀ n ∈ store, n.Vector.length = D) (horigin : origin.length = D)
    (fs : List Nat) (hfs : ∀ f ∈ fs, f < store.length) (i : Nat) (maxDistance : ℚ)
    (maxIndex : Nat) :
    ∃ r, farthestFriend store origin fs i maxDistance maxIndex = .ok r := by
  induction fs generalizing i maxDistance maxIndex with
  | nil => exact ⟨_, rfl⟩
  | cons f fs ih =>
    have hf : f < store.length := hfs f (List.mem_cons_self _ _)
    have hfn : store[f]? = some store[f] := List.getElem?_eq_getElem hf
    obtain ⟨d, hd⟩ := EuclideanDistance_total (a := origin) (b := store[f].Vector)
      (by rw [horigin, hdim _ (List.getElem_mem hf)])
    have hrest : ∀ g ∈ fs, g < store.length := fun g hg => hfs g (List.mem_cons_of_mem _ hg)
    simp only [farthestFriend, deref, hfn, hd]
    split
    · exact ih hrest _ _ _
    · exact ih hrest _ _ _

/-- On a well-formed store of vectors of one dimension, `connectOne`
completes for a candidate other than the new node when both have the layer. -/
theorem connectOne_total (maxEdges : Int) {np : Nat} {level : Int} {store : List Node}
    {nb : Nat} {D : Nat} (hwf : WellFormed store) (hdim : ∀ n ∈ store, n.Vector.length = D)
    (hlevel : 0 ≤ level) (hnp : (friendList store np level.toNat).isSome)
    (hnb : (friendList store nb level.toNat).isSome) :
    ∃ store', connectOne maxEdges np level store nb = .ok store' := by
  obtain ⟨fs, hfs⟩ := Option.isSome_iff_exists.1 hnb
  obtain ⟨nbn, hnbn, hfl⟩ := friendList_eq_some.1 hfs
  obtain ⟨nfs, hnfs⟩ := Option.isSome_iff_exists.1 hnp
  obtain ⟨nn, hnn, -⟩ := friendList_eq_some.1 hnfs
  have hfa : friendsAt nbn level = .ok fs := friendsAt_eq_ok.2 ⟨hlevel, hfl⟩
  have hvalid : ∀ f ∈ fs, f < store.length := by
    intro f hf
    obtain ⟨gs, hgs⟩ := Option.isSome_iff_exists.1 (hwf _ _ _ _ hfs hf).2
    exact lt_length_of_friendList hgs
  have hdnb : nbn.Vector.length = D := hdim _ (List.getElem?_mem hnbn)
  have hdnn : nn.Vector.length = D := hdim _ (List.getElem?_mem hnn)
  -- the candidate's side always yields a store in which the new node keeps its layer
  have hlinked : ∃ store1,
      (if (fs.length : Int) < maxEdges then
          (Except.ok (setFriends store nb level.toNat (fs ++ [np])) : Except Fault (List Node))
        else
          match farthestFriend store nbn.Vector fs 0 0 0 with
          | .error e => .error e
          | .ok (maxDistance, maxIndex) =>
            match deref store np with
            | .error e => .error e
            | .ok nn =>
              match EuclideanDistance nbn.Vector nn.Vector with
              | .error e => .error e
              | .ok d =>
                if d < maxDistance then
                  if maxIndex < fs.length then
                    .ok (setFriends store nb level.toNat (fs.set maxIndex np))
                  else .error .indexOutOfRange
                else .ok store) = .ok store1 ∧
      (friendList store1 np level.toNat).isSome := by
    split
    · exact ⟨_, rfl, by rw [friendList_isSome_setFriends]; exact hnp⟩
    · obtain ⟨⟨maxDistance, maxIndex⟩, hfar⟩ :=
        farthestFriend_total hdim hdnb fs hvalid 0 0 0
      obtain ⟨d, hd⟩ := EuclideanDistance_total (a := nbn.Vector) (b := nn.Vector)
        (by rw [hdnb, hdnn])
      simp only [hfar, deref, hnn, hd]
      split
      · next hlt =>
        obtain ⟨-, -, hcase⟩ := farthestFriend_spec hnbn fs 0 0 0 hfar
        have hidx : maxIndex < fs.length := by
          rcases hcase with ⟨rfl, -⟩ | ⟨-, -, w, hw, -⟩
          · exact absurd hlt (not_lt.2 (EuclideanDistance_nonneg hd))
          · simp only [Nat.sub_zero] at hw
            exact (List.getElem?_eq_some_iff.1 hw).1
        rw [if_pos hidx]
        exact ⟨_, rfl, by rw [friendList_isSome_setFriends]; exact hnp⟩
      · exact ⟨_, rfl, hnp⟩
  obtain ⟨store1, hl, hnp1⟩ := hlinked
  obtain ⟨nfs1, hnfs1⟩ := Option.isSome_iff_exists.1 hnp1
  obtain ⟨nn1, hnn1, hnl1⟩ := friendList_eq_some.1 hnfs1
  have hfa1 : friendsAt nn1 level = .ok nfs1 := friendsAt_eq_ok.2 ⟨hlevel, hnl1⟩
  refine ⟨setFriends store1 np level.toNat (nfs1 ++ [nb]), ?_⟩
  unfold connectOne
  simp only [deref_eq_ok.2 hnbn, hfa]
  split
  · next err heq => exact absurd (heq.symm.trans hl) (by simp)
  · next s heq =>
    have hs : s = store1 := Except.ok.inj (heq.symm.trans hl)
    subst hs
    simp only [deref_eq_ok.2 hnn1, hfa1]

theorem connectNewNode_total {maxEdges : Int} {np : Nat} {level : Int} {D : Nat}
    (neighbors : List Nat) {store : List Node}
    (hwf : WellFormed store) (hdim : ∀ n ∈ store, n.Vector.length = D)
    (hlevel : 0 ≤ level) (hnp : (friendList store np level.toNat).isSome)
    (hnb : ∀ nb ∈ neighbors, nb ≠ np ∧ (friendList store nb level.toNat).isSome) :
    ∃ store', connectNewNode maxEdges np level store neighbors = .ok store' := by
  induction neighbors generalizing store with
  | nil => exact ⟨store, rfl⟩
  | cons nb rest ih =>
    obtain ⟨hne, hsome⟩ := hnb nb (List.mem_cons_self _ _)
    obtain ⟨store1, h1⟩ := connectOne_total maxEdges hwf hdim hlevel hnp hsome
    have hdim1 : ∀ n ∈ store1, n.Vector.length = D := by
      intro n hn
      obtain ⟨p, hp⟩ := List.mem_iff_getElem?.1 hn
      have := getElem?_of_shape_eq (connectOne_shape h1) p
      rw [hp] at this
      cases hp0 : store[p]? with
      | none => rw [hp0] at this; simp at this
      | some m =>
        rw [hp0] at this
        simp only [Option.map_some', Option.some.injEq, shape, Prod.mk.injEq] at this
        rw [this.2.1]
        exact hdim m (List.getElem?_mem hp0)
    obtain ⟨store', h'⟩ := ih (connectOne_wellFormed hne hwf h1) hdim1
      (by rw [connectOne_isSome h1]; exact hnp)
      (fun x hx => ⟨(hnb x (List.mem_cons_of_mem _ hx)).1, by
        rw [connectOne_isSome h1]; exact (hnb x (List.mem_cons_of_mem _ hx)).2⟩)
    exact ⟨store', by simp [connectNewNode, h1, h']⟩

/-! ## Lengths of adjacency lists -/

theorem lenStep_refl (maxEdges : Int) (a : Nat) : LenStep maxEdges a a :=
  ⟨le_refl _, le_max_left _ _⟩

theorem lenStep_trans {maxEdges : Int} {a b c : Nat} (h1 : LenStep maxEdges a b)
    (h2 : LenStep maxEdges b c) : LenStep maxEdges a c := by
  obtain ⟨h1a, h1b⟩ := h1
  obtain ⟨h2a, h2b⟩ := h2
  refine ⟨le_trans h1a h2a, ?_⟩
  rcases le_max_iff.1 h2b with h | h
  · exact le_trans h h1b
  · exact le_trans h (le_max_right _ _)

theorem pruneRule_lenStep {store : List Node} {maxEdges : Int} {np v : Nat}
    {fs fs' : List Nat} (h : PruneRule store maxEdges np v fs fs') :
    LenStep maxEdges fs.length fs'.length ∧
      (¬ (fs.length : Int) < maxEdges → fs'.length = fs.length) := by
  rcases h with ⟨hlt, rfl⟩ | ⟨hge, dn, -, ⟨i, w, dw, -, -, -, -, rfl⟩ | ⟨-, rfl⟩⟩
  · refine ⟨⟨by simp, ?_⟩, fun hc => absurd hlt hc⟩
    simp only [List.length_append, List.length_singleton, Nat.cast_add, Nat.cast_one]
    exact le_max_of_le_right (by omega)
  · refine ⟨?_, fun _ => List.length_set _ _ _⟩
    rw [List.length_set]
    exact lenStep_refl _ _
  · exact ⟨lenStep_refl _ _, fun _ => rfl⟩

theorem oldLists_trans {maxEdges : Int} {np : Nat} {s1 s2 s3 : List Node}
    (h12 : OldLists maxEdges np s1 s2) (h23 : OldLists maxEdges np s2 s3) :
    OldLists maxEdges np s1 s3 := by
  intro q k fs3 hq h3
  obtain ⟨fs2, h2, hstep2⟩ := h23 q k fs3 hq h3
  obtain ⟨fs1, h1, hstep1⟩ := h12 q k fs2 hq h2
  exact ⟨fs1, h1, lenStep_trans hstep1 hstep2⟩

theorem connectNewNode_isSome {maxEdges : Int} {np : Nat} {level : Int}
    (neighbors : List Nat) {store store' : List Node}
    (h : connectNewNode maxEdges np level store neighbors = .ok store') (q k : Nat) :
    (friendList store' q k).isSome = (friendList store q k).isSome := by
  induction neighbors generalizing store with
  | nil => simp only [connectNewNode, Except.ok.injEq] at h; rw [h]
  | cons nb rest ih =>
    unfold connectNewNode at h
    split at h
    · simp at h
    · next store1 h1 => rw [ih h, connectOne_isSome h1]

/-- Lengths after `connectNewNode` on the neighbours found by a search on
layer `cur`. -/
theorem connectNewNode_lengths {maxEdges ef : Int} {np : Nat} {cur : Int}
    (neighbors : List Nat) {store store' : List Node}
    (hne : ∀ nb ∈ neighbors, nb ≠ np) (hnd : neighbors.Nodup)
    (hlen : (neighbors.length : Int) ≤ ef) (hcur : 0 ≤ cur)
    (hnew : NewBound ef np cur store)
    (h : connectNewNode maxEdges np cur store neighbors = .ok store') :
    OldLists maxEdges np store store' ∧ NewBound ef np (cur - 1) store' := by
  obtain ⟨h1, h2, h3⟩ := connectNewNode_rule neighbors hne hnd h
  constructor
  · intro q k fs' hq hfs'
    by_cases hmem : q ∈ neighbors ∧ k = cur.toNat
    · obtain ⟨hqn, rfl⟩ := hmem
      obtain ⟨fs, gs, hfs, hgs, hrule⟩ := h2 q hqn
      rw [hfs'] at hgs
      cases hgs
      exact ⟨fs, hfs, (pruneRule_lenStep hrule).1⟩
    · rw [h3 q k (fun hc => hq hc.1) hmem] at hfs'
      exact ⟨fs', hfs', lenStep_refl _ _⟩
  · intro l fs hfs
    by_cases hl : l = cur.toNat
    · subst hl
      have hsome : (friendList store np cur.toNat).isSome := by
        rw [← connectNewNode_isSome neighbors h, hfs]; rfl
      obtain ⟨nfs, hnfs⟩ := Option.isSome_iff_exists.1 hsome
      have hnil : nfs = [] := (hnew _ _ hnfs).1 (by rw [Int.toNat_of_nonneg hcur])
      subst hnil
      rw [h1 _ hnfs] at hfs
      simp only [List.nil_append, Option.some.injEq] at hfs
      subst hfs
      refine ⟨fun hc => ?_, fun _ => hlen⟩
      rw [Int.toNat_of_nonneg hcur] at hc
      omega
    · rw [h3 np l (fun hc => hl hc.2) (fun hc => hne np hc.1 rfl)] at hfs
      obtain ⟨hlow, hhigh⟩ := hnew l fs hfs
      have hne' : (l : Int) ≠ cur := by
        intro hc
        apply hl
        rw [← hc]
        simp
      exact ⟨fun hc => hlow (by omega), fun hc => hhigh (by omega)⟩

theorem connectLayers_lengths {maxEdges ef : Int} {query : List ℚ} {np ep : Nat}
    (hep : ep ≠ np) (n : Nat) (cur : Int) {store store' : List Node}
    (hwf : WellFormed store) (hst : Stage np cur store) (hnew : NewBound ef np cur store)
    (h : connectLayers maxEdges ef query np ep n cur store = .ok store') :
    OldLists maxEdges np store store' ∧ NewBound ef np (cur - n) store' := by
  induction n generalizing cur store with
  | zero =>
    simp only [connectLayers, Except.ok.injEq] at h
    subst h
    refine ⟨fun q k fs' _ hfs' => ⟨fs', hfs', lenStep_refl _ _⟩, ?_⟩
    simpa using hnew
  | succ n ih =>
    unfold connectLayers at h
    split at h
    · simp at h
    · next neighbors hs =>
      split at h
      · simp at h
      · next store1 h1 =>
        have hcur := searchLayer_layer_nonneg hs
        have hne := searchLayer_ne_newNode hst hep hs
        obtain ⟨hold1, hnew1⟩ := connectNewNode_lengths neighbors hne (searchLayer_nodup hs).1
          (searchLayer_length_le hs) hcur hnew h1
        obtain ⟨hwf1, hst1⟩ := connectNewNode_wellFormed neighbors hne hwf
          (hst.mono (by omega)) h1
        obtain ⟨hold2, hnew2⟩ := ih _ hwf1 hst1 hnew1 h
        refine ⟨oldLists_trans hold1 hold2, ?_⟩
        have : cur - 1 - (n : Int) = cur - ((n + 1 : Nat) : Int) := by push_cast; ring
        rwa [this] at hnew2

/-- Lengths after a completed `Insert`: every list of an earlier node comes
from its earlier list by a `LenStep`, and every list of the new node holds at
most `Ef` entries. -/
theorem Insert_lengths {h h' : HNSW} {vector : List ℚ} {level : Int}
    (hwf : WellFormed h.Nodes) (hef : 0 ≤ h.Ef) (hins : Insert h vector level = .ok h') :
    (∀ q k fs', q < h.Nodes.length → friendList h'.Nodes q k = some fs' →
      ∃ fs, friendList h.Nodes q k = some fs ∧ LenStep h.MaxEdges fs.length fs'.length) ∧
    (∀ l fs, friendList h'.Nodes h.Nodes.length l = some fs → (fs.length : Int) ≤ h.Ef) := by
  obtain ⟨hwf0, hst0⟩ := wellFormed_append_fresh hwf h.Nodes.length vector level
  have hnew0 : NewBound h.Ef h.Nodes.length level
      (h.Nodes ++ [freshNode h.Nodes.length vector level]) := by
    intro l fs hfs
    rcases friendList_freshNode hfs with ⟨hp, -⟩ | ⟨-, rfl⟩
    · exact absurd hp (lt_irrefl _)
    · exact ⟨fun _ => rfl, fun _ => by simpa using hef⟩
  by_cases hne : h.Nodes.length = 0
  · unfold Insert at hins
    simp only [if_pos hne, Except.ok.injEq] at hins
    subst hins
    refine ⟨fun q k fs' hq _ => absurd hq (by omega), ?_⟩
    intro l fs hfs
    rcases friendList_freshNode hfs with ⟨hp, -⟩ | ⟨-, rfl⟩
    · exact absurd hp (lt_irrefl _)
    · simpa using hef
  · obtain ⟨entry, ep, store1, -, hep, hs, rfl⟩ := Insert_eq_ok hne hins
    have hep' : ep ≠ h.Nodes.length :=
      descend_ne_newNode hst0 _ _ 0 (by omega) hep
    obtain ⟨hold, hnew⟩ := connectLayers_lengths hep' _ _ hwf0 (hst0 level) hnew0 hs
    constructor
    · intro q k fs' hq hfs'
      obtain ⟨fs, hfs, hstep⟩ := hold q k fs' (by omega) hfs'
      rw [friendList_append_left hq] at hfs
      exact ⟨fs, hfs, hstep⟩
    · intro l fs hfs
      refine (hnew l fs hfs).2 ?_
      have : level - ((level + 1).toNat : Int) < 0 := by omega
      omega

/-! ## The degree bound along `insertAll` -/

/-- Every adjacency list of an index built by completed inserts holds at most
`max(MaxEdges, Ef)` entries, when `Ef` is not negative. -/
theorem insertAll_lengths (inputs : List (List ℚ × Int)) {h h' : HNSW}
    (hwf : WellFormed h.Nodes) (hef : 0 ≤ h.Ef)
    (hbound : ∀ p l fs, friendList h.Nodes p l = some fs →
      (fs.length : Int) ≤ max h.MaxEdges h.Ef)
    (hall : insertAll h inputs = .ok h') :
    ∀ p l fs, friendList h'.Nodes p l = some fs → (fs.length : Int) ≤ max h.MaxEdges h.Ef := by
  induction inputs generalizing h with
  | nil => simp only [insertAll, Except.ok.injEq] at hall; subst hall; exact hbound
  | cons x rest ih =>
    obtain ⟨v, l⟩ := x
    unfold insertAll at hall
    split at hall
    · simp at hall
    · next h1 hins =>
      obtain ⟨-, hM1, hEf1⟩ := Insert_shape hins
      obtain ⟨hold, hnew⟩ := Insert_lengths hwf hef hins
      have hbound1 : ∀ p l fs, friendList h1.Nodes p l = some fs →
          (fs.length : Int) ≤ max h1.MaxEdges h1.Ef := by
        intro p k fs hfs
        rw [hM1, hEf1]
        rcases Nat.lt_trichotomy p h.Nodes.length with hp | hp | hp
        · obtain ⟨fs0, hfs0, -, hstep⟩ := hold p k fs hp hfs
          have := hbound p k fs0 hfs0
          exact le_trans hstep (max_le this (le_max_left _ _))
        · subst hp
          exact le_trans (hnew k fs hfs) (le_max_right _ _)
        · have := lt_length_of_friendList hfs
          rw [Insert_length hins] at this
          omega
      have := ih (Insert_wellFormed hwf hins) (by rw [hEf1]; exact hef) hbound1 hall
      rw [hM1, hEf1] at this
      exact this

theorem testIndexGrown_inserted : Insert testIndex [4, 5] 0 = .ok testIndexGrown := by
  decide!

theorem testStore_connected :
    connectNewNode 5 3 0 testStore [0, 1, 2] = .ok testIndexGrown.Nodes := by
  decide!

/-! ## Claims on the pruning rule and on the invariants of a built index -/

theorem sixOnALineIndex_built :
    insertAll (NewHNSW 5 200) (sevenOnALine.take 6) = .ok sixOnALineIndex := by
  decide!

theorem sevenOnALineIndex_inserted :
    Insert sixOnALineIndex [7, 8] 0 = .ok sevenOnALineIndex := by
  decide!

theorem sixOnALineStore_connected :
    connectNewNode 5 6 0 sixOnALineStore [0, 1, 2, 3, 4, 5] = .ok sevenOnALineIndex.Nodes := by
  decide!

/-- C16: for a new node `np`, a layer and a list of distinct candidates, none
of them the new node, a completed `connectNewNode` has treated each candidate
`v` by the pruning rule (append below `MaxEdges` entries; otherwise replace an
entry at maximum distance from `v` when the new node is strictly closer to
`v`, or leave the list unchanged), has appended every candidate to the list of
the new node, has kept the length of every list that had `MaxEdges` entries
or more, and has changed no other list.  On a well-formed store of vectors of
one dimension where the new node and the candidates have the layer,
`connectNewNode` completes. -/
theorem C16_pruning_rule (maxEdges : Int) (np : Nat) (level : Int) (store : List Node)
    (neighbors : List Nat) (hnd : neighbors.Nodup) (hne : ∀ v ∈ neighbors, v ≠ np) :
    (∀ store', connectNewNode maxEdges np level store neighbors = .ok store' →
      (∀ nfs, friendList store np level.toNat = some nfs →
        friendList store' np level.toNat = some (nfs ++ neighbors)) ∧
      (∀ v ∈ neighbors, ∃ fs fs', friendList store v level.toNat = some fs ∧
        friendList store' v level.toNat = some fs' ∧ PruneRule store maxEdges np v fs fs' ∧
        (maxEdges ≤ fs.length → fs'.length = fs.length)) ∧
      (∀ q k, ¬ (q = np ∧ k = level.toNat) → ¬ (q ∈ neighbors ∧ k = level.toNat) →
        friendList store' q k = friendList store q k)) ∧
    (∀ D : Nat, WellFormed store → (∀ n ∈ store, n.Vector.length = D) → 0 ≤ level →
      (friendList store np level.toNat).isSome →
      (∀ v ∈ neighbors, (friendList store v level.toNat).isSome) →
      ∃ store', connectNewNode maxEdges np level store neighbors = .ok store') := by
  constructor
  · intro store' h
    obtain ⟨h1, h2, h3⟩ := connectNewNode_rule neighbors hne hnd h
    refine ⟨h1, ?_, h3⟩
    intro v hv
    obtain ⟨fs, fs', hfs, hfs', hrule⟩ := h2 v hv
    exact ⟨fs, fs', hfs, hfs', hrule, fun hM => (pruneRule_lenStep hrule).2 (by omega)⟩
  · intro D hwf hdim hlevel hnp hnb
    exact connectNewNode_total neighbors hwf hdim hlevel hnp (fun v hv => ⟨hne v hv, hnb v hv⟩)

/-- C16 (witness): the six nodes of `sixOnALineIndex`, each with a full list
(`MaxEdges = 5`), as candidates for the seventh node `[7, 8]` on layer 0.  For
nodes 4 and 5 the new node replaces the farthest entry, node 0; for nodes 0 to
3 the new node is not closer than the farthest entry and the list is left
unchanged. -/
theorem C16_pruning_rule_witness :
    [0, 1, 2, 3, 4, 5].Nodup ∧ (∀ v ∈ [0, 1, 2, 3, 4, 5], v ≠ 6) ∧
    connectNewNode 5 6 0 sixOnALineStore [0, 1, 2, 3, 4, 5] = .ok sevenOnALineIndex.Nodes ∧
    friendList sixOnALineStore 4 0 = some [0, 1, 2, 3, 5] ∧
    friendList sevenOnALineIndex.Nodes 4 0 = some [6, 1, 2, 3, 5] ∧
    friendList sixOnALineStore 3 0 = some [0, 1, 2, 4, 5] ∧
    friendList sevenOnALineIndex.Nodes 3 0 = some [0, 1, 2, 4, 5] ∧
    (∀ nfs, friendList sixOnALineStore 6 (0 : Int).toNat = some nfs →
        friendList sevenOnALineIndex.Nodes 6 (0 : Int).toNat
          = some (nfs ++ [0, 1, 2, 3, 4, 5])) ∧
    (∀ v ∈ [0, 1, 2, 3, 4, 5], ∃ fs fs',
        friendList sixOnALineStore v (0 : Int).toNat = some fs ∧
        friendList sevenOnALineIndex.Nodes v (0 : Int).toNat = some fs' ∧
        PruneRule sixOnALineStore 5 6 v fs fs' ∧
        ((5 : Int) ≤ fs.length → fs'.length = fs.length)) ∧
    (∀ q k, ¬ (q = 6 ∧ k = (0 : Int).toNat) →
        ¬ (q ∈ [0, 1, 2, 3, 4, 5] ∧ k = (0 : Int).toNat) →
        friendList sevenOnALineIndex.Nodes q k = friendList sixOnALineStore q k) :=
  ⟨by decide, by decide, sixOnALineStore_connected, by decide, by decide, by decide, by decide,
    (C16_pruning_rule 5 6 0 sixOnALineStore [0, 1, 2, 3, 4, 5] (by decide) (by decide)).1
      sevenOnALineIndex.Nodes sixOnALineStore_connected⟩

/-- C19 (counterexample): `NewHNSW(5, -1)` and one insert at level 0.  The
list of the new node holds 0 entries, which is more than `ef = -1`. -/
theorem C19_new_node_exceeds_negative_ef :
    levelDrawable 5 0 ∧
    Insert (NewHNSW 5 (-1)) [1, 2] 0
      = .ok { Nodes := [{ ID := 0, Vector := [1, 2], Friends := [[]] }],
              MaxEdges := 5, Ef := -1 } ∧
    friendList [{ ID := 0, Vector := [1, 2], Friends := [[]] }] 0 0 = some [] ∧
    ¬ ((([] : List Nat).length : Int) ≤ -1) := by
  decide!

/-- C19 (amended): with `ef ≥ 0`, in every index built from `NewHNSW(M, ef)`
by completed inserts every adjacency list holds at most `max(M, ef)` entries;
in a further completed `Insert` the new node receives at most `ef` friends on
each layer, and a list that holds `M` entries or more keeps its length. -/
theorem C19_actual_degree_bound (maxEdges ef : Int) (inputs : List (List ℚ × Int))
    (h h' : HNSW) (vector : List ℚ) (level : Int)
    (hbuild : insertAll (NewHNSW maxEdges ef) inputs = .ok h)
    (hnext : Insert h vector level = .ok h') (hef : 0 ≤ ef) :
    (∀ p l fs, friendList h.Nodes p l = some fs → (fs.length : Int) ≤ max maxEdges ef) ∧
    (∀ p l fs, friendList h'.Nodes p l = some fs → (fs.length : Int) ≤ max maxEdges ef) ∧
    (∀ l fs, friendList h'.Nodes h.Nodes.length l = some fs → (fs.length : Int) ≤ ef) ∧
    (∀ p l fs fs', friendList h.Nodes p l = some fs → friendList h'.Nodes p l = some fs' →
      maxEdges ≤ fs.length → fs'.length = fs.length) := by
  obtain ⟨-, hM, hEf, -, -⟩ := insertAll_nodes inputs hbuild
  simp only [NewHNSW] at hM hEf
  have hwf : WellFormed h.Nodes := insertAll_wellFormed inputs wellFormed_nil hbuild
  have hboundh : ∀ p l fs, friendList h.Nodes p l = some fs →
      (fs.length : Int) ≤ max maxEdges ef :=
    insertAll_lengths inputs (h := NewHNSW maxEdges ef) wellFormed_nil hef
      (fun p l fs hfs => by simp [friendList, NewHNSW] at hfs) hbuild
  have hall' : insertAll h [(vector, level)] = .ok h' := by
    simp [insertAll, hnext]
  have hboundh' := insertAll_lengths [(vector, level)] hwf (by rw [hEf]; exact hef)
    (by rw [hM, hEf]; exact hboundh) hall'
  rw [hM, hEf] at hboundh'
  obtain ⟨hold, hnew⟩ := Insert_lengths hwf (by rw [hEf]; exact hef) hnext
  rw [hEf] at hnew
  rw [hM] at hold
  refine ⟨hboundh, hboundh', hnew, ?_⟩
  intro p l fs fs' hfs hfs' hfull
  obtain ⟨fs0, hfs0, hle, hmax⟩ := hold p l fs' (lt_length_of_friendList hfs) hfs'
  rw [hfs] at hfs0
  cases hfs0
  have : (fs'.length : Int) ≤ fs.length := le_trans hmax (max_le (le_refl _) hfull)
  omega

/-- C19 (witness): the index of six points on a line, in which every list
holds `M = 5` entries, and the insert of `[7, 8]` at level 0: the new node
receives 6 friends, and the six full lists keep their length. -/
theorem C19_actual_degree_bound_witness :
    insertAll (NewHNSW 5 200) (sevenOnALine.take 6) = .ok sixOnALineIndex ∧
    Insert sixOnALineIndex [7, 8] 0 = .ok sevenOnALineIndex ∧ (0 : Int) ≤ 200 ∧
    friendList sixOnALineIndex.Nodes 4 0 = some [0, 1, 2, 3, 5] ∧
    friendList sevenOnALineIndex.Nodes 4 0 = some [6, 1, 2, 3, 5] ∧
    (∀ p l fs, friendList sixOnALineIndex.Nodes p l = some fs →
      (fs.length : Int) ≤ max 5 200) ∧
    (∀ p l fs, friendList sevenOnALineIndex.Nodes p l = some fs →
      (fs.length : Int) ≤ max 5 200) ∧
    (∀ l fs, friendList sevenOnALineIndex.Nodes sixOnALineIndex.Nodes.length l = some fs →
      (fs.length : Int) ≤ 200) ∧
    (∀ p l fs fs', friendList sixOnALineIndex.Nodes p l = some fs →
      friendList sevenOnALineIndex.Nodes p l = some fs' →
      (5 : Int) ≤ fs.length → fs'.length = fs.length) :=
  ⟨sixOnALineIndex_built, sevenOnALineIndex_inserted, by decide, by decide, by decide,
    C19_actual_degree_bound 5 200 (sevenOnALine.take 6) sixOnALineIndex sevenOnALineIndex
      [7, 8] 0 sixOnALineIndex_built sevenOnALineIndex_inserted (by decide)⟩

/-- C20 (counterexample): `NewHNSW(1, 200)` draws `int(+Inf)` as the level of
every node.  The first `Insert` completes and stores a node without layers,
and `Search` on that index stops with an index-out-of-range error at
`candidate.Friends[0]`. -/
theorem C20_search_on_layerless_entry_faults :
    levelDrawable 1 intOfNonFinite ∧
    insertAll (NewHNSW 1 200) [([1, 2], intOfNonFinite)]
      = .ok { Nodes := [{ ID := 0, Vector := [1, 2], Friends := [] }],
              MaxEdges := 1, Ef := 200 } ∧
    Search { Nodes := [{ ID := 0, Vector := [1, 2], Friends := [] }],
             MaxEdges := 1, Ef := 200 } [1, 2] 1 = .error .indexOutOfRange := by
  decide!

/-- C20 (amended): in every index built by completed inserts every node
listed in some `Friends[l]` has more than `l` layers; and when the index is
not empty, its vectors and the query have one dimension `D`, the levels drawn
are `≥ 0` and `1 ≤ k ≤ 2^45`, `Search` completes with a result (no layer
lookup and no `[0]` on a beam-1 result is out of range) and hands the index
back unchanged. -/
theorem C20_search_stays_in_range (maxEdges ef : Int) (inputs : List (List ℚ × Int))
    (h : HNSW) (D : Nat) (query : List ℚ) (k : Int)
    (hbuild : insertAll (NewHNSW maxEdges ef) inputs = .ok h) (hne : inputs ≠ [])
    (hdim : ∀ x ∈ inputs, x.1.length = D) (hlev : ∀ x ∈ inputs, 0 ≤ x.2)
    (hq : query.length = D) (hk : 1 ≤ k) (hcap : k ≤ maxSliceCap) :
    (∀ (p l : Nat) (n : Node) (fs : List Nat) (f : Nat), h.Nodes[p]? = some n →
      n.Friends[l]? = some fs → f ∈ fs → ∃ m, h.Nodes[f]? = some m ∧ l < m.Friends.length) ∧
    ∃ out, Search h query k = .ok out ∧ SearchStep h query k = .ok (out, h) := by
  obtain ⟨hlen, hnodes⟩ := built_nodes hbuild
  have hwf : WellFormed h.Nodes := insertAll_wellFormed inputs wellFormed_nil hbuild
  constructor
  · intro p l n fs f hn hfs hf
    obtain ⟨gs, hgs⟩ := Option.isSome_iff_exists.1
      (hwf p l fs f (friendList_eq_some.2 ⟨n, hn, hfs⟩) hf).2
    obtain ⟨m, hm, hl⟩ := friendList_eq_some.1 hgs
    exact ⟨m, hm, (List.getElem?_eq_some_iff.1 hl).1⟩
  · have hpos : 0 < inputs.length := List.length_pos.2 hne
    obtain ⟨n0, hn0, -, -, hd0⟩ := hnodes 0 hpos
    have hdepth : 0 < n0.Friends.length := by
      have := hlev _ (List.getElem_mem hpos)
      omega
    have hdim' : ∀ n ∈ h.Nodes, query.length ≤ n.Vector.length := by
      intro n hn
      obtain ⟨i, hi⟩ := List.mem_iff_getElem?.1 hn
      have hlt : i < inputs.length := hlen ▸ (List.getElem?_eq_some_iff.1 hi).1
      obtain ⟨n', hn', -, hv, -⟩ := hnodes i hlt
      rw [hi] at hn'
      cases hn'
      rw [hv, hdim _ (List.getElem_mem hlt), hq]
    obtain ⟨out, hout, -⟩ := Search_total hwf hn0 hdepth hdim' hk hcap
    exact ⟨out, hout, by simp [SearchStep, hout]⟩

/-- C20 (witness): the index of the test data set, query `[2, 2.5]`,
`k = 1`. -/
theorem C20_search_stays_in_range_witness :
    insertAll (NewHNSW 5 200) testVectors = .ok testIndex ∧
    (∀ (p l : Nat) (n : Node) (fs : List Nat) (f : Nat), testIndex.Nodes[p]? = some n →
      n.Friends[l]? = some fs → f ∈ fs →
      ∃ m, testIndex.Nodes[f]? = some m ∧ l < m.Friends.length) ∧
    ∃ out, Search testIndex [2, 2.5] 1 = .ok out ∧
      SearchStep testIndex [2, 2.5] 1 = .ok (out, testIndex) :=
  ⟨testIndex_built,
    C20_search_stays_in_range 5 200 testVectors testIndex 2 [2, 2.5] 1 testIndex_built
      (by simp [testVectors]) (by simp [testVectors]) (by simp [testVectors])
      (by simp) (by decide) (by decide)⟩

/-! ## A search whose beam is never full finds every neighbour of its entry -/

theorem uniqueIDs_of_idPos {store : List Node} (h : IdPos store) : UniqueIDs store := by
  intro p q n m hn hm hnm
  rw [← h p n hn, ← h q m hm, hnm]

theorem idPos_of_shape_eq {store store' : List Node}
    (hs : store'.map shape = store.map shape) (h : IdPos store) : IdPos store' := by
  intro p n hn
  have := getElem?_of_shape_eq hs p
  rw [hn] at this
  cases hp : store[p]? with
  | none => rw [hp] at this; simp at this
  | some m =>
    rw [hp] at this
    simp only [Option.map_some', Option.some.injEq, shape, Prod.mk.injEq] at this
    rw [this.1]
    exact h p m hp

theorem truncate_of_le {ef : Int} {results : List Nat} (h : (results.length : Int) ≤ ef) :
    truncate ef results = results := by
  unfold truncate
  rw [if_neg (by omega)]

/-- When the beam is wider than any list of distinct nodes of a set that is
closed under the edges of the layer, every visited node is kept: the result
holds the entry point and all its friends on the layer. -/
theorem searchLayer_exhaustive {store : List Node} {e : Nat} {query : List ℚ}
    {ef layer : Int} {out : List Nat} (huniq : UniqueIDs store) (P : Nat → Prop) (he : P e)
    (hclosed : ∀ c cn fs f, P c → store[c]? = some cn → friendsAt cn layer = .ok fs →
      f ∈ fs → P f)
    (hbound : ∀ l : List Nat, l.Nodup → (∀ p ∈ l, P p) → (l.length : Int) ≤ ef)
    (h : searchLayer store e query ef layer = .ok out) :
    e ∈ out ∧ ∀ en fs, store[e]? = some en → friendsAt en layer = .ok fs →
      ∀ f ∈ fs, f ∈ out := by
  obtain ⟨st, popped, htr, hout⟩ := searchLayerTrace_of_ok h
  obtain ⟨-, -, -, -, hepop, hexp, hids⟩ := searchLayerTrace_facts htr
  obtain ⟨en, hen, -, hloop⟩ := searchLayerTrace_eq_ok htr
  have key := searchLoopTrace_rule
    (fun s _ => (∀ p ∈ s.candidates, P p) ∧ s.results.Nodup ∧ (∀ p ∈ s.results, P p) ∧
      (∀ p ∈ s.results, ∃ n, store[p]? = some n ∧ n.ID ∈ s.visited) ∧
      (∀ p n, store[p]? = some n → n.ID ∈ s.visited → p ∈ s.results))
    (fun c s _ => P c ∧ (∀ p ∈ s.candidates, P p) ∧ s.results.Nodup ∧
      (∀ p ∈ s.results, P p) ∧
      (∀ p ∈ s.results, ∃ n, store[p]? = some n ∧ n.ID ∈ s.visited) ∧
      (∀ p n, store[p]? = some n → n.ID ∈ s.visited → p ∈ s.results))
    (fun c cs v r pp hI => ⟨hI.1 c (List.mem_cons_self _ _),
      fun p hp => hI.1 p (List.mem_cons_of_mem _ hp), hI.2⟩)
    (fun c cn fs f s s' pp hcn hfs hf hJ hv => by
      obtain ⟨hPc, hcand, hnd, hresP, hresV, hvisR⟩ := hJ
      have hPf : P f := hclosed c cn fs f hPc hcn hfs hf
      obtain ⟨fn, hfn, hcase⟩ := visitFriend_full hv
      have hfull : fn.ID ∉ s.visited → (s.results.length : Int) < ef := by
        intro hnv
        have hfresh : f ∉ s.results := by
          intro hmem
          obtain ⟨n, hn, hnv'⟩ := hresV f hmem
          rw [hfn] at hn
          cases hn
          exact hnv hnv'
        have := hbound (f :: s.results) (List.nodup_cons.2 ⟨hfresh, hnd⟩) (by
          intro p hp
          rcases List.mem_cons.1 hp with rfl | hp
          · exact hPf
          · exact hresP p hp)
        simp only [List.length_cons, Nat.cast_add, Nat.cast_one] at this
        omega
      rcases hcase with ⟨-, rfl⟩ | ⟨hnv, -, rfl⟩ | ⟨hnv, hge, -⟩
      · exact ⟨hPc, hcand, hnd, hresP, hresV, hvisR⟩
      · have hfresh : f ∉ s.results := by
          intro hmem
          obtain ⟨n, hn, hnv'⟩ := hresV f hmem
          rw [hfn] at hn
          cases hn
          exact hnv hnv'
        refine ⟨hPc, ?_, ?_, ?_, ?_, ?_⟩
        · intro p hp
          rcases List.mem_append.1 hp with hp | hp
          · exact hcand p hp
          · simp only [List.mem_singleton] at hp
            exact hp ▸ hPf
        · refine List.Nodup.append hnd (List.nodup_singleton f) ?_
          simp only [List.Disjoint, List.mem_singleton]
          intro a ha hfa
          exact hfresh (hfa ▸ ha)
        · intro p hp
          rcases List.mem_append.1 hp with hp | hp
          · exact hresP p hp
          · simp only [List.mem_singleton] at hp
            exact hp ▸ hPf
        · intro p hp
          rcases List.mem_append.1 hp with hp | hp
          · obtain ⟨n, hn, hnv'⟩ := hresV p hp
            exact ⟨n, hn, List.mem_cons_of_mem _ hnv'⟩
          · simp only [List.mem_singleton] at hp
            subst hp
            exact ⟨fn, hfn, List.mem_cons_self _ _⟩
        · intro p n hn hmem
          rcases List.mem_cons.1 hmem with hid | hmem
          · have hpf : p = f := huniq p f n fn hn hfn hid
            subst hpf
            simp
          · exact List.mem_append_left _ (hvisR p n hn hmem)
      · exact absurd (hfull hnv) hge)
    (fun c s pp hJ _ => hJ.2)
    (store.length + 1) ⟨[e], [en.ID], [e]⟩ []
    ⟨fun p hp => by simp at hp; exact hp ▸ he, by simp,
      fun p hp => by simp at hp; exact hp ▸ he,
      fun p hp => by simp at hp; subst hp; exact ⟨en, hen, by simp⟩,
      fun p n hn hmem => by
        simp only [List.mem_singleton] at hmem
        have hpe : p = e := huniq p e n en hn hen hmem
        subst hpe
        simp⟩ hloop
  obtain ⟨⟨-, hnd, hresP, -, hvisR⟩, -⟩ := key
  have htrunc : out = st.results := by
    rw [hout]
    exact truncate_of_le (hbound _ hnd hresP)
  subst htrunc
  constructor
  · obtain ⟨n, hn, hvis⟩ := hids e hepop
    exact hvisR e n hn hvis
  · intro en' fs hen' hfs f hf
    obtain ⟨fn, hfn, hvis⟩ := hexp e hepop en' fs hen' hfs f hf
    exact hvisR f fn hfn hvis

/-! ## Small indexes are complete graphs on layer 0 -/

theorem grows_refl (store : List Node) : Grows store store :=
  fun _ _ gs hgs => ⟨gs, hgs, fun _ hx => hx⟩

theorem grows_trans {a b c : List Node} (hab : Grows a b) (hbc : Grows b c) : Grows a c := by
  intro q k gs hgs
  obtain ⟨gs1, hgs1, h1⟩ := hab q k gs hgs
  obtain ⟨gs2, hgs2, h2⟩ := hbc q k gs1 hgs1
  exact ⟨gs2, hgs2, fun x hx => h2 x (h1 x hx)⟩

theorem completeBelow_of_grows {bound : Nat} {store store' : List Node}
    (hg : Grows store store') (hc : CompleteBelow bound store) : CompleteBelow bound store' := by
  intro p q hp hq hpq
  obtain ⟨fs, hfs, hmem⟩ := hc p q hp hq hpq
  obtain ⟨fs', hfs', hsub⟩ := hg p 0 fs hfs
  exact ⟨fs', hfs', hsub q hmem⟩

/-- In a small store `connectOne` only adds: every list grows, and the new
node and the neighbour list each other afterwards. -/
theorem connectOne_small_grows {maxEdges : Int} {np : Nat} {level : Int}
    {store store' : List Node} {nb : Nat} (hne : nb ≠ np)
    (hlen : store.length = np + 1) (hM : (np : Int) ≤ maxEdges)
    (hwf : WellFormed store) (hmut : Mutual store) (hnd : NoRepeat store)
    (hfresh : ∀ nfs, friendList store np level.toNat = some nfs → nb ∉ nfs)
    (h : connectOne maxEdges np level store nb = .ok store') :
    Grows store store' ∧
      (∃ gs, friendList store' nb level.toNat = some gs ∧ np ∈ gs) ∧
      (∃ gs, friendList store' np level.toNat = some gs ∧ nb ∈ gs) := by
  obtain ⟨fs, nfs, hfs, hnfs, hnp, hnb, hall⟩ :=
    connectOne_small hne hlen hM hwf hmut hnd hfresh h
  refine ⟨?_, ⟨fs ++ [np], by rw [hall]; simp [hne], by simp⟩,
    ⟨nfs ++ [nb], by rw [hall]; simp, by simp⟩⟩
  intro q k gs hgs
  rw [hall]
  split
  · next hq =>
    obtain ⟨rfl, rfl⟩ := hq
    rw [hnfs] at hgs; cases hgs
    exact ⟨_, rfl, fun x hx => List.mem_append_left _ hx⟩
  · split
    · next hq =>
      obtain ⟨rfl, rfl⟩ := hq
      rw [hfs] at hgs; cases hgs
      exact ⟨_, rfl, fun x hx => List.mem_append_left _ hx⟩
    · exact ⟨gs, hgs, fun x hx => hx⟩

theorem connectNewNode_small_grows {maxEdges : Int} {np : Nat} {level : Int}
    (neighbors : List Nat) {store store' : List Node}
    (hne : ∀ nb ∈ neighbors, nb ≠ np) (hnodup : neighbors.Nodup)
    (hlen : store.length = np + 1) (hM : (np : Int) ≤ maxEdges)
    (hwf : WellFormed store) (hmut : Mutual store) (hnd : NoRepeat store)
    (hfresh : ∀ nb ∈ neighbors, ∀ nfs, friendList store np level.toNat = some nfs → nb ∉ nfs)
    (h : connectNewNode maxEdges np level store neighbors = .ok store') :
    Grows store store' ∧ ∀ nb ∈ neighbors,
      (∃ gs, friendList store' nb level.toNat = some gs ∧ np ∈ gs) ∧
      (∃ gs, friendList store' np level.toNat = some gs ∧ nb ∈ gs) := by
  induction neighbors generalizing store with
  | nil =>
    simp [connectNewNode] at h; subst h
    exact ⟨grows_refl _, fun nb hnb => absurd hnb (List.not_mem_nil _)⟩
  | cons nb rest ih =>
    unfold connectNewNode at h
    split at h
    · simp at h
    · next store1 h1 =>
      have hnb := hne nb (List.mem_cons_self _ _)
      obtain ⟨hnbrest, hrest⟩ := List.nodup_cons.1 hnodup
      obtain ⟨hmut1, hnd1, hkeep⟩ := connectOne_small_inv hnb hlen hM hwf hmut hnd
        (hfresh nb (List.mem_cons_self _ _)) h1
      obtain ⟨hg1, ⟨gs1, hgs1, hm1⟩, ⟨gs2, hgs2, hm2⟩⟩ :=
        connectOne_small_grows hnb hlen hM hwf hmut hnd
          (hfresh nb (List.mem_cons_self _ _)) h1
      have hlen1 : store1.length = np + 1 := by
        have := congrArg List.length (connectOne_shape h1)
        simp only [List.length_map] at this
        omega
      obtain ⟨hg, hlinks⟩ := ih (fun x hx => hne x (List.mem_cons_of_mem _ hx)) hrest hlen1
        (connectOne_wellFormed hnb hwf h1) hmut1 hnd1
        (fun r hr => hkeep r (fun hc => hnbrest (hc ▸ hr))
          (hfresh r (List.mem_cons_of_mem _ hr))) h
      refine ⟨grows_trans hg1 hg, ?_⟩
      intro x hx
      rcases List.mem_cons.1 hx with rfl | hx
      · obtain ⟨gs1', hgs1', hsub1⟩ := hg _ _ _ hgs1
        obtain ⟨gs2', hgs2', hsub2⟩ := hg _ _ _ hgs2
        exact ⟨⟨gs1', hgs1', hsub1 _ hm1⟩, ⟨gs2', hgs2', hsub2 _ hm2⟩⟩
      · exact hlinks x hx

/-- The second loop of `Insert` on a small store whose old nodes are pairwise
linked on layer 0: lists only grow, and when the loop reaches layer 0 the new
node ends up linked with every old node there. -/
theorem connectLayers_complete {maxEdges ef : Int} {query : List ℚ} {np ep : Nat}
    (hep : ep ≠ np) (hM : (np : Int) ≤ maxEdges) (hEf : (np : Int) ≤ ef)
    (n : Nat) (cur : Int) {store store' : List Node} (hn : (n : Int) = cur + 1)
    (hlen : store.length = np + 1)
    (hwf : WellFormed store) (hst : Stage np cur store)
    (hmut : Mutual store) (hnd : NoRepeat store) (hid : IdPos store)
    (hc : CompleteBelow np store)
    (h : connectLayers maxEdges ef query np ep n cur store = .ok store') :
    Grows store store' ∧ (0 ≤ cur → ∀ q, q < np →
      (∃ gs, friendList store' q 0 = some gs ∧ np ∈ gs) ∧
      (∃ gs, friendList store' np 0 = some gs ∧ q ∈ gs)) := by
  induction n generalizing cur store with
  | zero =>
    simp [connectLayers] at h; subst h
    exact ⟨grows_refl _, fun h0 => by simp at hn; omega⟩
  | succ n ih =>
    unfold connectLayers at h
    split at h
    · simp at h
    · next neighbors hs =>
      split at h
      · simp at h
      · next store1 h1 =>
        have hcur := searchLayer_layer_nonneg hs
        have hne := searchLayer_ne_newNode hst hep hs
        have hfresh : ∀ nb ∈ neighbors, ∀ nfs,
            friendList store np cur.toNat = some nfs → nb ∉ nfs := by
          intro nb _ nfs hnfs hmem
          obtain ⟨gs, hgs, hnp⟩ := hmut _ _ _ _ hnfs hmem
          have := hst _ _ _ hgs hnp
          rw [Int.toNat_of_nonneg hcur] at this
          exact lt_irrefl _ this
        obtain ⟨hmut1, hnd1⟩ := connectNewNode_small neighbors hne (searchLayer_nodup hs).1
          hlen hM hwf hmut hnd hfresh h1
        obtain ⟨hg1, hlinks⟩ := connectNewNode_small_grows neighbors hne
          (searchLayer_nodup hs).1 hlen hM hwf hmut hnd hfresh h1
        obtain ⟨hwf1, hst1⟩ := connectNewNode_wellFormed neighbors hne hwf
          (hst.mono (by omega)) h1
        have hshape1 := connectNewNode_shape _ h1
        have hlen1 : store1.length = np + 1 := by
          have := congrArg List.length hshape1
          simp only [List.length_map] at this
          omega
        obtain ⟨hg, hlow⟩ := ih (cur - 1) (by push_cast at hn; omega) hlen1 hwf1 hst1 hmut1 hnd1
          (idPos_of_shape_eq hshape1 hid) (completeBelow_of_grows hg1 hc) h
        refine ⟨grows_trans hg1 hg, fun _ q hq => ?_⟩
        by_cases h0 : cur = 0
        · subst h0
          obtain ⟨en, -, hen, -⟩ := searchLayer_eq_ok hs
          have heplt : ep < np := by
            have := (List.getElem?_eq_some_iff.1 hen).1
            omega
          obtain ⟨hein, hfin⟩ := searchLayer_exhaustive (uniqueIDs_of_idPos hid)
            (fun p => p < np) heplt
            (fun c cn fs f _ hcn hfs hf => by
              have hfl : friendList store c 0 = some fs :=
                friendList_eq_some.2 ⟨cn, hcn, by simpa using (friendsAt_eq_ok.1 hfs).2⟩
              obtain ⟨-, hsome⟩ := hwf _ _ _ _ hfl hf
              obtain ⟨gs, hgs⟩ := Option.isSome_iff_exists.1 hsome
              have hflt := lt_length_of_friendList hgs
              have hfne : f ≠ np := by
                intro hc'
                subst hc'
                have := hst _ _ _ hfl hf
                simp at this
              show f < np
              omega)
            (fun l hl hall => by
              have := length_le_of_nodup_of_lt hl hall
              omega) hs
          have hqin : q ∈ neighbors := by
            by_cases hqe : q = ep
            · exact hqe ▸ hein
            · obtain ⟨fs, hfs, hmem⟩ := hc ep q heplt hq (fun hc' => hqe hc'.symm)
              obtain ⟨en', hen', hfs'⟩ := friendList_eq_some.1 hfs
              exact hfin en' fs hen' (friendsAt_eq_ok.2 ⟨le_refl _, by simpa using hfs'⟩) q hmem
          obtain ⟨⟨gs1, hgs1, hm1⟩, ⟨gs2, hgs2, hm2⟩⟩ := hlinks q hqin
          simp only [Int.toNat_zero] at hgs1 hgs2
          obtain ⟨gs1', hgs1', hsub1⟩ := hg _ _ _ hgs1
          obtain ⟨gs2', hgs2', hsub2⟩ := hg _ _ _ hgs2
          exact ⟨⟨gs1', hgs1', hsub1 _ hm1⟩, ⟨gs2', hgs2', hsub2 _ hm2⟩⟩
        · exact hlow (by omega) q hq

theorem idPos_append_fresh {store : List Node} (hid : IdPos store) (vector : List ℚ)
    (level : Int) : IdPos (store ++ [freshNode store.length vector level]) := by
  intro p n hn
  rcases Nat.lt_trichotomy p store.length with hp | hp | hp
  · rw [List.getElem?_append_left hp] at hn
    exact hid p n hn
  · subst hp
    simp at hn
    subst hn
    rfl
  · rw [List.getElem?_eq_none (by simp; omega)] at hn
    cases hn

/-- One insert with a non-negative level into a small complete index leaves a
complete index. -/
theorem Insert_complete {h h' : HNSW} {vector : List ℚ} {level : Int}
    (hM : (h.Nodes.length : Int) ≤ h.MaxEdges) (hEf : (h.Nodes.length : Int) ≤ h.Ef)
    (hlev : 0 ≤ level)
    (hwf : WellFormed h.Nodes) (hmut : Mutual h.Nodes) (hnd : NoRepeat h.Nodes)
    (hid : IdPos h.Nodes) (hc : CompleteBelow h.Nodes.length h.Nodes)
    (hins : Insert h vector level = .ok h') :
    IdPos h'.Nodes ∧ CompleteBelow h'.Nodes.length h'.Nodes := by
  obtain ⟨hwf0, hst0⟩ := wellFormed_append_fresh hwf h.Nodes.length vector level
  obtain ⟨hmut0, hnd0⟩ := small_append_fresh hmut hnd h.Nodes.length vector level
  have hid0 := idPos_append_fresh hid vector level
  have hlen' := Insert_length hins
  by_cases hne : h.Nodes.length = 0
  · unfold Insert at hins
    simp only [if_pos hne, Except.ok.injEq] at hins
    subst hins
    refine ⟨hid0, ?_⟩
    intro p q hp hq hpq
    simp only [List.length_append, List.length_singleton, hne] at hp hq
    omega
  · obtain ⟨entry, ep, store1, -, hep, hs, rfl⟩ := Insert_eq_ok hne hins
    have hep' : ep ≠ h.Nodes.length :=
      descend_ne_newNode hst0 _ _ 0 (by omega) hep
    have hc0 : CompleteBelow h.Nodes.length
        (h.Nodes ++ [freshNode h.Nodes.length vector level]) := by
      intro p q hp hq hpq
      rw [friendList_append_left hp]
      exact hc p q hp hq hpq
    obtain ⟨hg, hlow⟩ := connectLayers_complete hep' hM hEf _ _
      (by rw [Int.toNat_of_nonneg (by omega)]) (by simp) hwf0 (hst0 level) hmut0 hnd0 hid0
      hc0 hs
    refine ⟨idPos_of_shape_eq (connectLayers_shape _ _ hs) hid0, ?_⟩
    have hc1 := completeBelow_of_grows hg hc0
    simp only at hlen' ⊢
    intro p q hp hq hpq
    rw [hlen'] at hp hq
    by_cases hpn : p = h.Nodes.length
    · subst hpn
      exact (hlow hlev q (by omega)).2
    · by_cases hqn : q = h.Nodes.length
      · subst hqn
        exact (hlow hlev p (by omega)).1
      · exact hc1 p q (by omega) (by omega) hpq

theorem insertAll_complete (inputs : List (List ℚ × Int)) {h h' : HNSW}
    (hM : (h.Nodes.length : Int) + inputs.length ≤ h.MaxEdges + 1)
    (hEf : (h.Nodes.length : Int) + inputs.length ≤ h.Ef)
    (hlev : ∀ x ∈ inputs, 0 ≤ x.2)
    (hwf : WellFormed h.Nodes) (hmut : Mutual h.Nodes) (hnd : NoRepeat h.Nodes)
    (hid : IdPos h.Nodes) (hc : CompleteBelow h.Nodes.length h.Nodes)
    (hall : insertAll h inputs = .ok h') :
    CompleteBelow h'.Nodes.length h'.Nodes := by
  induction inputs generalizing h with
  | nil => simp [insertAll] at hall; subst hall; exact hc
  | cons x rest ih =>
    obtain ⟨v, l⟩ := x
    unfold insertAll at hall
    split at hall
    · simp at hall
    · next h1 hins =>
      simp only [List.length_cons, Nat.cast_add, Nat.cast_one] at hM hEf
      have hl : 0 ≤ l := hlev (v, l) (List.mem_cons_self _ _)
      obtain ⟨hmut1, hnd1⟩ := Insert_small (by omega) hwf hmut hnd hins
      obtain ⟨hid1, hc1⟩ := Insert_complete (by omega) (by omega) hl hwf hmut hnd hid hc hins
      obtain ⟨-, hM1, hEf1⟩ := Insert_shape hins
      have hlen1 := Insert_length hins
      exact ih (by rw [hlen1, hM1]; push_cast; omega) (by rw [hlen1, hEf1]; push_cast; omega)
        (fun y hy => hlev y (List.mem_cons_of_mem _ hy)) (Insert_wellFormed hwf hins)
        hmut1 hnd1 hid1 hc1 hall

/-! ## Beam 1 on a complete layer finds the global minimum -/

/-- A beam-1 search ends on a node none of whose neighbours on the layer is
closer to the query. -/
theorem searchLayer_local_minimum {store : List Node} {e : Nat} {query : List ℚ}
    {layer : Int} (huniq : UniqueIDs store)
    (hreach : ∀ p, Reach store layer e p → ∃ n fs d, store[p]? = some n ∧
      friendsAt n layer = .ok fs ∧ EuclideanDistance query n.Vector = .ok d) :
    ∃ r dr, searchLayer store e query 1 layer = .ok [r] ∧
      distanceTo store query r = .ok dr ∧
      (∀ rn fs, store[r]? = some rn → friendsAt rn layer = .ok fs →
        ∀ f ∈ fs, ∃ df, distanceTo store query f = .ok df ∧ dr ≤ df) := by
  have hex := explorable_of_reach hreach
  obtain ⟨out, hout⟩ := searchLayer_total 1 hex Reach.entry (by decide) one_le_maxSliceCap
  obtain ⟨st, popped, htr, hout'⟩ := searchLayerTrace_of_ok hout
  obtain ⟨-, -, -, hres, -, hexp, -⟩ := searchLayerTrace_facts htr
  obtain ⟨r, hr, hmin⟩ := searchLayerTrace_greedy huniq htr
  have hvisP := searchLayerTrace_visited_mem huniq (Reach store layer e) Reach.entry
    (fun _ _ _ _ hc hcn hfs hf => Reach.edge hc hcn hfs hf) htr
  have houtr : out = [r] := by rw [hout', hr]; simp [truncate]
  subst houtr
  have hPr : Reach store layer e r := searchLayer_reach hout r (List.mem_singleton_self r)
  obtain ⟨dr, hdr⟩ := distanceTo_of_explorable hex hPr
  refine ⟨r, dr, hout, hdr, ?_⟩
  intro rn fs hrn hfs f hf
  have hrpop : r ∈ popped := hres r (by rw [hr]; exact List.mem_singleton_self r)
  obtain ⟨fn, hfn, hvis⟩ := hexp r hrpop rn fs hrn hfs f hf
  obtain ⟨df, hdf⟩ := distanceTo_of_explorable hex (hvisP f fn hfn hvis)
  exact ⟨df, hdf, hmin f fn df dr hfn hvis hdf hdr⟩

/-- On an index whose layer 0 is a complete graph, `Search` with `k = 1`
returns a node at minimum distance from the query. -/
theorem Search_nearest_of_complete {h : HNSW} {query : List ℚ} {n0 : Node}
    (hwf : WellFormed h.Nodes) (huniq : UniqueIDs h.Nodes)
    (hn0 : h.Nodes[0]? = some n0) (hdepth : 0 < n0.Friends.length)
    (hdim : ∀ n ∈ h.Nodes, query.length ≤ n.Vector.length)
    (hc : CompleteBelow h.Nodes.length h.Nodes) :
    ∃ r dr, Search h query 1 = .ok [r] ∧ r < h.Nodes.length ∧
      distanceTo h.Nodes query r = .ok dr ∧
      ∀ p, p < h.Nodes.length → ∃ dp, distanceTo h.Nodes query p = .ok dp ∧ dr ≤ dp := by
  have htop : (0 : Int) ≤ (n0.Friends.length : Int) - 1 := by omega
  have he : (friendList h.Nodes 0 ((n0.Friends.length : Int) - 1).toNat).isSome := by
    have hlt : ((n0.Friends.length : Int) - 1).toNat < n0.Friends.length := by omega
    have : friendList h.Nodes 0 ((n0.Friends.length : Int) - 1).toNat
        = some (n0.Friends[((n0.Friends.length : Int) - 1).toNat]) :=
      friendList_eq_some.2 ⟨n0, hn0, List.getElem?_eq_getElem hlt⟩
    rw [this]; rfl
  obtain ⟨ep, hep, hlay⟩ := descend_total hwf hdim ((n0.Friends.length : Int) - 1).toNat
    ((n0.Friends.length : Int) - 1) 0 (by omega) he
  have hlay0 : (friendList h.Nodes ep (0 : Int).toNat).isSome := by
    have : ((n0.Friends.length : Int) - 1 - (((n0.Friends.length : Int) - 1).toNat : Int)).toNat
        = (0 : Int).toNat := by
      rw [Int.toNat_of_nonneg htop]; simp
    rwa [this] at hlay
  obtain ⟨r, dr, hout, hdr, hloc⟩ := searchLayer_local_minimum huniq
    (reach_typed_of_wellFormed hwf hdim (le_refl 0) hlay0)
  have hrlt : r < h.Nodes.length :=
    (searchLayer_nodup hout).2 r (List.mem_singleton_self r)
  refine ⟨r, dr, by unfold Search; simp only [hn0, hep, hout], hrlt, hdr, ?_⟩
  intro p hp
  by_cases hpr : p = r
  · subst hpr
    exact ⟨dr, hdr, le_refl _⟩
  · obtain ⟨fs, hfs, hmem⟩ := hc r p hrlt hp (fun hc' => hpr hc'.symm)
    obtain ⟨rn, hrn, hfs'⟩ := friendList_eq_some.1 hfs
    exact hloc rn fs hrn (friendsAt_eq_ok.2 ⟨le_refl _, by simpa using hfs'⟩) p hmem

/-- Every index built by at most `M + 1` and at most `ef` completed inserts
at non-negative levels is a complete graph on layer 0. -/
theorem built_complete {maxEdges ef : Int} {inputs : List (List ℚ × Int)} {h : HNSW}
    (hbuild : insertAll (NewHNSW maxEdges ef) inputs = .ok h)
    (hsmall : (inputs.length : Int) ≤ maxEdges + 1) (hef : (inputs.length : Int) ≤ ef)
    (hlev : ∀ x ∈ inputs, 0 ≤ x.2) : CompleteBelow h.Nodes.length h.Nodes :=
  insertAll_complete inputs (by simpa [NewHNSW] using hsmall) (by simpa [NewHNSW] using hef)
    hlev wellFormed_nil
    (fun p l fs f hfs => by simp [friendList, NewHNSW] at hfs)
    (fun p l fs hfs => by simp [friendList, NewHNSW] at hfs)
    (fun p n hn => by simp [NewHNSW] at hn)
    (fun p q hp => by simp [NewHNSW] at hp) hbuild

/-- C11 (counterexample): on the index of `TestSearchNearestNeighbor`
(`M = 5`, `ef = 200`, three inserts) `Search` with the query `[2, 2.5, 1]`,
one coordinate longer than the vectors, stops with an index-out-of-range error
inside `EuclideanDistance`; and with `NewHNSW(1, 200)`, whose only drawable
level is `int(+Inf)`, the first insert stores a node without layers and
`Search` stops with an index-out-of-range error at `Friends[0]`. -/
theorem C11_search_faults_on_untyped_inputs :
    insertAll (NewHNSW 5 200) testVectors = .ok testIndex ∧
    Search testIndex [2, 2.5, 1] 1 = .error .indexOutOfRange ∧
    levelDrawable 1 intOfNonFinite ∧
    insertAll (NewHNSW 1 200) [([1, 2], intOfNonFinite)]
      = .ok { Nodes := [{ ID := 0, Vector := [1, 2], Friends := [] }],
              MaxEdges := 1, Ef := 200 } ∧
    Search { Nodes := [{ ID := 0, Vector := [1, 2], Friends := [] }],
             MaxEdges := 1, Ef := 200 } [3, 4] 1 = .error .indexOutOfRange := by
  decide!

/-- C11 (amended): for every index built from `NewHNSW(M, ef)` by `n` completed
inserts with `1 ≤ n ≤ M + 1` and `ef ≥ n`, of vectors of one dimension `D` at
drawn levels `≥ 0`, and every query of dimension `D`, `Search(q, 1)` returns
exactly one node, and its distance to the query, computed exactly, is the
minimum over all inserted vectors. -/
theorem C11_exact_nearest_small_index (maxEdges ef : Int) (inputs : List (List ℚ × Int))
    (h : HNSW) (D : Nat) (query : List ℚ)
    (hbuild : insertAll (NewHNSW maxEdges ef) inputs = .ok h)
    (hn : 1 ≤ inputs.length) (hsmall : (inputs.length : Int) ≤ maxEdges + 1)
    (hef : (inputs.length : Int) ≤ ef)
    (hdim : ∀ x ∈ inputs, x.1.length = D) (hlev : ∀ x ∈ inputs, 0 ≤ x.2)
    (hq : query.length = D) :
    ∃ r dr, ∃ hr : r < inputs.length, Search h query 1 = .ok [r] ∧
      EuclideanDistance query (inputs[r]).1 = .ok dr ∧
      ∀ i (hi : i < inputs.length), ∃ di,
        EuclideanDistance query (inputs[i]).1 = .ok di ∧ dr ≤ di := by
  obtain ⟨hlen, hnodes⟩ := built_nodes hbuild
  have hwf : WellFormed h.Nodes := insertAll_wellFormed inputs wellFormed_nil hbuild
  have hpos : 0 < inputs.length := hn
  obtain ⟨n0, hn0, -, -, hd0⟩ := hnodes 0 hpos
  have hdepth : 0 < n0.Friends.length := by
    have := hlev _ (List.getElem_mem hpos)
    omega
  have hdim' : ∀ n ∈ h.Nodes, query.length ≤ n.Vector.length := by
    intro n hn
    obtain ⟨i, hi⟩ := List.mem_iff_getElem?.1 hn
    have hlt : i < inputs.length := hlen ▸ (List.getElem?_eq_some_iff.1 hi).1
    obtain ⟨n', hn', -, hv, -⟩ := hnodes i hlt
    rw [hi] at hn'
    cases hn'
    rw [hv, hdim _ (List.getElem_mem hlt), hq]
  obtain ⟨r, dr, hout, hrlt, hdr, hmin⟩ := Search_nearest_of_complete hwf
    (uniqueIDs_of_built hbuild) hn0 hdepth hdim' (built_complete hbuild hsmall hef hlev)
  have hr : r < inputs.length := hlen ▸ hrlt
  refine ⟨r, dr, hr, hout, ?_, ?_⟩
  · obtain ⟨n, hn, -, hv, -⟩ := hnodes r hr
    rw [← hv, ← distanceTo_eq hn]
    exact hdr
  · intro i hi
    obtain ⟨n, hn, -, hv, -⟩ := hnodes i hi
    obtain ⟨di, hdi, hle⟩ := hmin i (hlen ▸ hi)
    exact ⟨di, by rw [← hv, ← distanceTo_eq hn]; exact hdi, hle⟩

/-- C11 (witness): `M = 5`, `ef = 200`, the points `[1,2]`, `[2,3]`, `[3,4]`
of `TestSearchNearestNeighbor`, query `[2, 2.5]`. -/
theorem C11_exact_nearest_small_index_witness :
    insertAll (NewHNSW 5 200) testVectors = .ok testIndex ∧
    Search testIndex [2, 2.5] 1 = .ok [1] ∧
    ∃ r dr, ∃ hr : r < testVectors.length, Search testIndex [2, 2.5] 1 = .ok [r] ∧
      EuclideanDistance [2, 2.5] (testVectors[r]).1 = .ok dr ∧
      ∀ i (hi : i < testVectors.length), ∃ di,
        EuclideanDistance [2, 2.5] (testVectors[i]).1 = .ok di ∧ dr ≤ di :=
  ⟨testIndex_built, by decide!,
    C11_exact_nearest_small_index 5 200 testVectors testIndex 2 [2, 2.5] testIndex_built
      (by decide) (by decide) (by decide) (by simp [testVectors]) (by simp [testVectors])
      (by simp)⟩

/-! ## With beam width 1 the code's layer search is the search of design 4.3 -/

theorem specVisit_one {store : List Node} {query : List ℚ} {st : SearchState} {r : Nat}
    (f : Nat) (hr : st.results = [r]) :
    specVisit store query 1 st f = visitFriend store query 1 st f ∧
      ∀ st', visitFriend store query 1 st f = .ok st' → ∃ r', st'.results = [r'] := by
  unfold specVisit visitFriend
  cases hd : deref store f with
  | error err => exact ⟨rfl, fun st' h => by simp at h⟩
  | ok fn =>
    simp only
    by_cases hv : fn.ID ∈ st.visited
    · simp only [if_pos hv]
      exact ⟨trivial, fun st' h => by simp at h; subst h; exact ⟨r, hr⟩⟩
    · simp only [if_neg hv, hr, List.length_singleton, Nat.cast_one, lt_self_iff_false,
        if_false, List.getLast?_singleton]
      cases hdf : EuclideanDistance query fn.Vector with
      | error err => exact ⟨rfl, fun st' h => by simp at h⟩
      | ok df =>
        simp only
        cases hdl : distanceTo store query r with
        | error err => exact ⟨rfl, fun st' h => by simp at h⟩
        | ok dl =>
          simp only
          by_cases hlt : df < dl
          · simp only [if_pos hlt, List.dropLast_single, keyed, Nat.sub_self, List.set_cons_zero,
              sortByDistance_singleton, insertAscending, List.map_cons, List.map_nil]
            exact ⟨trivial, fun st' h => by simp at h; subst h; exact ⟨f, rfl⟩⟩
          · simp only [if_neg hlt]
            exact ⟨trivial, fun st' h => by simp at h; subst h; exact ⟨r, rfl⟩⟩

theorem specVisitAll_one {store : List Node} {query : List ℚ} (fs : List Nat)
    {st : SearchState} {r : Nat} (hr : st.results = [r]) :
    specVisitAll store query 1 fs st = visitFriends store query 1 fs st ∧
      ∀ st', visitFriends store query 1 fs st = .ok st' → ∃ r', st'.results = [r'] := by
  induction fs generalizing st r with
  | nil => exact ⟨rfl, fun st' h => by simp [visitFriends] at h; subst h; exact ⟨r, hr⟩⟩
  | cons f fs ih =>
    obtain ⟨h1, h2⟩ := @specVisit_one store query st r f hr
    unfold specVisitAll visitFriends
    rw [h1]
    cases hv : visitFriend store query 1 st f with
    | error err => exact ⟨rfl, fun st' h => by simp at h⟩
    | ok st1 =>
      obtain ⟨r1, hr1⟩ := h2 st1 hv
      exact ih hr1

theorem specSearchLoop_one {store : List Node} {query : List ℚ} {layer : Int} (fuel : Nat)
    {st : SearchState} {r : Nat} (hr : st.results = [r]) :
    specSearchLoop store query 1 layer fuel st = searchLoop store query 1 layer fuel st := by
  induction fuel generalizing st r with
  | zero => rfl
  | succ fuel ih =>
    unfold specSearchLoop searchLoop
    cases hc : st.candidates with
    | nil => rfl
    | cons c rest =>
      simp only
      cases deref store c with
      | error err => rfl
      | ok cn =>
        simp only
        cases friendsAt cn layer with
        | error err => rfl
        | ok fs =>
          simp only
          obtain ⟨h1, h2⟩ := @specVisitAll_one store query fs
            { st with candidates := rest } r hr
          rw [h1]
          cases hv : visitFriends store query 1 fs { st with candidates := rest } with
          | error err => rfl
          | ok st1 =>
            obtain ⟨r1, hr1⟩ := h2 st1 hv
            exact ih hr1

theorem specSearchLayer_one (store : List Node) (e : Nat) (query : List ℚ) (layer : Int) :
    specSearchLayer store e query 1 layer = searchLayer store e query 1 layer := by
  unfold specSearchLayer searchLayer
  cases deref store e with
  | error err => rfl
  | ok en =>
    have hcap : ¬ ((1 : Int) < 0 ∨ maxSliceCap < 1) := by decide
    simp only [if_neg hcap, sortByDistance_singleton]
    exact congrArg
      (fun (x : Except Fault (List Nat)) => match x with
        | .error err => (.error err : Except Fault (List Nat))
        | .ok results =>
          if (results.length : Int) > 1 then .ok (results.take (1 : Int).toNat) else .ok results)
      (@specSearchLoop_one store query layer (store.length + 1) ⟨[e], [en.ID], [e]⟩ e rfl)

theorem specDescend_eq (store : List Node) (query : List ℚ) (n : Nat) (cur : Int) (e : Nat) :
    specDescend store query n cur e = descend store query n cur e := by
  induction n generalizing cur e with
  | zero => rfl
  | succ n ih =>
    unfold specDescend descend
    rw [specSearchLayer_one]
    cases searchLayer store e query 1 cur with
    | error err => rfl
    | ok out =>
      cases out with
      | nil => rfl
      | cons first rest => exact ih _ _

/-! ## The code's `connectNewNode` is the connect of design 4.4 -/

theorem specFarthest_some (store : List Node) (origin : List ℚ) (fs : List Nat) (i : Nat)
    (maxDistance : ℚ) (maxIndex : Nat) :
    specFarthest store origin fs i (some (maxIndex, maxDistance))
      = (farthestFriend store origin fs i maxDistance maxIndex).map
          (fun r => some (r.2, r.1)) := by
  induction fs generalizing i maxDistance maxIndex with
  | nil => rfl
  | cons w ws ih =>
    unfold specFarthest farthestFriend
    simp only [distanceTo]
    cases deref store w with
    | error err => rfl
    | ok wn =>
      simp only
      cases EuclideanDistance origin wn.Vector with
      | error err => rfl
      | ok d =>
        simp only
        by_cases hd : d > maxDistance
        · simp only [if_pos hd]; exact ih _ _ _
        · simp only [if_neg hd]; exact ih _ _ _

theorem specFarthest_none (store : List Node) (origin : List ℚ) (w : Nat) (ws : List Nat) :
    specFarthest store origin (w :: ws) 0 none
      = (farthestFriend store origin (w :: ws) 0 0 0).map (fun r => some (r.2, r.1)) := by
  unfold specFarthest farthestFriend
  simp only [distanceTo]
  cases deref store w with
  | error err => rfl
  | ok wn =>
    simp only
    cases hd : EuclideanDistance origin wn.Vector with
    | error err => rfl
    | ok d =>
      simp only
      have h0 := EuclideanDistance_nonneg hd
      by_cases hpos : d > 0
      · simp only [if_pos hpos]; exact specFarthest_some _ _ _ _ _ _
      · have hz : d = 0 := le_antisymm (not_lt.1 hpos) h0
        subst hz
        simp only [if_neg hpos]; exact specFarthest_some _ _ _ _ _ _

theorem specConnectOne_eq (maxEdges : Int) (n : Nat) (layer : Int) (store : List Node)
    (v : Nat) :
    specConnectOne maxEdges n layer store v = connectOne maxEdges n layer store v := by
  unfold specConnectOne connectOne
  cases deref store v with
  | error err => rfl
  | ok vn =>
    simp only
    cases friendsAt vn layer with
    | error err => rfl
    | ok fs =>
      simp only
      by_cases hlen : (fs.length : Int) < maxEdges
      · simp only [if_pos hlen]
      · simp only [if_neg hlen]
        cases fs with
        | nil =>
          simp only [specFarthest, farthestFriend, distanceTo]
          cases deref store n with
          | error err => rfl
          | ok nn =>
            simp only
            cases hd : EuclideanDistance vn.Vector nn.Vector with
            | error err => rfl
            | ok d =>
              have h0 := EuclideanDistance_nonneg hd
              simp only [if_neg (not_lt.2 h0)]
        | cons w ws =>
          rw [specFarthest_none]
          cases hf : farthestFriend store vn.Vector (w :: ws) 0 0 0 with
          | error err => rfl
          | ok r =>
            obtain ⟨md, mi⟩ := r
            have hidx : mi < (w :: ws).length := by
              rcases farthestFriend_index _ _ _ _ hf with h | h
              · subst h; simp
              · simpa using h.2
            simp only [Except.map, distanceTo]
            cases deref store n with
            | error err => rfl
            | ok nn =>
              simp only
              cases EuclideanDistance vn.Vector nn.Vector with
              | error err => rfl
              | ok d =>
                simp only
                by_cases hd : d < md
                · simp only [if_pos hd, if_pos hidx]
                · simp only [if_neg hd]

theorem specConnect_eq (maxEdges : Int) (n : Nat) (layer : Int) (store : List Node)
    (neighbors : List Nat) :
    specConnect maxEdges n layer store neighbors
      = connectNewNode maxEdges n layer store neighbors := by
  induction neighbors generalizing store with
  | nil => rfl
  | cons v rest ih =>
    unfold specConnect connectNewNode
    rw [specConnectOne_eq]
    cases connectOne maxEdges n layer store v with
    | error err => rfl
    | ok store1 => exact ih _

/-- With beam width 1 and step 5c left out, step 5 of the design is the second
loop of `Insert`. -/
theorem specConnectLayers_one (maxEdges : Int) (query : List ℚ) (np ep : Nat)
    (n : Nat) (layer : Int) (store : List Node) :
    specConnectLayers false maxEdges 1 query np n layer ep store
      = connectLayers maxEdges 1 query np ep n layer store := by
  induction n generalizing layer store with
  | zero => rfl
  | succ n ih =>
    unfold specConnectLayers connectLayers
    rw [specSearchLayer_one]
    cases searchLayer store ep query 1 layer with
    | error err => rfl
    | ok C =>
      simp only
      rw [specConnect_eq]
      cases connectNewNode maxEdges np layer store C with
      | error err => rfl
      | ok store1 => simp [ih]

/-! ## `Insert` against the insertion procedure of the design -/

/-- The descent ends on a position of the store. -/
theorem descend_lt_length {store : List Node} {query : List ℚ} (n : Nat) (cur : Int)
    (e : Nat) {ep : Nat} (he : e < store.length)
    (h : descend store query n cur e = .ok ep) : ep < store.length := by
  induction n generalizing cur e with
  | zero => simp [descend] at h; exact h ▸ he
  | succ n ih =>
    unfold descend at h
    split at h
    · simp at h
    · simp at h
    · next first rest hs =>
      exact ih _ _ ((searchLayer_nodup hs).2 first (List.mem_cons_self _ _)) h

/-- The descent through `n` layers from `cur` ends on a node that has the
layer `cur - n`. -/
theorem descend_layer {store : List Node} {query : List ℚ} (hwf : WellFormed store)
    (n : Nat) (cur : Int) (e : Nat) {ep : Nat} (hn : (n : Int) ≤ cur)
    (he : (friendList store e cur.toNat).isSome)
    (h : descend store query n cur e = .ok ep) :
    (friendList store ep (cur - n).toNat).isSome := by
  induction n generalizing cur e with
  | zero => simp [descend] at h; subst h; simpa using he
  | succ n ih =>
    unfold descend at h
    split at h
    · simp at h
    · simp at h
    · next first rest hs =>
      have hmem := searchLayer_mem (fun p => (friendList store p cur.toNat).isSome) he
        (fun c cn fs f _ hcn hfs hf =>
          (hwf _ _ _ _ (friendList_eq_some.2 ⟨cn, hcn, (friendsAt_eq_ok.1 hfs).2⟩) hf).2) hs
      have hfirst := hmem first (List.mem_cons_self _ _)
      have hlay := ih (cur - 1) first (by push_cast at hn; omega)
        (friendList_lower (Int.toNat_le_toNat (by omega)) hfirst) h
      have : cur - 1 - (n : Int) = cur - ((n + 1 : Nat) : Int) := by push_cast; ring
      rwa [this] at hlay

/-- The instrumented loop computes the store of `connectLayers`. -/
theorem connectLayers_eq_trace (maxEdges ef : Int) (query : List ℚ) (np ep : Nat)
    (n : Nat) (cur : Int) (store : List Node) :
    connectLayers maxEdges ef query np ep n cur store
      = (connectLayersTrace maxEdges ef query np ep n cur store).map Prod.fst := by
  induction n generalizing cur store with
  | zero => rfl
  | succ n ih =>
    unfold connectLayers connectLayersTrace
    cases searchLayer store ep query ef cur with
    | error err => rfl
    | ok neighbors =>
      simp only
      cases connectNewNode maxEdges np cur store neighbors with
      | error err => rfl
      | ok store1 =>
        simp only
        rw [ih]
        cases connectLayersTrace maxEdges ef query np ep n (cur - 1) store1 with
        | error err => rfl
        | ok r => rfl

/-- Every iteration of the second loop of `Insert` searches from the one entry
point it was started with, on the layers `cur, cur - 1, ...` in this order. -/
theorem connectLayersTrace_records {maxEdges ef : Int} {query : List ℚ} {np ep : Nat}
    (n : Nat) (cur : Int) {store store' : List Node}
    {records : List (Int × List Node × List Nat)}
    (h : connectLayersTrace maxEdges ef query np ep n cur store = .ok (store', records)) :
    records.map (fun t => t.1) = layersFrom n cur ∧
      ∀ t ∈ records, searchLayer t.2.1 ep query ef t.1 = .ok t.2.2 := by
  induction n generalizing cur store records with
  | zero =>
    simp only [connectLayersTrace, Except.ok.injEq, Prod.mk.injEq] at h
    obtain ⟨-, rfl⟩ := h
    exact ⟨rfl, fun t ht => absurd ht (List.not_mem_nil t)⟩
  | succ n ih =>
    unfold connectLayersTrace at h
    cases hs : searchLayer store ep query ef cur with
    | error err => rw [hs] at h; simp at h
    | ok neighbors =>
      rw [hs] at h
      simp only at h
      cases hc : connectNewNode maxEdges np cur store neighbors with
      | error err => rw [hc] at h; simp at h
      | ok store1 =>
        rw [hc] at h
        simp only at h
        cases ht : connectLayersTrace maxEdges ef query np ep n (cur - 1) store1 with
        | error err => rw [ht] at h; simp at h
        | ok r =>
          obtain ⟨store2, rest⟩ := r
          rw [ht] at h
          simp only [Except.ok.injEq, Prod.mk.injEq] at h
          obtain ⟨rfl, rfl⟩ := h
          obtain ⟨h1, h2⟩ := ih (cur - 1) ht
          refine ⟨by simp [layersFrom, h1], ?_⟩
          intro t hmem
          rcases List.mem_cons.1 hmem with rfl | hmem
          · exact hs
          · exact h2 t hmem

/-- When the drawn level does not exceed the top layer of the entry node, the
clamp of step 5 is idle; with beam width 1 and step 5c left out, the insertion
procedure of the design is `Insert`. -/
theorem specInsert_eq_Insert {h : HNSW} (vector : List ℚ) (level : Int)
    (hwf : WellFormed h.Nodes) (hef : h.Ef = 1)
    (hlev : ∀ entry, h.Nodes[0]? = some entry → level ≤ (entry.Friends.length : Int) - 1) :
    specInsert false h vector level = Insert h vector level := by
  unfold specInsert Insert
  by_cases hne : h.Nodes.length = 0
  · simp only [if_pos hne]
  · simp only [if_neg hne, specDescend_eq, hef, specConnectLayers_one]
    cases hd : deref (h.Nodes ++ [freshNode h.Nodes.length vector level]) 0 with
    | error err => rfl
    | ok entry =>
      simp only
      have hentry : h.Nodes[0]? = some entry := by
        have := deref_eq_ok.1 hd
        rwa [List.getElem?_append_left (by omega)] at this
      have htop := hlev entry hentry
      cases hdesc : descend (h.Nodes ++ [freshNode h.Nodes.length vector level]) vector
          (((entry.Friends.length : Int) - 1) - level).toNat
          ((entry.Friends.length : Int) - 1) 0 with
      | error err => rfl
      | ok ep =>
        simp only
        have heplt := descend_lt_length _ _ 0 (by simp) hdesc
        obtain ⟨epNode, hepNode⟩ : ∃ epNode,
            (h.Nodes ++ [freshNode h.Nodes.length vector level])[ep]? = some epNode :=
          ⟨_, List.getElem?_eq_getElem heplt⟩
        have hderef := deref_eq_ok.2 hepNode
        have hmin : min level ((epNode.Friends.length : Int) - 1) = level := by
          apply min_eq_left
          by_cases hneg : level < 0
          · omega
          · have hwf0 := (wellFormed_append_fresh hwf h.Nodes.length vector level).1
            have he : (friendList (h.Nodes ++ [freshNode h.Nodes.length vector level]) 0
                ((entry.Friends.length : Int) - 1).toNat).isSome := by
              have hlt : ((entry.Friends.length : Int) - 1).toNat < entry.Friends.length := by
                omega
              have : friendList (h.Nodes ++ [freshNode h.Nodes.length vector level]) 0
                  ((entry.Friends.length : Int) - 1).toNat
                  = some (entry.Friends[((entry.Friends.length : Int) - 1).toNat]) :=
                friendList_eq_some.2 ⟨entry, deref_eq_ok.1 hd, List.getElem?_eq_getElem hlt⟩
              rw [this]; rfl
            have hlay := descend_layer hwf0 _ _ 0 (by omega) he hdesc
            have hcur : (entry.Friends.length : Int) - 1
                - ((((entry.Friends.length : Int) - 1) - level).toNat : Int) = level := by
              rw [Int.toNat_of_nonneg (by omega)]; ring
            rw [hcur] at hlay
            obtain ⟨fs, hfs⟩ := Option.isSome_iff_exists.1 hlay
            obtain ⟨m, hm, hl⟩ := friendList_eq_some.1 hfs
            rw [hepNode] at hm
            cases hm
            have := (List.getElem?_eq_some_iff.1 hl).1
            omega
        simp only [hderef, hmin]

theorem seedIndex_built : insertAll (NewHNSW 3 1) seedVectors = .ok seedIndex := by
  decide!

theorem seedGrown_inserted : Insert seedIndex [2] 1 = .ok seedGrown := by
  decide!

/-- C17 (counterexample): `NewHNSW(3, 1)` with `[4]`, `[0]`, `[1]` inserted on
levels 1, 0, 1, then `[2]` on level 1.  The candidates of layer 1 are `[2]`,
so the closest member of `C` is node 2 (distance 1 from the new vector).
`Insert` still searches layer 0 from node 0 (distance 2), finds `[0]` and
links the new node with node 0; the insertion procedure of the design
searches layer 0 from node 2 and links the new node with node 2. -/
theorem C17_insert_does_not_reseed :
    insertAll (NewHNSW 3 1) seedVectors = .ok seedIndex ∧
    (connectLayersTrace 3 1 [2] 3 0 2 1 (seedIndex.Nodes ++ [freshNode 3 [2] 1])).map
        (fun r => r.2.map (fun t => (t.1, t.2.2))) = .ok [(1, [2]), (0, [0])] ∧
    closestMember (seedIndex.Nodes ++ [freshNode 3 [2] 1]) [2] [2] = .ok (some 2) ∧
    Insert seedIndex [2] 1 = .ok seedGrown ∧
    specInsert true seedIndex [2] 1 = .ok seedGrownReseeded ∧
    friendList seedGrown.Nodes 3 0 = some [0] ∧
    friendList seedGrownReseeded.Nodes 3 0 = some [2] ∧
    Insert seedIndex [2] 1 ≠ specInsert true seedIndex [2] 1 := by
  decide!

/-- C17 (amended): in `Insert` the entry point is not updated between layers.
On every non-empty index built by completed inserts, a completed `Insert`
has searched the layers `L, L - 1, ..., 0` in this order, each of them from
the node the descent ended on: the neighbours connected on a layer are what
`searchLayer` returns from that node in the store of that moment.  With beam
width `ef = 1` and a drawn level that does not exceed the top layer of the
entry node, `Insert` is the insertion procedure of the design (4.3, 4.4) with
step 5c left out. -/
theorem C17_insert_keeps_descent_entry (maxEdges ef : Int) (inputs : List (List ℚ × Int))
    (h : HNSW) (vector : List ℚ) (level : Int)
    (hbuild : insertAll (NewHNSW maxEdges ef) inputs = .ok h) (hne : inputs ≠ []) :
    (∀ h', Insert h vector level = .ok h' →
      ∃ entry ep records, h.Nodes[0]? = some entry ∧
        descend (h.Nodes ++ [freshNode h.Nodes.length vector level]) vector
          (((entry.Friends.length : Int) - 1) - level).toNat
          ((entry.Friends.length : Int) - 1) 0 = .ok ep ∧
        connectLayersTrace maxEdges ef vector h.Nodes.length ep (level + 1).toNat level
          (h.Nodes ++ [freshNode h.Nodes.length vector level]) = .ok (h'.Nodes, records) ∧
        records.map (fun t => t.1) = layersFrom (level + 1).toNat level ∧
        ∀ t ∈ records, searchLayer t.2.1 ep vector ef t.1 = .ok t.2.2) ∧
    (ef = 1 →
      (∀ entry, h.Nodes[0]? = some entry → level ≤ (entry.Friends.length : Int) - 1) →
      Insert h vector level = specInsert false h vector level) := by
  obtain ⟨hlen, hM, hEf, -, -⟩ := insertAll_nodes inputs hbuild
  simp only [NewHNSW, List.length_nil, Nat.zero_add] at hlen hM hEf
  have hwf : WellFormed h.Nodes := insertAll_wellFormed inputs wellFormed_nil hbuild
  constructor
  · intro h' hins
    have hne' : h.Nodes.length ≠ 0 := by
      rw [hlen]
      exact fun hc => hne (List.length_eq_zero.1 hc)
    obtain ⟨entry, ep, store1, hentry, hep, hs, rfl⟩ := Insert_eq_ok hne' hins
    rw [hM, hEf, connectLayers_eq_trace] at hs
    cases ht : connectLayersTrace maxEdges ef vector h.Nodes.length ep (level + 1).toNat level
        (h.Nodes ++ [freshNode h.Nodes.length vector level]) with
    | error err => rw [ht] at hs; simp [Except.map] at hs
    | ok r =>
      obtain ⟨store2, records⟩ := r
      rw [ht] at hs
      simp only [Except.map, Except.ok.injEq] at hs
      subst hs
      obtain ⟨h1, h2⟩ := connectLayersTrace_records _ _ ht
      exact ⟨entry, ep, records, hentry, hep, ht, h1, h2⟩
  · intro hef hlev
    exact (specInsert_eq_Insert vector level hwf (by rw [hEf, hef]) hlev).symm

/-- C17 (witness): the index of `seedVectors`, built with beam width 1, and
the vector `[2]` drawn on level 1, the top layer of the entry node. -/
theorem C17_insert_keeps_descent_entry_witness :
    insertAll (NewHNSW 3 1) seedVectors = .ok seedIndex ∧ seedVectors ≠ [] ∧
    Insert seedIndex [2] 1 = .ok seedGrown ∧
    (∃ entry ep records, seedIndex.Nodes[0]? = some entry ∧
      descend (seedIndex.Nodes ++ [freshNode seedIndex.Nodes.length [2] 1]) [2]
        (((entry.Friends.length : Int) - 1) - 1).toNat
        ((entry.Friends.length : Int) - 1) 0 = .ok ep ∧
      connectLayersTrace 3 1 [2] seedIndex.Nodes.length ep ((1 : Int) + 1).toNat 1
        (seedIndex.Nodes ++ [freshNode seedIndex.Nodes.length [2] 1])
        = .ok (seedGrown.Nodes, records) ∧
      records.map (fun t => t.1) = layersFrom ((1 : Int) + 1).toNat 1 ∧
      ∀ t ∈ records, searchLayer t.2.1 ep [2] 1 t.1 = .ok t.2.2) ∧
    Insert seedIndex [2] 1 = specInsert false seedIndex [2] 1 :=
  ⟨seedIndex_built, by decide, seedGrown_inserted,
    (C17_insert_keeps_descent_entry 3 1 seedVectors seedIndex [2] 1 seedIndex_built
      (by decide)).1 seedGrown seedGrown_inserted,
    (C17_insert_keeps_descent_entry 3 1 seedVectors seedIndex [2] 1 seedIndex_built
      (by decide)).2 rfl
      (fun entry hentry => by
        simp only [seedIndex, List.getElem?_cons_zero, Option.some.injEq] at hentry
        subst hentry
        decide)⟩

end Graph
